import Mathlib

/-!
# GiGurra/version: parsing and ordering of free-form version strings

A shallow embedding of `version.go`.

Modelling conventions.

* A Go `string` holding valid UTF-8 text is the list of its code points (`List Char`).  On such
  strings `for _, c := range s` visits exactly these code points, `string(c)` is the one-element
  list, and the built-in byte-wise comparison `>` is the lexicographic order of the code points.
  Strings that are not valid UTF-8 are outside this reading.  For them the section "Strings as
  byte sequences" transcribes `ParseVersionPart` on bytes, with the decoding of `range` and the
  encoding of `string(c)`; on the bytes of a text the two transcriptions agree.
* Go `int` is the 64-bit signed integer.  It is embedded as `Int`; the only place where the width
  matters is the range check of `strconv.Atoi`.
* The standard library's Unicode tables (`unicode.Digit`, `unicode.LowerCase`) are not part of the
  repository.  They are a parameter (`UnicodeTables`) and every general theorem holds for all
  tables.  The ASCII / Latin-1 fast paths of `unicode.IsDigit` and `unicode.ToLower` are
  transcribed.
* `VersionPart.IsGreaterThan` and `VersionPart.IsGreaterOrEqThan` call each other without a
  decreasing argument.  The embedding bounds the depth of nested `IsGreaterThan` calls by a
  `fuel : Nat`; the result `none` means that the depth was not enough.  A call that returns in Go
  is one that gives `some b` for every large enough fuel, a call that never returns is one that
  gives `none` for every fuel.
-/

namespace GoVersion

/-! ## Standard library -/

/-- The part of the Unicode tables of Go's `unicode` package that lies beyond the transcribed
fast paths: `digit` is membership in `unicode.Digit` for code points above U+00FF, `lower` is
`unicode.To(unicode.LowerCase, r)` for code points above U+007F. -/
structure UnicodeTables where
  digit : Char → Bool
  lower : Char → Char

/-- Tables without any entry beyond the fast paths. They agree with every other table on
ASCII text. -/
def asciiTables : UnicodeTables := ⟨fun _ => false, fun c => c⟩

/-- The ASCII digits `'0'..'9'`. -/
def isAsciiDigit (c : Char) : Bool := decide (48 ≤ c.toNat) && decide (c.toNat ≤ 57)

/-- Go `unicode.IsDigit`: below U+0100 the ASCII digits, above it the table. -/
def isDigit (U : UnicodeTables) (c : Char) : Bool :=
  if c.toNat ≤ 0xFF then isAsciiDigit c else U.digit c

/-- Lower-casing of the ASCII letters `'A'..'Z'`, every other character unchanged. -/
def asciiLower (c : Char) : Char :=
  if 65 ≤ c.toNat ∧ c.toNat ≤ 90 then Char.ofNat (c.toNat + 32) else c

/-- Go `unicode.ToLower`: below U+0080 the ASCII rule, above it the table. -/
def toLowerRune (U : UnicodeTables) (c : Char) : Char :=
  if c.toNat ≤ 0x7F then asciiLower c else U.lower c

/-- Go `strings.ToLower`. -/
def ToLower (U : UnicodeTables) (s : List Char) : List Char := s.map (toLowerRune U)

/-- Go's built-in `a > b` on strings. -/
def strGreater : List Char → List Char → Bool
  | [], _ => false
  | _ :: _, [] => true
  | a :: as, b :: bs =>
    if b.toNat < a.toNat then true
    else if a.toNat < b.toNat then false
    else strGreater as bs

/-- Go `strings.HasPrefix(s, string(c))` for a one-character prefix. -/
def HasPrefix (s : List Char) (c : Char) : Bool :=
  match s with
  | [] => false
  | d :: _ => d == c

/-- Go `strings.Split(s, string(sep))` for a one-character separator: never empty, one more
segment than there are separators. -/
def Split (s : List Char) (sep : Char) : List (List Char) :=
  match s with
  | [] => [[]]
  | c :: cs =>
    if c = sep then [] :: Split cs sep
    else
      match Split cs sep with
      | [] => [[c]]
      | seg :: rest => (c :: seg) :: rest

/-- The largest Go `int`. -/
def maxInt : Int := 9223372036854775807

/-- The smallest Go `int`. -/
def minInt : Int := -9223372036854775808

/-- The value of a string of ASCII digits read in base ten. -/
def digitsValue (ds : List Char) : Nat := ds.foldl (fun acc c => acc * 10 + (c.toNat - 48)) 0

/-- Go `strconv.Atoi`, `none` standing for a non-nil error: an optional sign, then at least one
ASCII digit and nothing else, the value within the range of `int`. -/
def Atoi (s : List Char) : Option Int :=
  let neg : Bool := match s with
    | '-' :: _ => true
    | _ => false
  let ds : List Char := match s with
    | '+' :: r => r
    | '-' :: r => r
    | _ => s
  if ds.isEmpty || !ds.all isAsciiDigit then none
  else
    let v : Int := if neg then -(digitsValue ds : Int) else (digitsValue ds : Int)
    if minInt ≤ v ∧ v ≤ maxInt then some v else none

/-- The decimal digit `d < 10` as a character. -/
def digitChar (d : Nat) : Char := Char.ofNat (48 + d)

/-- The decimal digits of `n`, most significant first, in front of `acc`; `fuel` bounds the
number of digits. -/
def natDigits : Nat → Nat → List Char → List Char
  | 0, _, acc => acc
  | fuel + 1, n, acc =>
    if n < 10 then digitChar n :: acc
    else natDigits fuel (n / 10) (digitChar (n % 10) :: acc)

/-- The canonical decimal rendering of a natural number. -/
def natStr (n : Nat) : List Char := natDigits (n + 1) n []

/-- Go `strconv.Itoa`. -/
def Itoa (n : Int) : List Char :=
  if n < 0 then '-' :: natStr n.natAbs else natStr n.toNat

/-! ## Data model -/

/-- Go `type VersionPart struct`. -/
inductive VersionPart where
  | mk (Raw : List Char) (IntRepr : Int) (IsInt : Bool) (SubParts : List VersionPart)

/-- Field `Raw`. -/
def VersionPart.Raw : VersionPart → List Char
  | .mk r _ _ _ => r

/-- Field `IntRepr`. -/
def VersionPart.IntRepr : VersionPart → Int
  | .mk _ i _ _ => i

/-- Field `IsInt`. -/
def VersionPart.IsInt : VersionPart → Bool
  | .mk _ _ b _ => b

/-- Field `SubParts`. -/
def VersionPart.SubParts : VersionPart → List VersionPart
  | .mk _ _ _ s => s

/-- Go `type Version struct`. -/
structure Version where
  Major : VersionPart
  Minor : VersionPart
  Patch : VersionPart
  Parts : List VersionPart

/-- Go `Version.IsNonEmpty`. -/
def Version.IsNonEmpty (v : Version) : Bool := decide (v.Parts.length > 0)

/-- Go `Version.IsSemverRelease`. -/
def Version.IsSemverRelease (v : Version) : Bool :=
  v.IsNonEmpty && v.Parts.all (fun part => part.IsInt)

/-- Go `Version.IsValid`. -/
def Version.IsValid (v : Version) : Bool :=
  v.IsNonEmpty && v.Major.IsInt && decide (v.Major.IntRepr ≥ 0)

/-- Go `NewVersion`. -/
def NewVersion (major minor patch : Int) : Version :=
  let Major := VersionPart.mk (Itoa major) major true []
  let Minor := VersionPart.mk (Itoa minor) minor true []
  let Patch := VersionPart.mk (Itoa patch) patch true []
  { Major := Major, Minor := Minor, Patch := Patch, Parts := [Major, Minor, Patch] }

/-! ## Parser -/

/-- The closure `finalizeNewPart` of `ParseVersionPart`. -/
def finalizeNewPart (currentPartRaw : List Char) (currentIsInt : Bool) : VersionPart :=
  if currentIsInt then
    match Atoi currentPartRaw with
    | none => VersionPart.mk currentPartRaw 0 false []
    | some intRepr => VersionPart.mk currentPartRaw intRepr true []
  else VersionPart.mk currentPartRaw 0 false []

/-- The local variables of the scanning loop of `ParseVersionPart`. -/
structure ScanState where
  parts : List VersionPart
  currentPartRaw : List Char
  currentIsInt : Bool

/-- One iteration of the loop `for _, c := range part` of `ParseVersionPart`. -/
def scanStep (U : UnicodeTables) (st : ScanState) (c : Char) : ScanState :=
  if isDigit U c then
    if st.currentIsInt || st.currentPartRaw.isEmpty then
      { parts := st.parts, currentPartRaw := st.currentPartRaw ++ [c], currentIsInt := true }
    else
      { parts :=
          if st.currentPartRaw.length > 0 then
            st.parts ++ [finalizeNewPart st.currentPartRaw st.currentIsInt]
          else st.parts,
        currentPartRaw := [c], currentIsInt := true }
  else
    if !st.currentIsInt || st.currentPartRaw.isEmpty then
      { parts := st.parts, currentPartRaw := st.currentPartRaw ++ [c], currentIsInt := false }
    else
      { parts :=
          if st.currentPartRaw.length > 0 then
            st.parts ++ [finalizeNewPart st.currentPartRaw st.currentIsInt]
          else st.parts,
        currentPartRaw := [c], currentIsInt := false }

/-- The whole scanning loop of `ParseVersionPart`, from the initial values of its variables. -/
def scan (U : UnicodeTables) (part : List Char) : ScanState :=
  part.foldl (scanStep U) { parts := [], currentPartRaw := [], currentIsInt := false }

/-- Go `ParseVersionPart`. -/
def ParseVersionPart (U : UnicodeTables) (part : List Char) : VersionPart :=
  match Atoi part with
  | none =>
    let st := scan U part
    let parts :=
      if st.parts.length > 0 then
        st.parts ++ [finalizeNewPart st.currentPartRaw st.currentIsInt]
      else st.parts
    VersionPart.mk part 0 false parts
  | some intRepr => VersionPart.mk part intRepr true []

/-- The placeholder of `ParseVersion` for a missing major, minor or patch segment. -/
def zeroPart : VersionPart := VersionPart.mk [] 0 true []

/-- Go `ParseVersion`. -/
def ParseVersion (U : UnicodeTables) (versionStr : List Char) : Version :=
  let versionStr :=
    if HasPrefix versionStr 'v' || HasPrefix versionStr 'V' then versionStr.drop 1
    else versionStr
  let versionPartsRaw := Split versionStr '.'
  let Parts := versionPartsRaw.map (fun raw => ParseVersionPart U raw)
  { Major := if Parts.length ≥ 1 then Parts.getD 0 zeroPart else zeroPart,
    Minor := if Parts.length ≥ 2 then Parts.getD 1 zeroPart else zeroPart,
    Patch := if Parts.length ≥ 3 then Parts.getD 2 zeroPart else zeroPart,
    Parts := Parts }

/-! ## Comparator on parts -/

/-- The body of Go `VersionPart.IsGreaterOrEqThan`, over the comparison `gt` that stands for
`IsGreaterThan` at the remaining call depth. `||` and `&&` evaluate their right operand only
when needed. -/
def geBody (gt : VersionPart → VersionPart → Option Bool) (p other : VersionPart) :
    Option Bool :=
  match gt p other with
  | none => none
  | some true => some true
  | some false =>
    match gt p other with
    | none => none
    | some true => some false
    | some false =>
      match gt other p with
      | none => none
      | some b => some (!b)

/-- The loop of `IsGreaterThan` for two parts with the same number of sub-parts, run on the
sub-parts not yet visited. `some (some b)` is `return b`, `some none` is the end of the loop
without a `return`. -/
def eqLenLoop (gt : VersionPart → VersionPart → Option Bool) :
    List VersionPart → List VersionPart → Option (Option Bool)
  | p :: ps, o :: os =>
    match gt p o with
    | none => none
    | some true => some (some true)
    | some false =>
      match gt o p with
      | none => none
      | some true => some (some false)
      | some false =>
        if ps.isEmpty then
          match gt p o with
          | none => none
          | some b => some (some b)
        else eqLenLoop gt ps os
  | _, _ => some none

/-- The loop of `IsGreaterThan` for `len(p.SubParts) < len(other.SubParts)`, followed by its
`return true`. -/
def shorterLoop (gt : VersionPart → VersionPart → Option Bool) :
    List VersionPart → List VersionPart → Option Bool
  | p :: ps, o :: os =>
    match gt o p with
    | none => none
    | some true => some false
    | some false => shorterLoop gt ps os
  | _, _ => some true

/-- The loop of `IsGreaterThan` for `len(p.SubParts) > len(other.SubParts)`, followed by its
`return false`. -/
def longerLoop (gt : VersionPart → VersionPart → Option Bool) :
    List VersionPart → List VersionPart → Option Bool
  | p :: ps, o :: os =>
    match gt p o with
    | none => none
    | some true => some true
    | some false => longerLoop gt ps os
  | _, _ => some false

/-- The body of Go `VersionPart.IsGreaterThan`, over the comparison `gt` that stands for the
calls of `IsGreaterThan` it makes, directly or through `IsGreaterOrEqThan`. -/
def gtBody (U : UnicodeTables) (gt : VersionPart → VersionPart → Option Bool)
    (p other : VersionPart) : Option Bool :=
  if p.IsInt && other.IsInt then
    some (decide (p.IntRepr > other.IntRepr))
  else if p.IsInt && !other.IsInt then
    match other.SubParts with
    | first :: _ =>
      if first.IsInt then some (decide (p.IntRepr ≥ first.IntRepr)) else some true
    | [] => some true
  else if !p.IsInt && !other.IsInt then
    if p.SubParts.length == 0 && other.SubParts.length == 0 then
      some (strGreater (ToLower U p.Raw) (ToLower U other.Raw))
    else if p.SubParts.length == 0 then some false
    else if other.SubParts.length == 0 then some true
    else if p.SubParts.length == other.SubParts.length then
      match eqLenLoop gt p.SubParts other.SubParts with
      | none => none
      | some (some b) => some b
      | some none => some (strGreater p.Raw other.Raw)
    else if p.SubParts.length < other.SubParts.length then
      shorterLoop gt p.SubParts other.SubParts
    else if p.SubParts.length > other.SubParts.length then
      longerLoop gt p.SubParts other.SubParts
    else some (strGreater p.Raw other.Raw)
  else
    match geBody gt other p with
    | none => none
    | some b => some (!b)

/-- Go `VersionPart.IsGreaterThan`, with the depth of nested calls bounded by `fuel`. -/
def VersionPart.IsGreaterThan (U : UnicodeTables) :
    Nat → VersionPart → VersionPart → Option Bool
  | 0, _, _ => none
  | fuel + 1, p, other => gtBody U (VersionPart.IsGreaterThan U fuel) p other

/-- Go `VersionPart.IsGreaterOrEqThan`. -/
def VersionPart.IsGreaterOrEqThan (U : UnicodeTables) (fuel : Nat) (p other : VersionPart) :
    Option Bool :=
  geBody (VersionPart.IsGreaterThan U fuel) p other

/-- Go `VersionPart.IsSemanticallyEqualTo`. -/
def VersionPart.IsSemanticallyEqualTo (U : UnicodeTables) (fuel : Nat) (p other : VersionPart) :
    Option Bool :=
  match p.IsGreaterThan U fuel other with
  | none => none
  | some true => some false
  | some false =>
    match other.IsGreaterThan U fuel p with
    | none => none
    | some b => some (!b)

/-- Go `VersionPart.IsLessThan`. -/
def VersionPart.IsLessThan (U : UnicodeTables) (fuel : Nat) (p other : VersionPart) :
    Option Bool :=
  match p.IsGreaterOrEqThan U fuel other with
  | none => none
  | some b => some (!b)

/-! ## Comparator on versions -/

/-- Go `Version.String`. -/
def Version.String (v : Version) : List Char :=
  v.Major.Raw ++ '.' :: v.Minor.Raw ++ '.' :: v.Patch.Raw

/-- Go `Version.IsGreaterThan`. -/
def Version.IsGreaterThan (U : UnicodeTables) (fuel : Nat) (v other : Version) : Option Bool :=
  match v.Major.IsGreaterThan U fuel other.Major with
  | none => none
  | some true => some true
  | some false =>
    match v.Major.IsLessThan U fuel other.Major with
    | none => none
    | some true => some false
    | some false =>
      match v.Minor.IsGreaterThan U fuel other.Minor with
      | none => none
      | some true => some true
      | some false =>
        match v.Minor.IsLessThan U fuel other.Minor with
        | none => none
        | some true => some false
        | some false => v.Patch.IsGreaterThan U fuel other.Patch

/-- Go `Version.IsSemanticallyIdenticalTo`. -/
def Version.IsSemanticallyIdenticalTo (U : UnicodeTables) (fuel : Nat) (a b : Version) :
    Option Bool :=
  match a.IsGreaterThan U fuel b with
  | none => none
  | some true => some false
  | some false =>
    match b.IsGreaterThan U fuel a with
    | none => none
    | some r => some (!r)

/-- Go `Version.IsGreaterThanOrEqualTo`. -/
def Version.IsGreaterThanOrEqualTo (U : UnicodeTables) (fuel : Nat) (v other : Version) :
    Option Bool :=
  match v.IsGreaterThan U fuel other with
  | none => none
  | some true => some true
  | some false => v.IsSemanticallyIdenticalTo U fuel other

/-- Go `Version.IsLessThan`. -/
def Version.IsLessThan (U : UnicodeTables) (fuel : Nat) (v version : Version) : Option Bool :=
  match v.IsGreaterThanOrEqualTo U fuel version with
  | none => none
  | some b => some (!b)

mutual
/-- Go `VersionPart.IsFullyIdenticalTo`. -/
def VersionPart.IsFullyIdenticalTo : VersionPart → VersionPart → Bool
  | .mk r1 i1 b1 s1, .mk r2 i2 b2 s2 =>
    decide (r1 = r2) && decide (i1 = i2) && decide (b1 = b2) &&
      decide (s1.length = s2.length) && everyZip s1 s2
/-- The `lo.EveryBy(lo.Zip2(a.SubParts, b.SubParts), ...)` of `IsFullyIdenticalTo`, on two lists
of the same length. -/
def everyZip : List VersionPart → List VersionPart → Bool
  | a :: as, b :: bs => VersionPart.IsFullyIdenticalTo a b && everyZip as bs
  | _, _ => true
end

/-- Go `Version.IsFullyIdenticalTo`. -/
def Version.IsFullyIdenticalTo (a b : Version) : Bool :=
  a.Major.IsFullyIdenticalTo b.Major &&
    a.Minor.IsFullyIdenticalTo b.Minor &&
    a.Patch.IsFullyIdenticalTo b.Patch

/-- The loop of Go `Version.Raw` on the parts not yet visited: `i` is the loop index, `result`
the text built so far. -/
def rawLoop : List VersionPart → Nat → List Char → List Char
  | [], _, result => result
  | part :: rest, i, result =>
    rawLoop rest (i + 1) ((if i > 0 then result ++ ['.'] else result) ++ part.Raw)

/-- Go `Version.Raw`. -/
def Version.Raw (v : Version) : List Char := rawLoop v.Parts 0 []

/-! ## Generic helpers -/

/-- The loop of Go `FindLatestVersionBy` on the items not yet visited, with the current values
of `*latest` and `latestVersion`. The loop variable `item` is a fresh variable in every
iteration (Go 1.22), so that `latest = &item` keeps pointing at the item of that iteration. -/
def findLoop {T : Type} (U : UnicodeTables) (fuel : Nat) (fGetVersion : T → Version) :
    List T → T → Version → Option T
  | [], latest, _ => some latest
  | item :: rest, latest, latestVersion =>
    match (fGetVersion item).IsGreaterThan U fuel latestVersion with
    | none => none
    | some true => findLoop U fuel fGetVersion rest item (fGetVersion item)
    | some false => findLoop U fuel fGetVersion rest latest latestVersion

/-- Go `FindLatestVersionBy`. The outer `none` is a call that gives no result at call depth
`fuel`, `some none` is the result `nil`, `some (some x)` a pointer to the value `x`. -/
def FindLatestVersionBy {T : Type} (U : UnicodeTables) (fuel : Nat) (items : List T)
    (fGetVersion : T → Version) : Option (Option T) :=
  match items with
  | [] => some none
  | first :: _ =>
    match findLoop U fuel fGetVersion items first (fGetVersion first) with
    | none => none
    | some latest => some (some latest)

/-- Modelled from the spec: the insertion step of `SortByVersion`, whose definition is not among
the source files. The sequence sorted so far is held from its last item to its first. The new
item `x` moves in front of its left neighbour `y` unless `x` is greater than `y`: the comparator
is the negation of `versionGreaterThan`, asked of the new item against the items already
placed, from the right. -/
def insertByVersion {T : Type} (U : UnicodeTables) (fuel : Nat) (fGetVersion : T → Version)
    (x : T) : List T → Option (List T)
  | [] => some [x]
  | y :: ys =>
    match (fGetVersion x).IsGreaterThan U fuel (fGetVersion y) with
    | none => none
    | some true => some (x :: y :: ys)
    | some false =>
      match insertByVersion U fuel fGetVersion x ys with
      | none => none
      | some r => some (y :: r)

/-- Modelled from the spec: one round of `SortByVersion`, whose definition is not among the
source files. The next item `x` of the input is inserted into the sequence sorted so far;
`none` is a round that gave no result. -/
def sortStep {T : Type} (U : UnicodeTables) (fuel : Nat) (fGetVersion : T → Version)
    (sorted : Option (List T)) (x : T) : Option (List T) :=
  match sorted with
  | none => none
  | some l => insertByVersion U fuel fGetVersion x l

/-- Modelled from the spec: `SortByVersion` is called by the tests and its definition is not
among the source files. The spec gives it as a stable ascending sort with `versionGreaterThan`
(or its negation) as the comparator that produces a new sequence. Here it is the insertion
sort that stable sorting uses on short sequences, with the negation of `versionGreaterThan` as
the comparator: the items are inserted one by one, in their input order, into the sequence
sorted so far. This is the use of the comparator under which the list of `TestSortByVersion`
comes out as the test expects. With this comparator two items whose versions tie come out
with the later one first. `none` is a call that gives no result at call depth `fuel`. -/
def SortByVersion {T : Type} (U : UnicodeTables) (fuel : Nat) (items : List T)
    (fGetVersion : T → Version) : Option (List T) :=
  match items.foldl (sortStep U fuel fGetVersion) (some []) with
  | none => none
  | some l => some l.reverse

/-! ## Strings as byte sequences

A Go `string` is a sequence of bytes and need not be valid UTF-8. This section transcribes
`ParseVersionPart` on byte sequences, a byte being a natural number below 256, with the UTF-8
decoding that `for _, c := range part` does and the UTF-8 encoding that `string(c)` does. On
the bytes of a text it agrees with `ParseVersionPart` on the text
(`ParseVersionPartBytes_utf8`). -/

/-- Go `utf8.RuneError`, the code point U+FFFD. -/
def RuneError : Char := Char.ofNat 0xFFFD

/-- The tables `first` and `acceptRanges` of `unicode/utf8` on the first byte of a sequence of
several bytes: the length of the sequence and the range accepted for its second byte. `none`
for an ASCII byte and for a byte that starts no sequence. -/
def firstInfo (s0 : Nat) : Option (Nat × Nat × Nat) :=
  if 0xC2 ≤ s0 ∧ s0 ≤ 0xDF then some (2, 0x80, 0xBF)
  else if s0 = 0xE0 then some (3, 0xA0, 0xBF)
  else if (0xE1 ≤ s0 ∧ s0 ≤ 0xEC) ∨ s0 = 0xEE ∨ s0 = 0xEF then some (3, 0x80, 0xBF)
  else if s0 = 0xED then some (3, 0x80, 0x9F)
  else if s0 = 0xF0 then some (4, 0x90, 0xBF)
  else if 0xF1 ≤ s0 ∧ s0 ≤ 0xF3 then some (4, 0x80, 0xBF)
  else if s0 = 0xF4 then some (4, 0x80, 0x8F)
  else none

/-- Go `utf8.DecodeRuneInString`, the decoding step of `range` over a string: the first rune
and its width in bytes. A sequence that is not well-formed UTF-8 gives `RuneError` and the
width 1. The masks `s0 & 0x1F`, `& 0x0F`, `& 0x07`, `& 0x3F` are the remainders modulo 32, 16,
8, 64, and the shifted fields, which do not overlap, are added. -/
def DecodeRune (s : List Nat) : Char × Nat :=
  match s with
  | [] => (RuneError, 0)
  | s0 :: t =>
    if s0 < 0x80 then (Char.ofNat s0, 1)
    else
      match firstInfo s0 with
      | none => (RuneError, 1)
      | some (sz, lo, hi) =>
        if s.length < sz then (RuneError, 1)
        else
          let s1 := t.getD 0 0
          if s1 < lo ∨ hi < s1 then (RuneError, 1)
          else if sz ≤ 2 then (Char.ofNat (s0 % 32 * 64 + s1 % 64), 2)
          else
            let s2 := t.getD 1 0
            if s2 < 0x80 ∨ 0xBF < s2 then (RuneError, 1)
            else if sz ≤ 3 then (Char.ofNat (s0 % 16 * 4096 + s1 % 64 * 64 + s2 % 64), 3)
            else
              let s3 := t.getD 2 0
              if s3 < 0x80 ∨ 0xBF < s3 then (RuneError, 1)
              else
                (Char.ofNat (s0 % 8 * 262144 + s1 % 64 * 4096 + s2 % 64 * 64 + s3 % 64), 4)

/-- Go `string(c)` for a rune `c`, that is `utf8.EncodeRune`: the UTF-8 encoding of the code
point. -/
def EncodeRune (c : Char) : List Nat :=
  if c.toNat ≤ 0x7F then [c.toNat]
  else if c.toNat ≤ 0x7FF then [0xC0 + c.toNat / 64, 0x80 + c.toNat % 64]
  else if c.toNat ≤ 0xFFFF then
    [0xE0 + c.toNat / 4096, 0x80 + c.toNat / 64 % 64, 0x80 + c.toNat % 64]
  else
    [0xF0 + c.toNat / 262144, 0x80 + c.toNat / 4096 % 64, 0x80 + c.toNat / 64 % 64,
      0x80 + c.toNat % 64]

/-- The runes that `for _, c := range s` visits, in at most `fuel` iterations: each iteration
decodes one rune and moves on by its width. -/
def rangeRunes : Nat → List Nat → List Char
  | 0, _ => []
  | _ + 1, [] => []
  | fuel + 1, s0 :: t =>
    (DecodeRune (s0 :: t)).1 :: rangeRunes fuel ((s0 :: t).drop (DecodeRune (s0 :: t)).2)

/-- The runes that `for _, c := range s` visits. Every iteration moves on by one byte at least,
so that `len(s)` iterations are enough (`rangeRunes_fuel`). -/
def runes (s : List Nat) : List Char := rangeRunes s.length s

/-- The bytes of a text: the Go `string` that holds it. -/
def utf8 (text : List Char) : List Nat := text.flatMap EncodeRune

/-- The bytes `'0'..'9'`. -/
def isDigitByte (b : Nat) : Bool := decide (48 ≤ b) && decide (b ≤ 57)

/-- The value of a string of digit bytes read in base ten. -/
def digitsValueBytes (ds : List Nat) : Nat := ds.foldl (fun acc b => acc * 10 + (b - 48)) 0

/-- Go `strconv.Atoi` on the bytes of its argument, `none` standing for a non-nil error: an
optional sign byte, then at least one digit byte and nothing else, the value within the range
of `int`. -/
def AtoiBytes (s : List Nat) : Option Int :=
  let neg : Bool := match s with
    | b :: _ => b == 45
    | [] => false
  let ds : List Nat := match s with
    | b :: r => if b = 43 ∨ b = 45 then r else s
    | [] => s
  if ds.isEmpty || !ds.all isDigitByte then none
  else
    let v : Int := if neg then -(digitsValueBytes ds : Int) else (digitsValueBytes ds : Int)
    if minInt ≤ v ∧ v ≤ maxInt then some v else none

/-- Go `type VersionPart struct`, its `Raw` held as bytes. -/
inductive VersionPartBytes where
  | mk (Raw : List Nat) (IntRepr : Int) (IsInt : Bool) (SubParts : List VersionPartBytes)

/-- Field `Raw`. -/
def VersionPartBytes.Raw : VersionPartBytes → List Nat
  | .mk r _ _ _ => r

/-- Field `IntRepr`. -/
def VersionPartBytes.IntRepr : VersionPartBytes → Int
  | .mk _ i _ _ => i

/-- Field `IsInt`. -/
def VersionPartBytes.IsInt : VersionPartBytes → Bool
  | .mk _ _ b _ => b

/-- Field `SubParts`. -/
def VersionPartBytes.SubParts : VersionPartBytes → List VersionPartBytes
  | .mk _ _ _ s => s

/-- The closure `finalizeNewPart` of `ParseVersionPart`, on bytes. -/
def finalizeNewPartBytes (currentPartRaw : List Nat) (currentIsInt : Bool) : VersionPartBytes :=
  if currentIsInt then
    match AtoiBytes currentPartRaw with
    | none => VersionPartBytes.mk currentPartRaw 0 false []
    | some intRepr => VersionPartBytes.mk currentPartRaw intRepr true []
  else VersionPartBytes.mk currentPartRaw 0 false []

/-- The local variables of the scanning loop of `ParseVersionPart`, on bytes. -/
structure ScanStateBytes where
  parts : List VersionPartBytes
  currentPartRaw : List Nat
  currentIsInt : Bool

/-- One iteration of the loop `for _, c := range part` of `ParseVersionPart`, on bytes: `c` is
the rune that `range` decoded and `string(c)` its encoding. -/
def scanStepBytes (U : UnicodeTables) (st : ScanStateBytes) (c : Char) : ScanStateBytes :=
  if isDigit U c then
    if st.currentIsInt || st.currentPartRaw.isEmpty then
      { parts := st.parts, currentPartRaw := st.currentPartRaw ++ EncodeRune c,
        currentIsInt := true }
    else
      { parts :=
          if st.currentPartRaw.length > 0 then
            st.parts ++ [finalizeNewPartBytes st.currentPartRaw st.currentIsInt]
          else st.parts,
        currentPartRaw := EncodeRune c, currentIsInt := true }
  else
    if !st.currentIsInt || st.currentPartRaw.isEmpty then
      { parts := st.parts, currentPartRaw := st.currentPartRaw ++ EncodeRune c,
        currentIsInt := false }
    else
      { parts :=
          if st.currentPartRaw.length > 0 then
            st.parts ++ [finalizeNewPartBytes st.currentPartRaw st.currentIsInt]
          else st.parts,
        currentPartRaw := EncodeRune c, currentIsInt := false }

/-- The whole scanning loop of `ParseVersionPart`, on bytes. -/
def scanBytes (U : UnicodeTables) (part : List Nat) : ScanStateBytes :=
  (runes part).foldl (scanStepBytes U) { parts := [], currentPartRaw := [], currentIsInt := false }

/-- Go `ParseVersionPart` on the bytes of its argument. -/
def ParseVersionPartBytes (U : UnicodeTables) (part : List Nat) : VersionPartBytes :=
  match AtoiBytes part with
  | none =>
    let st := scanBytes U part
    let parts :=
      if st.parts.length > 0 then
        st.parts ++ [finalizeNewPartBytes st.currentPartRaw st.currentIsInt]
      else st.parts
    VersionPartBytes.mk part 0 false parts
  | some intRepr => VersionPartBytes.mk part intRepr true []

/-! ## Auxiliary notions used to state and prove the properties -/

mutual
/-- The part `p` with the ASCII letters of `Raw` lower-cased, in `p` and in all its
sub-parts. -/
def VersionPart.lowerAscii : VersionPart → VersionPart
  | .mk r i b s => .mk (r.map asciiLower) i b (lowerAsciiAll s)
/-- The function `VersionPart.lowerAscii` on every part of a list. -/
def lowerAsciiAll : List VersionPart → List VersionPart
  | [] => []
  | p :: ps => p.lowerAscii :: lowerAsciiAll ps
end

/-- A run of digits, in the sense of `unicode.IsDigit`. -/
def isDigitRun (U : UnicodeTables) (r : List Char) : Bool := r.all (fun c => isDigit U c)

/-- A run of characters that are not digits. -/
def isLiteralRun (U : UnicodeTables) (r : List Char) : Bool := r.all (fun c => !isDigit U c)

/-- Two neighbouring runs alternate: one is a run of digits, the other a run of
non-digits. -/
def alternate (U : UnicodeTables) (a b : List Char) : Prop :=
  (isDigitRun U a = true ∧ isLiteralRun U b = true) ∨
    (isLiteralRun U a = true ∧ isDigitRun U b = true)

/-- A part without sub-parts whose integer flag and value are those of `strconv.Atoi` on its
text. -/
def VersionPart.isLeaf (p : VersionPart) : Prop :=
  p.SubParts = [] ∧ p.IsInt = (Atoi p.Raw).isSome ∧ (p.IsInt = true → Atoi p.Raw = some p.IntRepr)

/-- The run that the scanning loop is reading is of the kind that `currentIsInt` says. -/
def runKind (U : UnicodeTables) (currentIsInt : Bool) (r : List Char) : Prop :=
  if currentIsInt then isDigitRun U r = true else isLiteralRun U r = true

/-- What holds of the variables of the scanning loop of `ParseVersionPart` after it has read
the characters `consumed`: the closed runs are leaves with a text, the closed runs and the
open run alternate and make up `consumed`, and the open run is empty only at the start. -/
structure ScanInv (U : UnicodeTables) (consumed : List Char) (st : ScanState) : Prop where
  leaf : ∀ p ∈ st.parts, p.isLeaf ∧ p.Raw ≠ []
  kind : runKind U st.currentIsInt st.currentPartRaw
  chain : List.Chain' (alternate U) (st.parts.map VersionPart.Raw ++ [st.currentPartRaw])
  cat : (st.parts.map VersionPart.Raw).flatten ++ st.currentPartRaw = consumed
  cur : st.parts ≠ [] → st.currentPartRaw ≠ []

/-- The string of bytes is valid UTF-8, as Go `utf8.ValidString` tells: it is the encoding of
the runes that `range` reads from it. A byte that is not part of a well-formed sequence is read
as `RuneError`, whose encoding has three bytes, so that encoding the runes gives the string
back only when every sequence is well-formed; the strings of valid UTF-8 are the bytes of the
texts (`validUTF8_iff`). -/
def validUTF8 (s : List Nat) : Bool := decide (utf8 (runes s) = s)

mutual
/-- The part with its text, and the text of its sub-parts, as bytes. -/
def VersionPart.toBytes : VersionPart → VersionPartBytes
  | .mk r i b s => .mk (utf8 r) i b (toBytesAll s)
/-- The parts of a list with their texts as bytes. -/
def toBytesAll : List VersionPart → List VersionPartBytes
  | [] => []
  | p :: ps => p.toBytes :: toBytesAll ps
end

/-- A part on bytes without sub-parts whose integer flag and value are those of `strconv.Atoi`
on its text. -/
def VersionPartBytes.isLeaf (p : VersionPartBytes) : Prop :=
  p.SubParts = [] ∧ p.IsInt = (AtoiBytes p.Raw).isSome ∧
    (p.IsInt = true → AtoiBytes p.Raw = some p.IntRepr)

/-- Two neighbouring runs of bytes alternate: the runes of one are digits, the runes of the
other are not. -/
def alternateBytes (U : UnicodeTables) (a b : List Nat) : Prop :=
  alternate U (runes a) (runes b)

/-- The version text as `ParseVersion` splits it: without the one leading `v` or `V`. -/
def stripV (versionStr : List Char) : List Char :=
  if HasPrefix versionStr 'v' || HasPrefix versionStr 'V' then versionStr.drop 1
  else versionStr

/-- The segments joined with `.` between them. -/
def joinDots : List (List Char) → List Char
  | [] => []
  | [seg] => seg
  | seg :: rest => seg ++ '.' :: joinDots rest

/-! ## Standard library: characters and decimal numbers -/

theorem digitChar_toNat (d : Nat) (h : d < 10) : (digitChar d).toNat = 48 + d := by
  unfold digitChar
  interval_cases d <;> rfl

theorem isAsciiDigit_iff (c : Char) : isAsciiDigit c = true ↔ 48 ≤ c.toNat ∧ c.toNat ≤ 57 := by
  simp [isAsciiDigit]

theorem isAsciiDigit_digitChar (d : Nat) (h : d < 10) : isAsciiDigit (digitChar d) = true := by
  rw [isAsciiDigit_iff, digitChar_toNat d h]; omega

theorem isDigit_of_isAsciiDigit (U : UnicodeTables) (c : Char) (h : isAsciiDigit c = true) :
    isDigit U c = true := by
  have h2 := (isAsciiDigit_iff c).1 h
  unfold isDigit
  rw [if_pos (by omega)]; exact h

theorem isAsciiDigit_of_isDigit_false (U : UnicodeTables) (c : Char) (h : isDigit U c = false) :
    isAsciiDigit c = false := by
  cases hc : isAsciiDigit c
  · rfl
  · rw [isDigit_of_isAsciiDigit U c hc] at h; exact absurd h (by decide)

theorem natDigits_fuel (n : Nat) : ∀ (f1 f2 : Nat) (acc : List Char), n < f1 → n < f2 →
    natDigits f1 n acc = natDigits f2 n acc := by
  induction n using Nat.strong_induction_on with
  | _ n ih =>
    intro f1 f2 acc h1 h2
    cases f1 with
    | zero => omega
    | succ a =>
      cases f2 with
      | zero => omega
      | succ b =>
        unfold natDigits
        by_cases hn : n < 10
        · simp [hn]
        · simp only [hn, if_false]
          exact ih (n / 10) (by omega) a b _ (by omega) (by omega)

theorem natDigits_acc : ∀ (f n : Nat) (acc : List Char),
    natDigits f n acc = natDigits f n [] ++ acc := by
  intro f
  induction f with
  | zero => intro n acc; simp [natDigits]
  | succ f ih =>
    intro n acc
    unfold natDigits
    by_cases hn : n < 10
    · simp [hn]
    · simp only [hn, if_false]
      rw [ih (n / 10) (digitChar (n % 10) :: acc), ih (n / 10) [digitChar (n % 10)]]
      simp

theorem natStr_small (n : Nat) (h : n < 10) : natStr n = [digitChar n] := by
  simp [natStr, natDigits, h]

theorem natStr_big (n : Nat) (h : ¬ n < 10) :
    natStr n = natStr (n / 10) ++ [digitChar (n % 10)] := by
  have h1 : natStr n = natDigits n (n / 10) [digitChar (n % 10)] := by
    simp [natStr, natDigits, h]
  rw [h1, natDigits_acc, natStr, natDigits_fuel (n / 10) n (n / 10 + 1) [] (by omega) (by omega)]

theorem natStr_all_digits (n : Nat) : ∀ c ∈ natStr n, isAsciiDigit c = true := by
  induction n using Nat.strong_induction_on with
  | _ n ih =>
    intro c hc
    by_cases hn : n < 10
    · rw [natStr_small n hn] at hc
      simp at hc; subst hc
      exact isAsciiDigit_digitChar n hn
    · rw [natStr_big n hn] at hc
      simp at hc
      rcases hc with hc | hc
      · exact ih (n / 10) (by omega) c hc
      · subst hc; exact isAsciiDigit_digitChar _ (by omega)

theorem natStr_ne_nil (n : Nat) : natStr n ≠ [] := by
  by_cases hn : n < 10
  · rw [natStr_small n hn]; simp
  · rw [natStr_big n hn]; simp

theorem digitsValue_snoc (ds : List Char) (c : Char) :
    digitsValue (ds ++ [c]) = digitsValue ds * 10 + (c.toNat - 48) := by
  simp [digitsValue, List.foldl_append]

theorem digitsValue_natStr (n : Nat) : digitsValue (natStr n) = n := by
  induction n using Nat.strong_induction_on with
  | _ n ih =>
    by_cases hn : n < 10
    · rw [natStr_small n hn]
      simp [digitsValue, digitChar_toNat n hn]
    · rw [natStr_big n hn, digitsValue_snoc, ih (n / 10) (by omega),
        digitChar_toNat _ (Nat.mod_lt n (by decide))]
      omega

/-- A canonical decimal rendering starts with an ASCII digit. -/
theorem natStr_head (n : Nat) : ∃ d ds, natStr n = d :: ds ∧ isAsciiDigit d = true := by
  cases h : natStr n with
  | nil => exact absurd h (natStr_ne_nil n)
  | cons d ds => exact ⟨d, ds, rfl, natStr_all_digits n d (by rw [h]; simp)⟩

theorem not_sign_of_digit (d : Char) (h : isAsciiDigit d = true) : d ≠ '+' ∧ d ≠ '-' := by
  rw [isAsciiDigit_iff] at h
  constructor <;> (intro hd; subst hd; revert h; decide)

/-- The value of `strconv.Atoi` on a string that does not start with a sign. -/
theorem Atoi_unsigned (d : Char) (ds : List Char) (h1 : d ≠ '+') (h2 : d ≠ '-') :
    Atoi (d :: ds) =
      if (d :: ds).all isAsciiDigit = true ∧ (digitsValue (d :: ds) : Int) ≤ maxInt then
        some (digitsValue (d :: ds) : Int) else none := by
  have hneg : (match d :: ds with | '-' :: _ => true | _ => false) = false := by
    split
    · next h => simp at h; exact absurd h.1 h2
    · rfl
  have hds : (match d :: ds with | '+' :: r => r | '-' :: r => r | _ => d :: ds) = d :: ds := by
    split
    · next h => simp at h; exact absurd h.1 h1
    · next h => simp at h; exact absurd h.1 h2
    · rfl
  unfold Atoi
  simp only [hneg, hds]
  by_cases hall : (d :: ds).all isAsciiDigit = true
  · have hmin : minInt ≤ (digitsValue (d :: ds) : Int) := by
      have : (0 : Int) ≤ (digitsValue (d :: ds) : Int) := Int.ofNat_nonneg _
      unfold minInt; omega
    simp [hall, hmin]
  · simp [hall]

theorem Atoi_natStr (n : Nat) :
    Atoi (natStr n) = if (n : Int) ≤ maxInt then some (n : Int) else none := by
  obtain ⟨d, ds, hds, hd⟩ := natStr_head n
  have hall : (d :: ds).all isAsciiDigit = true := by
    rw [← hds, List.all_eq_true]; exact natStr_all_digits n
  have hv : digitsValue (d :: ds) = n := by rw [← hds]; exact digitsValue_natStr n
  rw [hds, Atoi_unsigned d ds (not_sign_of_digit d hd).1 (not_sign_of_digit d hd).2, hv]
  simp [hall]

/-- The call `strconv.Atoi` fails on a string that has a character other than an ASCII digit
after a leading digit. -/
theorem Atoi_eq_none_of_mem (d : Char) (ds : List Char) (hd : isAsciiDigit d = true)
    (c : Char) (hc : c ∈ ds) (hnd : isAsciiDigit c = false) : Atoi (d :: ds) = none := by
  rw [Atoi_unsigned d ds (not_sign_of_digit d hd).1 (not_sign_of_digit d hd).2]
  have : ¬ ((d :: ds).all isAsciiDigit = true) := by
    rw [List.all_eq_true]
    intro h
    have := h c (List.mem_cons_of_mem d hc)
    rw [hnd] at this; exact absurd this (by decide)
  simp [this]

theorem Atoi_natStr_append (n : Nat) (x0 : Char) (xs : List Char)
    (h0 : isAsciiDigit x0 = false) : Atoi (natStr n ++ x0 :: xs) = none := by
  obtain ⟨d, ds, hds, hd⟩ := natStr_head n
  rw [hds, List.cons_append]
  exact Atoi_eq_none_of_mem d _ hd x0 (by simp) h0

/-! ## Standard library: splitting -/

theorem Split_ne_nil (s : List Char) (sep : Char) : Split s sep ≠ [] := by
  induction s with
  | nil => simp [Split]
  | cons c cs ih =>
    unfold Split
    by_cases h : c = sep
    · simp [h]
    · simp only [h, if_false]
      split <;> simp

theorem Split_no_sep (s : List Char) (sep : Char) (h : sep ∉ s) : Split s sep = [s] := by
  induction s with
  | nil => simp [Split]
  | cons c cs ih =>
    have hc : c ≠ sep := fun e => h (by simp [e])
    have hcs : sep ∉ cs := fun e => h (List.mem_cons_of_mem c e)
    simp [Split, hc, ih hcs]

theorem Split_append_sep (s t : List Char) (sep : Char) (h : sep ∉ s) :
    Split (s ++ sep :: t) sep = s :: Split t sep := by
  induction s with
  | nil => simp [Split]
  | cons c cs ih =>
    have hc : c ≠ sep := fun e => h (by simp [e])
    have hcs : sep ∉ cs := fun e => h (List.mem_cons_of_mem c e)
    rw [List.cons_append]
    simp [Split, hc, ih hcs]

theorem dot_not_digit (c : Char) (h : isAsciiDigit c = true) : c ≠ '.' := by
  rw [isAsciiDigit_iff] at h
  intro hd; subst hd; revert h; decide

theorem dot_not_mem_natStr (n : Nat) : '.' ∉ natStr n := fun h =>
  dot_not_digit '.' (natStr_all_digits n '.' h) rfl

theorem HasPrefix_digit (d : Char) (s : List Char) (c : Char) (hd : isAsciiDigit d = true)
    (hc : isAsciiDigit c = false) : HasPrefix (d :: s) c = false := by
  simp only [HasPrefix, beq_eq_false_iff_ne, ne_eq]
  intro e; subst e; rw [hd] at hc; exact absurd hc (by decide)

/-- A string that starts with a canonical decimal number has no `v` or `V` to strip. -/
theorem strip_natStr (n : Nat) (t : List Char) :
    (if HasPrefix (natStr n ++ t) 'v' || HasPrefix (natStr n ++ t) 'V' then
      (natStr n ++ t).drop 1 else natStr n ++ t) = natStr n ++ t := by
  obtain ⟨d, ds, hds, hd⟩ := natStr_head n
  rw [hds, List.cons_append, HasPrefix_digit d _ 'v' hd (by decide),
    HasPrefix_digit d _ 'V' hd (by decide)]
  simp

/-! ## The scanning loop of `ParseVersionPart` -/

theorem scan_parts_grow (U : UnicodeTables) (s : List Char) : ∀ st : ScanState,
    ∃ tl, (s.foldl (scanStep U) st).parts = st.parts ++ tl := by
  induction s with
  | nil => intro st; exact ⟨[], by simp⟩
  | cons c cs ih =>
    intro st
    obtain ⟨tl, htl⟩ := ih (scanStep U st c)
    have hstep : ∃ tl0, (scanStep U st c).parts = st.parts ++ tl0 := by
      unfold scanStep
      split
      · split
        · exact ⟨[], by simp⟩
        · split
          · exact ⟨_, rfl⟩
          · exact ⟨[], by simp⟩
      · split
        · exact ⟨[], by simp⟩
        · split
          · exact ⟨_, rfl⟩
          · exact ⟨[], by simp⟩
    obtain ⟨tl0, htl0⟩ := hstep
    exact ⟨tl0 ++ tl, by rw [List.foldl_cons, htl, htl0, List.append_assoc]⟩

/-- A run of digits extends the current digit run. -/
theorem scan_digit_run (U : UnicodeTables) (ds : List Char) (h : ∀ c ∈ ds, isDigit U c = true) :
    ∀ (parts : List VersionPart) (cur : List Char),
      ds.foldl (scanStep U) ⟨parts, cur, true⟩ = ⟨parts, cur ++ ds, true⟩ := by
  induction ds with
  | nil => intro parts cur; simp
  | cons d ds ih =>
    intro parts cur
    have hd : isDigit U d = true := h d (by simp)
    rw [List.foldl_cons]
    have : scanStep U ⟨parts, cur, true⟩ d = ⟨parts, cur ++ [d], true⟩ := by
      simp [scanStep, hd]
    rw [this, ih (fun c hc => h c (List.mem_cons_of_mem d hc))]
    simp

/-- A run of non-digits extends the current non-digit run. -/
theorem scan_literal_run (U : UnicodeTables) (t : List Char)
    (h : ∀ c ∈ t, isDigit U c = false) :
    ∀ (parts : List VersionPart) (cur : List Char),
      t.foldl (scanStep U) ⟨parts, cur, false⟩ = ⟨parts, cur ++ t, false⟩ := by
  induction t with
  | nil => intro parts cur; simp
  | cons d ds ih =>
    intro parts cur
    have hd : isDigit U d = false := h d (by simp)
    rw [List.foldl_cons]
    have : scanStep U ⟨parts, cur, false⟩ d = ⟨parts, cur ++ [d], false⟩ := by
      simp [scanStep, hd]
    rw [this, ih (fun c hc => h c (List.mem_cons_of_mem d hc))]
    simp

/-- A non-digit after a digit run closes the run. -/
theorem scanStep_close_digits (U : UnicodeTables) (parts : List VersionPart) (cur : List Char)
    (c : Char) (hc : isDigit U c = false) (hcur : cur ≠ []) :
    scanStep U ⟨parts, cur, true⟩ c = ⟨parts ++ [finalizeNewPart cur true], [c], false⟩ := by
  have h1 : cur.isEmpty = false := by cases cur <;> simp_all
  have h2 : cur.length > 0 := List.length_pos.2 hcur
  simp [scanStep, hc, h1, h2]

/-- A digit after a non-digit run closes the run. -/
theorem scanStep_close_literal (U : UnicodeTables) (parts : List VersionPart) (cur : List Char)
    (c : Char) (hc : isDigit U c = true) (hcur : cur ≠ []) :
    scanStep U ⟨parts, cur, false⟩ c = ⟨parts ++ [finalizeNewPart cur false], [c], true⟩ := by
  have h1 : cur.isEmpty = false := by cases cur <;> simp_all
  have h2 : cur.length > 0 := List.length_pos.2 hcur
  simp [scanStep, hc, h1, h2]

/-- Scanning a non-empty string of digits from the start leaves one open digit run. -/
theorem scan_digits (U : UnicodeTables) (ds : List Char) (hne : ds ≠ [])
    (h : ∀ c ∈ ds, isDigit U c = true) : scan U ds = ⟨[], ds, true⟩ := by
  cases ds with
  | nil => exact absurd rfl hne
  | cons d ds =>
    have hd : isDigit U d = true := h d (by simp)
    unfold scan
    rw [List.foldl_cons]
    have : scanStep U ⟨[], [], false⟩ d = ⟨[], [d], true⟩ := by simp [scanStep, hd]
    rw [this, scan_digit_run U ds (fun c hc => h c (List.mem_cons_of_mem d hc))]
    simp

theorem scan_append (U : UnicodeTables) (s t : List Char) :
    scan U (s ++ t) = t.foldl (scanStep U) (scan U s) := by
  simp [scan, List.foldl_append]

theorem isDigit_natStr (U : UnicodeTables) (n : Nat) : ∀ c ∈ natStr n, isDigit U c = true :=
  fun c hc => isDigit_of_isAsciiDigit U c (natStr_all_digits n c hc)

/-- The part parsed from a canonical decimal number: the integer when it fits the machine
integer, a literal without sub-parts otherwise. -/
theorem ParseVersionPart_natStr (U : UnicodeTables) (n : Nat) :
    ParseVersionPart U (natStr n) =
      if (n : Int) ≤ maxInt then VersionPart.mk (natStr n) n true []
      else VersionPart.mk (natStr n) 0 false [] := by
  unfold ParseVersionPart
  rw [Atoi_natStr]
  by_cases h : (n : Int) ≤ maxInt
  · simp [h]
  · simp [h, scan_digits U (natStr n) (natStr_ne_nil n) (isDigit_natStr U n)]

/-- After an open digit run `cur`, the first sub-part, if scanning the rest closes any run at
all, is the run `cur` extended by a prefix of the rest. -/
theorem scan_first_run (U : UnicodeTables) (rest : List Char) : ∀ cur : List Char, cur ≠ [] →
    ((rest.foldl (scanStep U) ⟨[], cur, true⟩).parts = [] ∨
      ∃ more tl, more <+: rest ∧
        (rest.foldl (scanStep U) ⟨[], cur, true⟩).parts =
          finalizeNewPart (cur ++ more) true :: tl) := by
  induction rest with
  | nil => intro cur _; left; rfl
  | cons r rs ih =>
    intro cur hcur
    rw [List.foldl_cons]
    by_cases hr : isDigit U r = true
    · have hstep : scanStep U ⟨[], cur, true⟩ r = ⟨[], cur ++ [r], true⟩ := by
        simp [scanStep, hr]
      rw [hstep]
      rcases ih (cur ++ [r]) (by simp) with h | ⟨more, tl, hpre, h⟩
      · left; exact h
      · right
        refine ⟨r :: more, tl, ?_, ?_⟩
        · exact (List.prefix_cons_inj r).2 hpre
        · rw [h]; simp
    · have hr2 : isDigit U r = false := by simpa using hr
      rw [scanStep_close_digits U [] cur r hr2 hcur]
      obtain ⟨tl, htl⟩ := scan_parts_grow U rs ⟨[] ++ [finalizeNewPart cur true], [r], false⟩
      right
      refine ⟨[], tl, List.nil_prefix, ?_⟩
      rw [htl]; simp

/-! ## The comparator on parts -/

theorem strGreater_irrefl (s : List Char) : strGreater s s = false := by
  induction s with
  | nil => rfl
  | cons c cs ih => simp [strGreater, ih]

theorem gt_int_int (U : UnicodeTables) (fuel : Nat) (r1 r2 : List Char) (i1 i2 : Int)
    (s1 s2 : List VersionPart) :
    (VersionPart.mk r1 i1 true s1).IsGreaterThan U (fuel + 1) (VersionPart.mk r2 i2 true s2) =
      some (decide (i1 > i2)) := by
  simp [VersionPart.IsGreaterThan, gtBody, VersionPart.IsInt, VersionPart.IntRepr]

/-- An integer against a part that is not one: greater, unless the other part starts with a
larger integer. -/
theorem gt_int_mixed (U : UnicodeTables) (fuel : Nat) (r1 r2 : List Char) (i1 i2 : Int)
    (s1 s2 : List VersionPart) :
    (VersionPart.mk r1 i1 true s1).IsGreaterThan U (fuel + 1) (VersionPart.mk r2 i2 false s2) =
      match s2 with
      | first :: _ => if first.IsInt then some (decide (i1 ≥ first.IntRepr)) else some true
      | [] => some true := by
  simp [VersionPart.IsGreaterThan, gtBody, VersionPart.IsInt, VersionPart.IntRepr, VersionPart.SubParts]

/-- A part that is not an integer against an integer: the negated `IsGreaterOrEqThan` of the
swapped pair, one call deeper. -/
theorem gt_mixed_int (U : UnicodeTables) (fuel : Nat) (r1 r2 : List Char) (i1 i2 : Int)
    (s1 s2 : List VersionPart) :
    (VersionPart.mk r1 i1 false s1).IsGreaterThan U (fuel + 1) (VersionPart.mk r2 i2 true s2) =
      match geBody (VersionPart.IsGreaterThan U fuel) (VersionPart.mk r2 i2 true s2)
        (VersionPart.mk r1 i1 false s1) with
      | none => none
      | some b => some (!b) := by
  simp [VersionPart.IsGreaterThan, gtBody, VersionPart.IsInt]

/-- Two literals without sub-parts are compared as lower-cased text. -/
theorem gt_literal_literal (U : UnicodeTables) (fuel : Nat) (r1 r2 : List Char) (i1 i2 : Int) :
    (VersionPart.mk r1 i1 false []).IsGreaterThan U (fuel + 1) (VersionPart.mk r2 i2 false []) =
      some (strGreater (ToLower U r1) (ToLower U r2)) := by
  simp [VersionPart.IsGreaterThan, gtBody, VersionPart.IsInt, VersionPart.SubParts, VersionPart.Raw]

/-- A part without sub-parts is not greater than itself. -/
theorem gt_leaf_self (U : UnicodeTables) (fuel : Nat) (r : List Char) (i : Int) (b : Bool) :
    (VersionPart.mk r i b []).IsGreaterThan U (fuel + 1) (VersionPart.mk r i b []) =
      some false := by
  cases b
  · rw [gt_literal_literal, strGreater_irrefl]
  · rw [gt_int_int]; simp

theorem geBody_of_gt {gt : VersionPart → VersionPart → Option Bool} {p o : VersionPart}
    (h : gt p o = some true) : geBody gt p o = some true := by
  simp [geBody, h]

theorem geBody_of_not_gt {gt : VersionPart → VersionPart → Option Bool} {p o : VersionPart}
    {b : Bool} (h : gt p o = some false) (h2 : gt o p = some b) :
    geBody gt p o = some (!b) := by
  simp [geBody, h, h2]

/-- Two parts that tie (neither is greater) are not `IsLessThan` each other. -/
theorem lt_of_tie (U : UnicodeTables) (fuel : Nat) (p o : VersionPart)
    (h1 : p.IsGreaterThan U fuel o = some false) (h2 : o.IsGreaterThan U fuel p = some false) :
    p.IsLessThan U fuel o = some false := by
  simp [VersionPart.IsLessThan, VersionPart.IsGreaterOrEqThan, geBody_of_not_gt h1 h2]

/-- When major and minor tie, the patch decides. -/
theorem Version_gt_of_ties (U : UnicodeTables) (fuel : Nat) (v o : Version)
    (h1 : v.Major.IsGreaterThan U fuel o.Major = some false)
    (h2 : o.Major.IsGreaterThan U fuel v.Major = some false)
    (h3 : v.Minor.IsGreaterThan U fuel o.Minor = some false)
    (h4 : o.Minor.IsGreaterThan U fuel v.Minor = some false) :
    v.IsGreaterThan U fuel o = v.Patch.IsGreaterThan U fuel o.Patch := by
  simp [Version.IsGreaterThan, h1, h3, lt_of_tie U fuel _ _ h1 h2, lt_of_tie U fuel _ _ h3 h4]

/-! ## Versions of three segments -/

/-- The text `a.b.c`. -/
theorem ParseVersion_three (U : UnicodeTables) (a b : Nat) (t : List Char) (ht : '.' ∉ t) :
    ParseVersion U (natStr a ++ '.' :: (natStr b ++ '.' :: t)) =
      { Major := ParseVersionPart U (natStr a),
        Minor := ParseVersionPart U (natStr b),
        Patch := ParseVersionPart U t,
        Parts := [ParseVersionPart U (natStr a), ParseVersionPart U (natStr b),
          ParseVersionPart U t] } := by
  have hs : Split (natStr a ++ '.' :: (natStr b ++ '.' :: t)) '.' = [natStr a, natStr b, t] := by
    rw [Split_append_sep _ _ _ (dot_not_mem_natStr a),
      Split_append_sep _ _ _ (dot_not_mem_natStr b), Split_no_sep _ _ ht]
  simp only [ParseVersion, strip_natStr, hs]
  simp

/-- The part of a canonical decimal number ties with itself. -/
theorem gt_natStr_self (U : UnicodeTables) (fuel n : Nat) :
    (ParseVersionPart U (natStr n)).IsGreaterThan U (fuel + 1) (ParseVersionPart U (natStr n)) =
      some false := by
  rw [ParseVersionPart_natStr]
  split <;> exact gt_leaf_self U fuel _ _ _

/-! ## More call depth never changes a result -/

theorem geBody_mono (g g' : VersionPart → VersionPart → Option Bool)
    (h : ∀ p q b, g p q = some b → g' p q = some b) (p o : VersionPart) (r : Bool)
    (hr : geBody g p o = some r) : geBody g' p o = some r := by
  unfold geBody at hr ⊢
  cases hpo : g p o with
  | none => simp [hpo] at hr
  | some b =>
    rw [h p o b hpo]
    cases b
    · cases hop : g o p with
      | none => simp [hpo, hop] at hr
      | some c =>
        rw [h o p c hop]
        simpa [hpo, hop] using hr
    · simpa [hpo] using hr

theorem eqLenLoop_mono (g g' : VersionPart → VersionPart → Option Bool)
    (h : ∀ p q b, g p q = some b → g' p q = some b) :
    ∀ (l1 l2 : List VersionPart) (r : Option Bool),
      eqLenLoop g l1 l2 = some r → eqLenLoop g' l1 l2 = some r := by
  intro l1
  induction l1 with
  | nil => intro l2 r hr; simpa [eqLenLoop] using hr
  | cons p ps ih =>
    intro l2 r hr
    cases l2 with
    | nil => simpa [eqLenLoop] using hr
    | cons o os =>
      rw [eqLenLoop] at hr ⊢
      cases hpo : g p o with
      | none => simp [hpo] at hr
      | some b =>
        rw [h p o b hpo]
        cases b
        · cases hop : g o p with
          | none => simp [hpo, hop] at hr
          | some c =>
            rw [h o p c hop]
            cases c
            · simp only [hpo, hop] at hr ⊢
              split
              · next hemp => simpa [hemp] using hr
              · next hemp =>
                simp only [hemp, if_false] at hr
                exact ih os r hr
            · simpa [hpo, hop] using hr
        · simpa [hpo] using hr

theorem shorterLoop_mono (g g' : VersionPart → VersionPart → Option Bool)
    (h : ∀ p q b, g p q = some b → g' p q = some b) :
    ∀ (l1 l2 : List VersionPart) (r : Bool),
      shorterLoop g l1 l2 = some r → shorterLoop g' l1 l2 = some r := by
  intro l1
  induction l1 with
  | nil => intro l2 r hr; simpa [shorterLoop] using hr
  | cons p ps ih =>
    intro l2 r hr
    cases l2 with
    | nil => simpa [shorterLoop] using hr
    | cons o os =>
      rw [shorterLoop] at hr ⊢
      cases hop : g o p with
      | none => simp [hop] at hr
      | some c =>
        rw [h o p c hop]
        cases c
        · simp only [hop] at hr ⊢
          exact ih os r hr
        · simpa [hop] using hr

theorem longerLoop_mono (g g' : VersionPart → VersionPart → Option Bool)
    (h : ∀ p q b, g p q = some b → g' p q = some b) :
    ∀ (l1 l2 : List VersionPart) (r : Bool),
      longerLoop g l1 l2 = some r → longerLoop g' l1 l2 = some r := by
  intro l1
  induction l1 with
  | nil => intro l2 r hr; simpa [longerLoop] using hr
  | cons p ps ih =>
    intro l2 r hr
    cases l2 with
    | nil => simpa [longerLoop] using hr
    | cons o os =>
      rw [longerLoop] at hr ⊢
      cases hpo : g p o with
      | none => simp [hpo] at hr
      | some c =>
        rw [h p o c hpo]
        cases c
        · simp only [hpo] at hr ⊢
          exact ih os r hr
        · simpa [hpo] using hr

theorem gtBody_mono (U : UnicodeTables) (g g' : VersionPart → VersionPart → Option Bool)
    (h : ∀ p q b, g p q = some b → g' p q = some b) (p o : VersionPart) (r : Bool)
    (hr : gtBody U g p o = some r) : gtBody U g' p o = some r := by
  unfold gtBody at hr ⊢
  split
  · next h1 => simpa [h1] using hr
  · next h1 =>
    simp only [h1] at hr
    split
    · next h2 => simpa [h2] using hr
    · next h2 =>
      simp only [h2] at hr
      split
      · next h3 =>
        simp only [h3, if_true] at hr
        split
        · next h4 => simpa [h4] using hr
        · next h4 =>
          simp only [h4] at hr
          split
          · next h5 => simpa [h5] using hr
          · next h5 =>
            simp only [h5] at hr
            split
            · next h6 => simpa [h6] using hr
            · next h6 =>
              simp only [h6] at hr
              split
              · next h7 =>
                simp only [h7, if_true] at hr
                cases hl : eqLenLoop g p.SubParts o.SubParts with
                | none => simp [hl] at hr
                | some x =>
                  rw [eqLenLoop_mono g g' h _ _ x hl]
                  simpa [hl] using hr
              · next h7 =>
                simp only [h7] at hr
                split
                · next h8 =>
                  simp only [h8, if_true] at hr
                  exact shorterLoop_mono g g' h _ _ r hr
                · next h8 =>
                  simp only [h8] at hr
                  split
                  · next h9 =>
                    simp only [h9, if_true] at hr
                    exact longerLoop_mono g g' h _ _ r hr
                  · next h9 => simpa [h9] using hr
      · next h3 =>
        simp only [h3] at hr
        cases hge : geBody g o p with
        | none => simp [hge] at hr
        | some b =>
          rw [geBody_mono g g' h o p b hge]
          simpa [hge] using hr

/-- A result of `IsGreaterThan` at one call depth is its result at every larger depth. -/
theorem gt_mono_succ (U : UnicodeTables) : ∀ (fuel : Nat) (p q : VersionPart) (b : Bool),
    p.IsGreaterThan U fuel q = some b → p.IsGreaterThan U (fuel + 1) q = some b := by
  intro fuel
  induction fuel with
  | zero => intro p q b h; simp [VersionPart.IsGreaterThan] at h
  | succ f ih =>
    intro p q b h
    rw [VersionPart.IsGreaterThan] at h ⊢
    exact gtBody_mono U _ _ ih p q b h

theorem gt_mono (U : UnicodeTables) (n m : Nat) (hnm : n ≤ m) (p q : VersionPart) (b : Bool)
    (h : p.IsGreaterThan U n q = some b) : p.IsGreaterThan U m q = some b := by
  induction m with
  | zero =>
    have : n = 0 := by omega
    subst this; exact h
  | succ k ih =>
    by_cases hk : n ≤ k
    · exact gt_mono_succ U k p q b (ih hk)
    · have : n = k + 1 := by omega
      subst this; exact h

/-- A result of `Version.IsGreaterThan` at one call depth is its result at every larger
depth. -/
theorem Version_gt_mono (U : UnicodeTables) (n m : Nat) (hnm : n ≤ m) (v o : Version)
    (b : Bool) (h : v.IsGreaterThan U n o = some b) : v.IsGreaterThan U m o = some b := by
  have hg : ∀ p q c, VersionPart.IsGreaterThan U n p q = some c →
      VersionPart.IsGreaterThan U m p q = some c := fun p q c => gt_mono U n m hnm p q c
  have hlt : ∀ p q c, VersionPart.IsLessThan U n p q = some c →
      VersionPart.IsLessThan U m p q = some c := by
    intro p q c hc
    unfold VersionPart.IsLessThan VersionPart.IsGreaterOrEqThan at hc ⊢
    cases hge : geBody (VersionPart.IsGreaterThan U n) p q with
    | none => simp [hge] at hc
    | some d =>
      rw [geBody_mono _ _ hg p q d hge]
      simpa [hge] using hc
  unfold Version.IsGreaterThan at h ⊢
  cases h1 : v.Major.IsGreaterThan U n o.Major with
  | none => simp [h1] at h
  | some b1 =>
    rw [hg _ _ _ h1]
    cases b1
    · simp only [h1] at h ⊢
      cases h2 : v.Major.IsLessThan U n o.Major with
      | none => simp [h2] at h
      | some b2 =>
        rw [hlt _ _ _ h2]
        cases b2
        · simp only [h2] at h ⊢
          cases h3 : v.Minor.IsGreaterThan U n o.Minor with
          | none => simp [h3] at h
          | some b3 =>
            rw [hg _ _ _ h3]
            cases b3
            · simp only [h3] at h ⊢
              cases h4 : v.Minor.IsLessThan U n o.Minor with
              | none => simp [h4] at h
              | some b4 =>
                rw [hlt _ _ _ h4]
                cases b4
                · simp only [h4] at h ⊢
                  exact hg _ _ _ h
                · simpa [h4] using h
            · simpa [h3] using h
        · simpa [h2] using h
    · simpa [h1] using h

/-- The results of `IsGreaterThan` at two call depths agree. -/
theorem gt_det (U : UnicodeTables) (n m : Nat) (p q : VersionPart) (b c : Bool)
    (h1 : p.IsGreaterThan U n q = some b) (h2 : p.IsGreaterThan U m q = some c) : b = c := by
  have e1 := gt_mono U n (max n m) (Nat.le_max_left n m) p q b h1
  have e2 := gt_mono U m (max n m) (Nat.le_max_right n m) p q c h2
  rw [e1] at e2
  exact Option.some.inj e2

/-- The results of `Version.IsGreaterThan` at two call depths agree. -/
theorem Version_gt_det (U : UnicodeTables) (n m : Nat) (v o : Version) (b c : Bool)
    (h1 : v.IsGreaterThan U n o = some b) (h2 : v.IsGreaterThan U m o = some c) : b = c := by
  have e1 := Version_gt_mono U n (max n m) (Nat.le_max_left n m) v o b h1
  have e2 := Version_gt_mono U m (max n m) (Nat.le_max_right n m) v o c h2
  rw [e1] at e2
  exact Option.some.inj e2

/-- Two versions of which one is greater than the other are not semantically identical, at
any call depth. -/
theorem Version_not_sem_of_gt (U : UnicodeTables) (n : Nat) (v o : Version)
    (h : o.IsGreaterThan U n v = some true) (fuel : Nat) :
    v.IsSemanticallyIdenticalTo U fuel o ≠ some true := by
  intro hs
  unfold Version.IsSemanticallyIdenticalTo at hs
  cases h1 : v.IsGreaterThan U fuel o with
  | none => simp [h1] at hs
  | some b =>
    cases b
    · cases h2 : o.IsGreaterThan U fuel v with
      | none => simp [h1, h2] at hs
      | some c =>
        have := Version_gt_det U n fuel o v true c h h2
        subst this
        simp [h1, h2] at hs
    · simp [h1] at hs

/-! ## C1: a release and its pre-releases -/

/-- The part parsed from a number followed by a suffix that starts with a non-digit: its first
sub-part is the number. -/
theorem ParseVersionPart_natStr_tag (U : UnicodeTables) (d : Nat) (x0 : Char) (xs : List Char)
    (hx0 : isDigit U x0 = false) :
    ∃ tl, ParseVersionPart U (natStr d ++ x0 :: xs) =
      VersionPart.mk (natStr d ++ x0 :: xs) 0 false (finalizeNewPart (natStr d) true :: tl) := by
  obtain ⟨tl, htl⟩ := scan_parts_grow U xs ⟨[] ++ [finalizeNewPart (natStr d) true], [x0], false⟩
  have hparts : (scan U (natStr d ++ x0 :: xs)).parts = finalizeNewPart (natStr d) true :: tl := by
    rw [scan_append, scan_digits U (natStr d) (natStr_ne_nil d) (isDigit_natStr U d),
      List.foldl_cons, scanStep_close_digits U [] (natStr d) x0 hx0 (natStr_ne_nil d), htl]
    simp
  unfold ParseVersionPart
  rw [Atoi_natStr_append d x0 xs (isAsciiDigit_of_isDigit_false U x0 hx0)]
  simp only [hparts]
  exact ⟨tl ++ [finalizeNewPart (scan U (natStr d ++ x0 :: xs)).currentPartRaw
    (scan U (natStr d ++ x0 :: xs)).currentIsInt], by simp⟩

/-- The part parsed from a number followed by a suffix that does not continue the number is
not an integer, and when it has sub-parts and the first one is an integer, that integer is the
number. -/
theorem ParseVersionPart_natStr_suffix (U : UnicodeTables) (c : Nat) (x0 : Char)
    (xs : List Char) (hx0 : isAsciiDigit x0 = false) :
    ∃ subs, ParseVersionPart U (natStr c ++ x0 :: xs) =
        VersionPart.mk (natStr c ++ x0 :: xs) 0 false subs ∧
      ∀ first tl, subs = first :: tl → first.IsInt = true → first.IntRepr = (c : Int) := by
  unfold ParseVersionPart
  rw [Atoi_natStr_append c x0 xs hx0, scan_append,
    scan_digits U (natStr c) (natStr_ne_nil c) (isDigit_natStr U c)]
  refine ⟨_, rfl, ?_⟩
  intro first tl hsubs hint
  rcases scan_first_run U (x0 :: xs) (natStr c) (natStr_ne_nil c) with h | ⟨more, tl2, hpre, h⟩
  · rw [h] at hsubs
    simp at hsubs
  · rw [h] at hsubs
    simp only [List.length_cons, gt_iff_lt, Nat.zero_lt_succ, if_true, List.cons_append,
      List.cons.injEq] at hsubs
    obtain ⟨hfirst, -⟩ := hsubs
    subst hfirst
    cases more with
    | nil =>
      rw [List.append_nil] at hint ⊢
      unfold finalizeNewPart at hint ⊢
      rw [Atoi_natStr] at hint ⊢
      by_cases hc : (c : Int) ≤ maxInt
      · simp [hc, VersionPart.IntRepr]
      · simp [hc, VersionPart.IsInt] at hint
    | cons m0 ms =>
      have hm0 : m0 = x0 := by
        obtain ⟨r, hr⟩ := hpre
        simp at hr; exact hr.1
      subst hm0
      unfold finalizeNewPart at hint
      rw [Atoi_natStr_append c m0 ms hx0] at hint
      simp [VersionPart.IsInt] at hint

/-- C1 (as amended): for all natural numbers a, b, c with c within the range of the machine
integer, and every non-empty suffix `x0 :: xs` that contains no '.' and whose first character
is not an ASCII digit, the release `a.b.c` is greater than the pre-release `a.b.c` ++ suffix,
the pre-release is not greater than the release, and the pre-release is less than the
release. -/
theorem C1_release_outranks_prerelease (U : UnicodeTables) (fuel a b c : Nat) (x0 : Char)
    (xs : List Char) (hc : (c : Int) ≤ maxInt) (hx0 : isAsciiDigit x0 = false)
    (hdot : '.' ∉ x0 :: xs) :
    (ParseVersion U (natStr a ++ '.' :: (natStr b ++ '.' :: natStr c))).IsGreaterThan U
        (fuel + 1)
        (ParseVersion U (natStr a ++ '.' :: (natStr b ++ '.' :: (natStr c ++ x0 :: xs)))) =
      some true ∧
    (ParseVersion U (natStr a ++ '.' :: (natStr b ++ '.' :: (natStr c ++ x0 :: xs)))).IsGreaterThan
        U (fuel + 2) (ParseVersion U (natStr a ++ '.' :: (natStr b ++ '.' :: natStr c))) =
      some false ∧
    (ParseVersion U (natStr a ++ '.' :: (natStr b ++ '.' :: (natStr c ++ x0 :: xs)))).IsLessThan
        U (fuel + 2) (ParseVersion U (natStr a ++ '.' :: (natStr b ++ '.' :: natStr c))) =
      some true := by
  have hdotP : '.' ∉ natStr c ++ x0 :: xs := by
    intro h
    rcases List.mem_append.1 h with h | h
    · exact dot_not_mem_natStr c h
    · exact hdot h
  obtain ⟨subs, hP, hfirst⟩ := ParseVersionPart_natStr_suffix U c x0 xs hx0
  have hR : ParseVersionPart U (natStr c) = VersionPart.mk (natStr c) c true [] := by
    rw [ParseVersionPart_natStr, if_pos hc]
  -- the patch of the release against the patch of the pre-release
  have hgt : ∀ f : Nat, (ParseVersionPart U (natStr c)).IsGreaterThan U (f + 1)
      (ParseVersionPart U (natStr c ++ x0 :: xs)) = some true := by
    intro f
    rw [hR, hP, gt_int_mixed]
    cases subs with
    | nil => rfl
    | cons first tl =>
      cases hi : first.IsInt
      · simp [hi]
      · simp [hi, hfirst first tl rfl hi]
  have hlt : ∀ f : Nat, (ParseVersionPart U (natStr c ++ x0 :: xs)).IsGreaterThan U (f + 2)
      (ParseVersionPart U (natStr c)) = some false := by
    intro f
    have h := hgt f
    rw [hR, hP] at h
    rw [hR, hP, gt_mixed_int, geBody_of_gt h]
    rfl
  have hRP : ∀ f : Nat, (ParseVersion U (natStr a ++ '.' :: (natStr b ++ '.' ::
      natStr c))).IsGreaterThan U (f + 1)
      (ParseVersion U (natStr a ++ '.' :: (natStr b ++ '.' :: (natStr c ++ x0 :: xs)))) =
      some true := by
    intro f
    rw [ParseVersion_three U a b _ (dot_not_mem_natStr c), ParseVersion_three U a b _ hdotP,
      Version_gt_of_ties U (f + 1) _ _ (gt_natStr_self U f a) (gt_natStr_self U f a)
        (gt_natStr_self U f b) (gt_natStr_self U f b)]
    exact hgt f
  have hPR : (ParseVersion U (natStr a ++ '.' :: (natStr b ++ '.' ::
      (natStr c ++ x0 :: xs)))).IsGreaterThan U (fuel + 2)
      (ParseVersion U (natStr a ++ '.' :: (natStr b ++ '.' :: natStr c))) = some false := by
    rw [ParseVersion_three U a b _ (dot_not_mem_natStr c), ParseVersion_three U a b _ hdotP,
      Version_gt_of_ties U (fuel + 2) _ _ (gt_natStr_self U (fuel + 1) a)
        (gt_natStr_self U (fuel + 1) a) (gt_natStr_self U (fuel + 1) b)
        (gt_natStr_self U (fuel + 1) b)]
    exact hlt fuel
  refine ⟨hRP fuel, hPR, ?_⟩
  simp [Version.IsLessThan, Version.IsGreaterThanOrEqualTo, Version.IsSemanticallyIdenticalTo,
    hPR, hRP (fuel + 1)]

/-- C1, witness: `1.2.3` against `1.2.3-RC1`. -/
theorem C1_release_outranks_prerelease_witness :
    (ParseVersion asciiTables "1.2.3".toList).IsGreaterThan asciiTables 1
        (ParseVersion asciiTables "1.2.3-RC1".toList) = some true ∧
    (ParseVersion asciiTables "1.2.3-RC1".toList).IsGreaterThan asciiTables 2
        (ParseVersion asciiTables "1.2.3".toList) = some false ∧
    (ParseVersion asciiTables "1.2.3-RC1".toList).IsLessThan asciiTables 2
        (ParseVersion asciiTables "1.2.3".toList) = some true :=
  C1_release_outranks_prerelease asciiTables 0 1 2 3 '-' "RC1".toList (by decide) (by decide)
    (by decide)

theorem gt_leaf_mixed (U : UnicodeTables) (fuel : Nat) (r1 r2 : List Char) (i1 i2 : Int)
    (x : VersionPart) (tl : List VersionPart) :
    (VersionPart.mk r1 i1 false []).IsGreaterThan U (fuel + 1)
        (VersionPart.mk r2 i2 false (x :: tl)) = some false ∧
    (VersionPart.mk r2 i2 false (x :: tl)).IsGreaterThan U (fuel + 1)
        (VersionPart.mk r1 i1 false []) = some true := by
  simp [VersionPart.IsGreaterThan, gtBody, VersionPart.IsInt, VersionPart.SubParts]

/-- C1, counterexample: with a patch number beyond the machine integer the release
`1.2.9223372036854775808` is not greater than its pre-release `1.2.9223372036854775808-RC1`, at
any call depth, and the pre-release is greater than the release; this whatever the Unicode
tables. -/
theorem C1_counterexample :
    (∀ U : UnicodeTables,
      (ParseVersion U "1.2.9223372036854775808".toList).IsGreaterThan U 2
        (ParseVersion U "1.2.9223372036854775808-RC1".toList) = some false) ∧
    (∀ U : UnicodeTables,
      (ParseVersion U "1.2.9223372036854775808-RC1".toList).IsGreaterThan U 2
        (ParseVersion U "1.2.9223372036854775808".toList) = some true) ∧
    (∀ (U : UnicodeTables) (fuel : Nat),
      (ParseVersion U "1.2.9223372036854775808".toList).IsGreaterThan U fuel
        (ParseVersion U "1.2.9223372036854775808-RC1".toList) ≠ some true) := by
  have eR : "1.2.9223372036854775808".toList =
      natStr 1 ++ '.' :: (natStr 2 ++ '.' :: natStr 9223372036854775808) := by decide
  have eP : "1.2.9223372036854775808-RC1".toList =
      natStr 1 ++ '.' :: (natStr 2 ++ '.' :: (natStr 9223372036854775808 ++
        '-' :: ['R', 'C', '1'])) := by decide
  have hparts : ∀ U : UnicodeTables,
      (ParseVersionPart U (natStr 9223372036854775808)).IsGreaterThan U 2
          (ParseVersionPart U (natStr 9223372036854775808 ++ '-' :: ['R', 'C', '1'])) =
        some false ∧
      (ParseVersionPart U (natStr 9223372036854775808 ++ '-' :: ['R', 'C', '1'])).IsGreaterThan
          U 2 (ParseVersionPart U (natStr 9223372036854775808)) = some true := by
    intro U
    obtain ⟨tl, hq⟩ := ParseVersionPart_natStr_tag U 9223372036854775808 '-' ['R', 'C', '1'] rfl
    rw [hq, ParseVersionPart_natStr, if_neg (by decide)]
    exact gt_leaf_mixed U 1 _ _ _ _ _ _
  have h : ∀ U : UnicodeTables,
      (ParseVersion U "1.2.9223372036854775808".toList).IsGreaterThan U 2
        (ParseVersion U "1.2.9223372036854775808-RC1".toList) = some false := by
    intro U
    rw [eR, eP, ParseVersion_three U 1 2 _ (by decide), ParseVersion_three U 1 2 _ (by decide),
      Version_gt_of_ties U 2 _ _ (gt_natStr_self U 1 1) (gt_natStr_self U 1 1)
        (gt_natStr_self U 1 2) (gt_natStr_self U 1 2)]
    exact (hparts U).1
  refine ⟨h, ?_, ?_⟩
  · intro U
    rw [eR, eP, ParseVersion_three U 1 2 _ (by decide), ParseVersion_three U 1 2 _ (by decide),
      Version_gt_of_ties U 2 _ _ (gt_natStr_self U 1 1) (gt_natStr_self U 1 1)
        (gt_natStr_self U 1 2) (gt_natStr_self U 1 2)]
    exact (hparts U).2
  · intro U fuel hf
    exact absurd (Version_gt_det U 2 fuel _ _ false true (h U) hf) (by decide)

/-! ## C2: pre-releases of one release -/

theorem Char_eq_of_toNat_eq (a b : Char) (h : a.toNat = b.toNat) : a = b := by
  rw [← Char.ofNat_toNat a, ← Char.ofNat_toNat b, h]

theorem strGreater_asymm : ∀ s t : List Char, strGreater s t = true → strGreater t s = false := by
  intro s
  induction s with
  | nil => intro t h; simp [strGreater] at h
  | cons a as ih =>
    intro t h
    cases t with
    | nil => simp [strGreater]
    | cons b bs =>
      simp only [strGreater] at h ⊢
      by_cases h1 : b.toNat < a.toNat
      · have h2 : ¬ a.toNat < b.toNat := by omega
        simp [h1, h2]
      · by_cases h2 : a.toNat < b.toNat
        · simp [h1, h2] at h
        · simp only [h1, h2, if_false] at h ⊢
          exact ih bs h

theorem strGreater_total : ∀ s t : List Char, strGreater s t = false → strGreater t s = false →
    s = t := by
  intro s
  induction s with
  | nil =>
    intro t _ h2
    cases t with
    | nil => rfl
    | cons b bs => simp [strGreater] at h2
  | cons a as ih =>
    intro t h1 h2
    cases t with
    | nil => simp [strGreater] at h1
    | cons b bs =>
      simp only [strGreater] at h1 h2
      by_cases hba : b.toNat < a.toNat
      · simp [hba] at h1
      · by_cases hab : a.toNat < b.toNat
        · simp [hab] at h2
        · simp only [hba, hab, if_false] at h1 h2
          have : a = b := Char_eq_of_toNat_eq a b (by omega)
          rw [this, ih bs h1 h2]

theorem finalizeNewPart_literal (raw : List Char) :
    finalizeNewPart raw false = VersionPart.mk raw 0 false [] := by
  simp [finalizeNewPart]

theorem finalizeNewPart_natStr (n : Nat) (h : (n : Int) ≤ maxInt) :
    finalizeNewPart (natStr n) true = VersionPart.mk (natStr n) n true [] := by
  simp [finalizeNewPart, Atoi_natStr, h]

/-- A run closed by the parser has no sub-parts of its own. -/
theorem finalizeNewPart_leaf (raw : List Char) (isInt : Bool) :
    ∃ i b, finalizeNewPart raw isInt = VersionPart.mk raw i b [] := by
  unfold finalizeNewPart
  cases isInt
  · exact ⟨0, false, by simp⟩
  · cases Atoi raw with
    | none => exact ⟨0, false, by simp⟩
    | some v => exact ⟨v, true, by simp⟩

theorem gt_finalize_self (U : UnicodeTables) (fuel : Nat) (raw : List Char) (isInt : Bool) :
    (finalizeNewPart raw isInt).IsGreaterThan U (fuel + 1) (finalizeNewPart raw isInt) =
      some false := by
  obtain ⟨i, b, h⟩ := finalizeNewPart_leaf raw isInt
  rw [h]; exact gt_leaf_self U fuel raw i b

/-- The segment `c` ++ tag ++ `m`: a number, a tag without digits, a number. -/
theorem ParseVersionPart_number_tag_number (U : UnicodeTables) (c m : Nat) (t0 : Char)
    (ts : List Char) (ht : ∀ ch ∈ t0 :: ts, isDigit U ch = false) :
    ParseVersionPart U (natStr c ++ ((t0 :: ts) ++ natStr m)) =
      VersionPart.mk (natStr c ++ ((t0 :: ts) ++ natStr m)) 0 false
        [finalizeNewPart (natStr c) true, VersionPart.mk (t0 :: ts) 0 false [],
          finalizeNewPart (natStr m) true] := by
  have ht0 : isDigit U t0 = false := ht t0 (by simp)
  have hts : ∀ ch ∈ ts, isDigit U ch = false := fun ch h => ht ch (List.mem_cons_of_mem t0 h)
  obtain ⟨d, ds, hds, hd⟩ := natStr_head m
  have hdd : isDigit U d = true := isDigit_of_isAsciiDigit U d hd
  have hdsd : ∀ ch ∈ ds, isDigit U ch = true := fun ch h =>
    isDigit_natStr U m ch (by rw [hds]; exact List.mem_cons_of_mem d h)
  have hscan : scan U (natStr c ++ ((t0 :: ts) ++ natStr m)) =
      ⟨[finalizeNewPart (natStr c) true, VersionPart.mk (t0 :: ts) 0 false []],
        natStr m, true⟩ := by
    rw [scan_append, scan_digits U (natStr c) (natStr_ne_nil c) (isDigit_natStr U c),
      List.foldl_append, List.foldl_cons,
      scanStep_close_digits U [] (natStr c) t0 ht0 (natStr_ne_nil c),
      scan_literal_run U ts hts, hds, List.foldl_cons,
      scanStep_close_literal U _ _ d hdd (by simp), scan_digit_run U ds hdsd,
      finalizeNewPart_literal]
    simp
  unfold ParseVersionPart
  rw [List.cons_append, Atoi_natStr_append c t0 _ (isAsciiDigit_of_isDigit_false U t0 ht0),
    ← List.cons_append, hscan]
  simp

/-- The equal-length loop on three pairs of sub-parts of which the first pair ties. -/
theorem eqLenLoop_three (g : VersionPart → VersionPart → Option Bool)
    (p1 p2 p3 o1 o2 o3 : VersionPart) (x y z w : Bool)
    (h1 : g p1 o1 = some false) (h1' : g o1 p1 = some false)
    (h2 : g p2 o2 = some x) (h2' : g o2 p2 = some y)
    (h3 : g p3 o3 = some z) (h3' : g o3 p3 = some w) :
    eqLenLoop g [p1, p2, p3] [o1, o2, o3] = some (some (x || (!y && z))) := by
  cases x <;> cases y <;> cases z <;> cases w <;>
    simp [eqLenLoop, h1, h1', h2, h2', h3, h3']

/-- The value of `IsGreaterThan` on two segments `c` ++ tag ++ number. -/
theorem gt_number_tag_number (U : UnicodeTables) (fuel c m n : Nat) (t0 u0 : Char)
    (ts us : List Char) (ht : ∀ ch ∈ t0 :: ts, isDigit U ch = false)
    (hu : ∀ ch ∈ u0 :: us, isDigit U ch = false)
    (hm : (m : Int) ≤ maxInt) (hn : (n : Int) ≤ maxInt) :
    (ParseVersionPart U (natStr c ++ ((t0 :: ts) ++ natStr m))).IsGreaterThan U (fuel + 2)
        (ParseVersionPart U (natStr c ++ ((u0 :: us) ++ natStr n))) =
      some (strGreater (ToLower U (t0 :: ts)) (ToLower U (u0 :: us)) ||
        (!strGreater (ToLower U (u0 :: us)) (ToLower U (t0 :: ts)) && decide (m > n))) := by
  rw [ParseVersionPart_number_tag_number U c m t0 ts ht,
    ParseVersionPart_number_tag_number U c n u0 us hu,
    finalizeNewPart_natStr m hm, finalizeNewPart_natStr n hn]
  have h := eqLenLoop_three (VersionPart.IsGreaterThan U (fuel + 1)) _ _ _ _ _ _ _ _ _ _
    (gt_finalize_self U fuel (natStr c) true) (gt_finalize_self U fuel (natStr c) true)
    (gt_literal_literal U fuel (t0 :: ts) (u0 :: us) 0 0)
    (gt_literal_literal U fuel (u0 :: us) (t0 :: ts) 0 0)
    (gt_int_int U fuel (natStr m) (natStr n) m n [] [])
    (gt_int_int U fuel (natStr n) (natStr m) n m [] [])
  rw [VersionPart.IsGreaterThan, gtBody]
  simp only [VersionPart.IsInt, VersionPart.SubParts, h]
  simp

/-- When the two directions of `IsGreaterThan` never both hold, `IsLessThan` is the swapped
`IsGreaterThan`. -/
theorem Version_lt_eq_swap (U : UnicodeTables) (fuel : Nat) (v o : Version) (x y : Bool)
    (h1 : v.IsGreaterThan U fuel o = some x) (h2 : o.IsGreaterThan U fuel v = some y)
    (hxy : x = true → y = false) : v.IsLessThan U fuel o = some y := by
  cases x
  · simp [Version.IsLessThan, Version.IsGreaterThanOrEqualTo, Version.IsSemanticallyIdenticalTo,
      h1, h2]
  · simp [Version.IsLessThan, Version.IsGreaterThanOrEqualTo, h1, hxy rfl]

theorem tag_number_value (s t : List Char) (m n : Nat) :
    (strGreater s t || (!strGreater t s && decide (m > n))) =
      decide (strGreater s t = true ∨ (s = t ∧ m > n)) := by
  cases hx : strGreater s t
  · cases hy : strGreater t s
    · have := strGreater_total s t hx hy
      simp [this]
    · have hne : s ≠ t := by
        intro e; rw [e, strGreater_irrefl] at hy; exact absurd hy (by decide)
      simp [hne]
  · simp

theorem tag_number_asymm (s t : List Char) (m n : Nat) :
    (strGreater s t || (!strGreater t s && decide (m > n))) = true →
      (strGreater t s || (!strGreater s t && decide (n > m))) = false := by
  cases hx : strGreater s t
  · cases hy : strGreater t s
    · simp; omega
    · simp
  · simp [strGreater_asymm s t hx]

theorem not_mem_tag_number (c m : Nat) (t : List Char) (h : '.' ∉ t) :
    '.' ∉ natStr c ++ (t ++ natStr m) := by
  intro hmem
  rcases List.mem_append.1 hmem with h1 | h1
  · exact dot_not_mem_natStr c h1
  · rcases List.mem_append.1 h1 with h2 | h2
    · exact h h2
    · exact dot_not_mem_natStr m h2

/-- C2 (as amended): for all natural numbers a, b, c, m, n with m and n within the range of the
machine integer and all non-empty tags `t0 :: ts`, `u0 :: us` without a digit (in the sense of
`unicode.IsDigit`) and without '.', the version `a.b.c` ++ t ++ `m` is greater than the version
`a.b.c` ++ u ++ `n` exactly when lower(t) > lower(u), or lower(t) = lower(u) and m > n; and it
is less than the other exactly when the other is greater than it. -/
theorem C2_prerelease_order (U : UnicodeTables) (fuel a b c m n : Nat) (t0 u0 : Char)
    (ts us : List Char) (ht : ∀ ch ∈ t0 :: ts, isDigit U ch = false)
    (hu : ∀ ch ∈ u0 :: us, isDigit U ch = false)
    (htdot : '.' ∉ t0 :: ts) (hudot : '.' ∉ u0 :: us)
    (hm : (m : Int) ≤ maxInt) (hn : (n : Int) ≤ maxInt) :
    (ParseVersion U (natStr a ++ '.' :: (natStr b ++ '.' ::
        (natStr c ++ ((t0 :: ts) ++ natStr m))))).IsGreaterThan U (fuel + 2)
      (ParseVersion U (natStr a ++ '.' :: (natStr b ++ '.' ::
        (natStr c ++ ((u0 :: us) ++ natStr n))))) =
      some (decide (strGreater (ToLower U (t0 :: ts)) (ToLower U (u0 :: us)) = true ∨
        (ToLower U (t0 :: ts) = ToLower U (u0 :: us) ∧ m > n))) ∧
    (ParseVersion U (natStr a ++ '.' :: (natStr b ++ '.' ::
        (natStr c ++ ((t0 :: ts) ++ natStr m))))).IsLessThan U (fuel + 2)
      (ParseVersion U (natStr a ++ '.' :: (natStr b ++ '.' ::
        (natStr c ++ ((u0 :: us) ++ natStr n))))) =
      (ParseVersion U (natStr a ++ '.' :: (natStr b ++ '.' ::
        (natStr c ++ ((u0 :: us) ++ natStr n))))).IsGreaterThan U (fuel + 2)
      (ParseVersion U (natStr a ++ '.' :: (natStr b ++ '.' ::
        (natStr c ++ ((t0 :: ts) ++ natStr m))))) := by
  have hVW : ∀ (m n : Nat) (t0 u0 : Char) (ts us : List Char),
      (∀ ch ∈ t0 :: ts, isDigit U ch = false) → (∀ ch ∈ u0 :: us, isDigit U ch = false) →
      '.' ∉ t0 :: ts → '.' ∉ u0 :: us → (m : Int) ≤ maxInt → (n : Int) ≤ maxInt →
      (ParseVersion U (natStr a ++ '.' :: (natStr b ++ '.' ::
          (natStr c ++ ((t0 :: ts) ++ natStr m))))).IsGreaterThan U (fuel + 2)
        (ParseVersion U (natStr a ++ '.' :: (natStr b ++ '.' ::
          (natStr c ++ ((u0 :: us) ++ natStr n))))) =
        some (strGreater (ToLower U (t0 :: ts)) (ToLower U (u0 :: us)) ||
          (!strGreater (ToLower U (u0 :: us)) (ToLower U (t0 :: ts)) && decide (m > n))) := by
    intro m n t0 u0 ts us ht hu htdot hudot hm hn
    rw [ParseVersion_three U a b _ (not_mem_tag_number c m _ htdot),
      ParseVersion_three U a b _ (not_mem_tag_number c n _ hudot),
      Version_gt_of_ties U (fuel + 2) _ _ (gt_natStr_self U (fuel + 1) a)
        (gt_natStr_self U (fuel + 1) a) (gt_natStr_self U (fuel + 1) b)
        (gt_natStr_self U (fuel + 1) b)]
    exact gt_number_tag_number U fuel c m n t0 u0 ts us ht hu hm hn
  have h1 := hVW m n t0 u0 ts us ht hu htdot hudot hm hn
  have h2 := hVW n m u0 t0 us ts hu ht hudot htdot hn hm
  refine ⟨by rw [h1, tag_number_value], ?_⟩
  rw [h2]
  exact Version_lt_eq_swap U (fuel + 2) _ _ _ _ h1 h2 (tag_number_asymm _ _ m n)

/-- C2, witness: `1.2.3-RC11` against `1.2.3-RC2`, and the chain
`1.2.3-alpha2 < 1.2.3-beta1 < 1.2.3-RC1 < 1.2.3-RC2 < 1.2.3-RC11`. -/
theorem C2_prerelease_order_witness :
    ((ParseVersion asciiTables "1.2.3-RC11".toList).IsGreaterThan asciiTables 2
        (ParseVersion asciiTables "1.2.3-RC2".toList) =
      some (decide (strGreater (ToLower asciiTables "-RC".toList)
          (ToLower asciiTables "-RC".toList) = true ∨
        (ToLower asciiTables "-RC".toList = ToLower asciiTables "-RC".toList ∧ 11 > 2))) ∧
      (ParseVersion asciiTables "1.2.3-RC11".toList).IsLessThan asciiTables 2
        (ParseVersion asciiTables "1.2.3-RC2".toList) =
      (ParseVersion asciiTables "1.2.3-RC2".toList).IsGreaterThan asciiTables 2
        (ParseVersion asciiTables "1.2.3-RC11".toList)) ∧
    (ParseVersion asciiTables "1.2.3-alpha2".toList).IsLessThan asciiTables 2
      (ParseVersion asciiTables "1.2.3-beta1".toList) = some true ∧
    (ParseVersion asciiTables "1.2.3-beta1".toList).IsLessThan asciiTables 2
      (ParseVersion asciiTables "1.2.3-RC1".toList) = some true ∧
    (ParseVersion asciiTables "1.2.3-RC1".toList).IsLessThan asciiTables 2
      (ParseVersion asciiTables "1.2.3-RC2".toList) = some true ∧
    (ParseVersion asciiTables "1.2.3-RC2".toList).IsLessThan asciiTables 2
      (ParseVersion asciiTables "1.2.3-RC11".toList) = some true :=
  ⟨C2_prerelease_order asciiTables 0 1 2 3 11 2 '-' '-' "RC".toList "RC".toList (by decide)
    (by decide) (by decide) (by decide) (by decide) (by decide),
    by decide, by decide, by decide, by decide⟩

/-- C2, counterexample: with a tag number beyond the machine integer,
`1.2.3-RC9223372036854775808` is not greater than `1.2.3-RC1`, at any call depth, although the
tags are equal and 9223372036854775808 > 1; `1.2.3-RC1` is the greater one; this whatever the
Unicode tables. -/
theorem C2_counterexample :
    (∀ U : UnicodeTables,
      (ParseVersion U "1.2.3-RC9223372036854775808".toList).IsGreaterThan U 3
        (ParseVersion U "1.2.3-RC1".toList) = some false) ∧
    (∀ U : UnicodeTables,
      (ParseVersion U "1.2.3-RC1".toList).IsGreaterThan U 3
        (ParseVersion U "1.2.3-RC9223372036854775808".toList) = some true) ∧
    (∀ (U : UnicodeTables) (fuel : Nat),
      (ParseVersion U "1.2.3-RC9223372036854775808".toList).IsGreaterThan U fuel
        (ParseVersion U "1.2.3-RC1".toList) ≠ some true) := by
  have eV : "1.2.3-RC9223372036854775808".toList =
      natStr 1 ++ '.' :: (natStr 2 ++ '.' :: (natStr 3 ++ (['-', 'R', 'C'] ++
        natStr 9223372036854775808))) := by decide
  have eW : "1.2.3-RC1".toList =
      natStr 1 ++ '.' :: (natStr 2 ++ '.' :: (natStr 3 ++ (['-', 'R', 'C'] ++
        natStr 1))) := by decide
  have hparts : ∀ U : UnicodeTables,
      (ParseVersionPart U (natStr 3 ++ (['-', 'R', 'C'] ++
          natStr 9223372036854775808))).IsGreaterThan U 3
        (ParseVersionPart U (natStr 3 ++ (['-', 'R', 'C'] ++ natStr 1))) = some false ∧
      (ParseVersionPart U (natStr 3 ++ (['-', 'R', 'C'] ++ natStr 1))).IsGreaterThan U 3
        (ParseVersionPart U (natStr 3 ++ (['-', 'R', 'C'] ++
          natStr 9223372036854775808))) = some true := by
    intro U
    have hbig : finalizeNewPart (natStr 9223372036854775808) true =
        VersionPart.mk (natStr 9223372036854775808) 0 false [] := by
      simp [finalizeNewPart, Atoi_natStr, maxInt]
    have hone : finalizeNewPart (natStr 1) true = VersionPart.mk (natStr 1) 1 true [] := by
      rw [finalizeNewPart_natStr 1 (by decide)]; rfl
    have hint : (VersionPart.mk (natStr 1) 1 true []).IsGreaterThan U 2
        (VersionPart.mk (natStr 9223372036854775808) 0 false []) = some true := by
      rw [gt_int_mixed]
    have hlit : (VersionPart.mk (natStr 9223372036854775808) 0 false []).IsGreaterThan U 2
        (VersionPart.mk (natStr 1) 1 true []) = some false := by
      have h1 : (VersionPart.mk (natStr 1) 1 true []).IsGreaterThan U 1
          (VersionPart.mk (natStr 9223372036854775808) 0 false []) = some true := by
        rw [gt_int_mixed]
      rw [gt_mixed_int, geBody_of_gt h1]; rfl
    have htag : ∀ ch ∈ ['-', 'R', 'C'], isDigit U ch = false := by
      intro ch hch
      simp only [List.mem_cons, List.mem_singleton, List.not_mem_nil, or_false] at hch
      rcases hch with rfl | rfl | rfl <;> rfl
    rw [ParseVersionPart_number_tag_number U 3 _ '-' ['R', 'C'] htag,
      ParseVersionPart_number_tag_number U 3 _ '-' ['R', 'C'] htag, hbig, hone]
    have hloop1 := eqLenLoop_three (VersionPart.IsGreaterThan U 2) _ _ _ _ _ _ _ _ _ _
      (gt_finalize_self U 1 (natStr 3) true) (gt_finalize_self U 1 (natStr 3) true)
      (gt_literal_literal U 1 ['-', 'R', 'C'] ['-', 'R', 'C'] 0 0)
      (gt_literal_literal U 1 ['-', 'R', 'C'] ['-', 'R', 'C'] 0 0) hlit hint
    have hloop2 := eqLenLoop_three (VersionPart.IsGreaterThan U 2) _ _ _ _ _ _ _ _ _ _
      (gt_finalize_self U 1 (natStr 3) true) (gt_finalize_self U 1 (natStr 3) true)
      (gt_literal_literal U 1 ['-', 'R', 'C'] ['-', 'R', 'C'] 0 0)
      (gt_literal_literal U 1 ['-', 'R', 'C'] ['-', 'R', 'C'] 0 0) hint hlit
    rw [strGreater_irrefl] at hloop1 hloop2
    constructor
    · rw [VersionPart.IsGreaterThan, gtBody]
      simp only [VersionPart.IsInt, VersionPart.SubParts]
      rw [hloop1]
      simp
    · rw [VersionPart.IsGreaterThan, gtBody]
      simp only [VersionPart.IsInt, VersionPart.SubParts]
      rw [hloop2]
      simp
  have h : ∀ U : UnicodeTables,
      (ParseVersion U "1.2.3-RC9223372036854775808".toList).IsGreaterThan U 3
        (ParseVersion U "1.2.3-RC1".toList) = some false := by
    intro U
    rw [eV, eW, ParseVersion_three U 1 2 _ (by decide), ParseVersion_three U 1 2 _ (by decide),
      Version_gt_of_ties U 3 _ _ (gt_natStr_self U 2 1) (gt_natStr_self U 2 1)
        (gt_natStr_self U 2 2) (gt_natStr_self U 2 2)]
    exact (hparts U).1
  refine ⟨h, ?_, ?_⟩
  · intro U
    rw [eV, eW, ParseVersion_three U 1 2 _ (by decide), ParseVersion_three U 1 2 _ (by decide),
      Version_gt_of_ties U 3 _ _ (gt_natStr_self U 2 1) (gt_natStr_self U 2 1)
        (gt_natStr_self U 2 2) (gt_natStr_self U 2 2)]
    exact (hparts U).2
  · intro U fuel hf
    exact absurd (Version_gt_det U 3 fuel _ _ false true (h U) hf) (by decide)

/-! ## C3: a chain that is not transitive -/

/-- C3, the code at the failing input: `1.2.2d` is greater than `1.2.2c1`, `1.2.2c1` is greater
than `1.2.3b`, and `1.2.2d` is not greater than `1.2.3b`, at any call depth; the same for the
patch segments as parts. -/
theorem C3_not_transitive (U : UnicodeTables) :
    (ParseVersion U "1.2.2d".toList).IsGreaterThan U 3 (ParseVersion U "1.2.2c1".toList) =
      some true ∧
    (ParseVersion U "1.2.2c1".toList).IsGreaterThan U 3 (ParseVersion U "1.2.3b".toList) =
      some true ∧
    (ParseVersion U "1.2.2d".toList).IsGreaterThan U 3 (ParseVersion U "1.2.3b".toList) =
      some false ∧
    (∀ fuel : Nat, (ParseVersion U "1.2.2d".toList).IsGreaterThan U fuel
        (ParseVersion U "1.2.3b".toList) ≠ some true) ∧
    (ParseVersionPart U "2d".toList).IsGreaterThan U 2 (ParseVersionPart U "2c1".toList) =
      some true ∧
    (ParseVersionPart U "2c1".toList).IsGreaterThan U 2 (ParseVersionPart U "3b".toList) =
      some true ∧
    (ParseVersionPart U "2d".toList).IsGreaterThan U 2 (ParseVersionPart U "3b".toList) =
      some false ∧
    (∀ fuel : Nat, (ParseVersionPart U "2d".toList).IsGreaterThan U fuel
        (ParseVersionPart U "3b".toList) ≠ some true) := by
  have h : (ParseVersion U "1.2.2d".toList).IsGreaterThan U 3
      (ParseVersion U "1.2.3b".toList) = some false := rfl
  have hp : (ParseVersionPart U "2d".toList).IsGreaterThan U 2
      (ParseVersionPart U "3b".toList) = some false := rfl
  refine ⟨rfl, rfl, h, ?_, rfl, rfl, hp, ?_⟩
  · intro fuel hf
    exact absurd (Version_gt_det U 3 fuel _ _ false true h hf) (by decide)
  · intro fuel hf
    exact absurd (gt_det U 2 fuel _ _ false true hp hf) (by decide)

/-! ## C4: purely numeric versions -/

theorem NewVersion_gt (U : UnicodeTables) (fuel : Nat) (a b c d e f : Int) :
    (NewVersion a b c).IsGreaterThan U (fuel + 1) (NewVersion d e f) =
      some (decide (a > d ∨ (a = d ∧ b > e) ∨ (a = d ∧ b = e ∧ c > f))) := by
  simp only [NewVersion, Version.IsGreaterThan, VersionPart.IsLessThan,
    VersionPart.IsGreaterOrEqThan, geBody, gt_int_int]
  rcases lt_trichotomy a d with h | h | h
  · have h1 : ¬ a > d := by omega
    have h2 : ¬ a = d := by omega
    simp [h, h1, h2]
  · subst h
    rcases lt_trichotomy b e with h | h | h
    · have h1 : ¬ b > e := by omega
      have h2 : ¬ b = e := by omega
      simp [h, h1, h2]
    · subst h; simp
    · have h1 : ¬ b < e := by omega
      simp [h, h1]
  · have h1 : ¬ a < d := by omega
    simp [h, h1]

/-- C4: on purely numeric versions `IsGreaterThan` is the lexicographic order of
(major, minor, patch), `IsLessThan` is the converse relation, `IsSemanticallyIdenticalTo` is
equality of the triples and `IsGreaterThanOrEqualTo` is the negation of `IsLessThan`. -/
theorem C4_numeric_lexicographic (U : UnicodeTables) (fuel : Nat) (a b c d e f : Int) :
    (NewVersion a b c).IsGreaterThan U (fuel + 1) (NewVersion d e f) =
      some (decide (a > d ∨ (a = d ∧ b > e) ∨ (a = d ∧ b = e ∧ c > f))) ∧
    (NewVersion a b c).IsLessThan U (fuel + 1) (NewVersion d e f) =
      (NewVersion d e f).IsGreaterThan U (fuel + 1) (NewVersion a b c) ∧
    (NewVersion a b c).IsSemanticallyIdenticalTo U (fuel + 1) (NewVersion d e f) =
      some (decide (a = d ∧ b = e ∧ c = f)) ∧
    (NewVersion a b c).IsGreaterThanOrEqualTo U (fuel + 1) (NewVersion d e f) =
      Option.map (fun r => !r) ((NewVersion a b c).IsLessThan U (fuel + 1) (NewVersion d e f)) := by
  have h1 := NewVersion_gt U fuel a b c d e f
  have h2 := NewVersion_gt U fuel d e f a b c
  have hasym : decide (a > d ∨ (a = d ∧ b > e) ∨ (a = d ∧ b = e ∧ c > f)) = true →
      decide (d > a ∨ (d = a ∧ e > b) ∨ (d = a ∧ e = b ∧ f > c)) = false := by
    simp only [decide_eq_true_eq, decide_eq_false_iff_not]
    omega
  have hlt := Version_lt_eq_swap U (fuel + 1) _ _ _ _ h1 h2 hasym
  refine ⟨h1, by rw [hlt, h2], ?_, ?_⟩
  · simp only [Version.IsSemanticallyIdenticalTo, h1, h2]
    by_cases hx : a > d ∨ (a = d ∧ b > e) ∨ (a = d ∧ b = e ∧ c > f)
    · have : ¬ (a = d ∧ b = e ∧ c = f) := by omega
      simp [hx, this]
    · by_cases hy : d > a ∨ (d = a ∧ e > b) ∨ (d = a ∧ e = b ∧ f > c)
      · have : ¬ (a = d ∧ b = e ∧ c = f) := by omega
        simp [hx, hy, this]
      · have : a = d ∧ b = e ∧ c = f := by omega
        simp [hx, hy, this]
  · cases hge : (NewVersion a b c).IsGreaterThanOrEqualTo U (fuel + 1) (NewVersion d e f) with
    | none => simp [Version.IsLessThan, hge] at hlt
    | some r => simp [Version.IsLessThan, hge]

/-- The purely numeric chain `1.1.1 < 1.2.1 < 1.2.2 < 1.2.4 < 1.3.1` of the tests. -/
theorem numeric_chain :
    (NewVersion 1 1 1).IsLessThan asciiTables 1 (NewVersion 1 2 1) = some true ∧
    (NewVersion 1 2 1).IsLessThan asciiTables 1 (NewVersion 1 2 2) = some true ∧
    (NewVersion 1 2 2).IsLessThan asciiTables 1 (NewVersion 1 2 4) = some true ∧
    (NewVersion 1 2 4).IsLessThan asciiTables 1 (NewVersion 1 3 1) = some true := by
  decide

/-! ## C5: a comparison that never returns -/

/-- A part that is not an integer and starts with an integer sub-part, compared with a smaller
integer: `IsGreaterThan` calls `IsGreaterOrEqThan` of the swapped pair, which calls
`IsGreaterThan` of the same pair again. No call depth is enough. -/
theorem gt_mixed_int_diverges (U : UnicodeTables) (r1 r2 : List Char) (i1 i2 : Int)
    (first : VersionPart) (tl s2 : List VersionPart) (hfirst : first.IsInt = true)
    (hlt : i2 < first.IntRepr) : ∀ fuel : Nat,
    (VersionPart.mk r1 i1 false (first :: tl)).IsGreaterThan U fuel
      (VersionPart.mk r2 i2 true s2) = none := by
  intro fuel
  induction fuel with
  | zero => rfl
  | succ f ih =>
    rw [gt_mixed_int]
    cases f with
    | zero => rfl
    | succ g =>
      have hswap : (VersionPart.mk r2 i2 true s2).IsGreaterThan U (g + 1)
          (VersionPart.mk r1 i1 false (first :: tl)) = some false := by
        rw [gt_int_mixed]
        have : ¬ first.IntRepr ≤ i2 := by omega
        simp [hfirst, this]
      simp [geBody, hswap, ih]

/-- C5, the code at the failing input: `IsGreaterThan` of the part `5-RC1` against the part `3`
gives no result at any call depth, and so do `IsGreaterThan` and `IsLessThan` of the version
`1.2.5-RC1` against `1.2.3`; in the other argument order `IsGreaterThan` returns false. -/
theorem C5_comparison_never_returns (U : UnicodeTables) (fuel : Nat) :
    (ParseVersionPart U "5-RC1".toList).IsGreaterThan U fuel (ParseVersionPart U "3".toList) =
      none ∧
    (ParseVersion U "1.2.5-RC1".toList).IsGreaterThan U fuel (ParseVersion U "1.2.3".toList) =
      none ∧
    (ParseVersion U "1.2.5-RC1".toList).IsLessThan U fuel (ParseVersion U "1.2.3".toList) =
      none ∧
    (ParseVersionPart U "3".toList).IsGreaterThan U (fuel + 1)
      (ParseVersionPart U "5-RC1".toList) = some false := by
  have hp : ParseVersionPart U "5-RC1".toList =
      VersionPart.mk "5-RC1".toList 0 false
        [VersionPart.mk "5".toList 5 true [], VersionPart.mk "-RC".toList 0 false [],
          VersionPart.mk "1".toList 1 true []] := rfl
  have hq : ParseVersionPart U "3".toList = VersionPart.mk "3".toList 3 true [] :=
    rfl
  have hdiv := gt_mixed_int_diverges U "5-RC1".toList "3".toList 0 3
    (VersionPart.mk "5".toList 5 true []) [VersionPart.mk "-RC".toList 0 false [],
      VersionPart.mk "1".toList 1 true []] [] rfl (by decide) fuel
  have hV : ParseVersion U "1.2.5-RC1".toList =
      ⟨ParseVersionPart U "1".toList, ParseVersionPart U "2".toList,
        ParseVersionPart U "5-RC1".toList,
        [ParseVersionPart U "1".toList, ParseVersionPart U "2".toList,
          ParseVersionPart U "5-RC1".toList]⟩ := rfl
  have hW : ParseVersion U "1.2.3".toList =
      ⟨ParseVersionPart U "1".toList, ParseVersionPart U "2".toList,
        ParseVersionPart U "3".toList,
        [ParseVersionPart U "1".toList, ParseVersionPart U "2".toList,
          ParseVersionPart U "3".toList]⟩ := rfl
  have hgt : (ParseVersion U "1.2.5-RC1".toList).IsGreaterThan U fuel
      (ParseVersion U "1.2.3".toList) = none := by
    cases fuel with
    | zero => rfl
    | succ f =>
      rw [hV, hW, Version_gt_of_ties U (f + 1) _ _ (gt_natStr_self U f 1)
        (gt_natStr_self U f 1) (gt_natStr_self U f 2) (gt_natStr_self U f 2)]
      show (ParseVersionPart U "5-RC1".toList).IsGreaterThan U (f + 1)
        (ParseVersionPart U "3".toList) = none
      rw [hp, hq]; exact hdiv
  refine ⟨by rw [hp, hq]; exact hdiv, hgt, ?_, ?_⟩
  · simp only [Version.IsLessThan, Version.IsGreaterThanOrEqualTo, hgt]
  · rw [hp, hq, gt_int_mixed]; decide

/-! ## C6: an integer against a part with a larger leading number -/

/-- C6 (as amended): for all natural numbers c < d with d within the range of the machine
integer and every non-empty suffix `x0 :: xs` that contains no '.' and whose first character
is not a digit (in the sense of `unicode.IsDigit`), the integer part `c` is not greater than
the mixed part `d` ++ suffix, and for all a, b the version `a.b.c` is not greater than the
version `a.b.d` ++ suffix. -/
theorem C6_integer_below_leading_number (U : UnicodeTables) (fuel a b c d : Nat) (x0 : Char)
    (xs : List Char) (hcd : c < d) (hd : (d : Int) ≤ maxInt) (hx0 : isDigit U x0 = false)
    (hdot : '.' ∉ x0 :: xs) :
    (ParseVersionPart U (natStr c)).IsGreaterThan U (fuel + 1)
        (ParseVersionPart U (natStr d ++ x0 :: xs)) = some false ∧
    (ParseVersion U (natStr a ++ '.' :: (natStr b ++ '.' :: natStr c))).IsGreaterThan U
        (fuel + 1)
        (ParseVersion U (natStr a ++ '.' :: (natStr b ++ '.' :: (natStr d ++ x0 :: xs)))) =
      some false := by
  have hc : (c : Int) ≤ maxInt := by omega
  have hdotQ : '.' ∉ natStr d ++ x0 :: xs := by
    intro h
    rcases List.mem_append.1 h with h | h
    · exact dot_not_mem_natStr d h
    · exact hdot h
  obtain ⟨tl, hq⟩ := ParseVersionPart_natStr_tag U d x0 xs hx0
  have hpart : ∀ f : Nat, (ParseVersionPart U (natStr c)).IsGreaterThan U (f + 1)
      (ParseVersionPart U (natStr d ++ x0 :: xs)) = some false := by
    intro f
    rw [hq, ParseVersionPart_natStr, if_pos hc, gt_int_mixed, finalizeNewPart_natStr d hd]
    have : ¬ (d : Int) ≤ c := by omega
    simp [VersionPart.IsInt, VersionPart.IntRepr, this]
  refine ⟨hpart fuel, ?_⟩
  rw [ParseVersion_three U a b _ (dot_not_mem_natStr c), ParseVersion_three U a b _ hdotQ,
    Version_gt_of_ties U (fuel + 1) _ _ (gt_natStr_self U fuel a) (gt_natStr_self U fuel a)
      (gt_natStr_self U fuel b) (gt_natStr_self U fuel b)]
  exact hpart fuel

/-- C6, witness: the part `3` against the part `5-RC1`, and `1.2.3` against `1.2.5-RC1`. -/
theorem C6_integer_below_leading_number_witness :
    (ParseVersionPart asciiTables "3".toList).IsGreaterThan asciiTables 1
        (ParseVersionPart asciiTables "5-RC1".toList) = some false ∧
    (ParseVersion asciiTables "1.2.3".toList).IsGreaterThan asciiTables 1
        (ParseVersion asciiTables "1.2.5-RC1".toList) = some false :=
  C6_integer_below_leading_number asciiTables 0 1 2 3 5 '-' "RC1".toList (by decide) (by decide)
    (by decide) (by decide)

/-- C6, counterexample: with a leading number beyond the machine integer the integer part `3`
is greater than the mixed part `9223372036854775808-RC1`, whose leading number is larger (at no
call depth is the result false), and the mixed part is not greater than the integer part; this
whatever the Unicode tables. -/
theorem C6_counterexample :
    (∀ U : UnicodeTables,
      (ParseVersionPart U "3".toList).IsGreaterThan U 1
        (ParseVersionPart U "9223372036854775808-RC1".toList) = some true) ∧
    (∀ U : UnicodeTables,
      (ParseVersionPart U "9223372036854775808-RC1".toList).IsGreaterThan U 2
        (ParseVersionPart U "3".toList) = some false) ∧
    (∀ (U : UnicodeTables) (fuel : Nat),
      (ParseVersionPart U "3".toList).IsGreaterThan U fuel
        (ParseVersionPart U "9223372036854775808-RC1".toList) ≠ some false) ∧
    (∀ (U : UnicodeTables) (fuel : Nat),
      (ParseVersionPart U "9223372036854775808-RC1".toList).IsGreaterThan U fuel
        (ParseVersionPart U "3".toList) ≠ some true) := by
  have eq : "9223372036854775808-RC1".toList =
      natStr 9223372036854775808 ++ '-' :: ['R', 'C', '1'] := by decide
  have hp : ∀ U : UnicodeTables,
      ParseVersionPart U "3".toList = VersionPart.mk "3".toList 3 true [] := fun _ => rfl
  have hbig : finalizeNewPart (natStr 9223372036854775808) true =
      VersionPart.mk (natStr 9223372036854775808) 0 false [] := by
    simp [finalizeNewPart, Atoi_natStr, maxInt]
  have h1 : ∀ (U : UnicodeTables) (f : Nat), (ParseVersionPart U "3".toList).IsGreaterThan U
      (f + 1) (ParseVersionPart U "9223372036854775808-RC1".toList) = some true := by
    intro U f
    obtain ⟨tl, hq⟩ := ParseVersionPart_natStr_tag U 9223372036854775808 '-' ['R', 'C', '1'] rfl
    rw [eq, hq, hp, gt_int_mixed, hbig]
    rfl
  have h2 : ∀ U : UnicodeTables,
      (ParseVersionPart U "9223372036854775808-RC1".toList).IsGreaterThan U 2
        (ParseVersionPart U "3".toList) = some false := by
    intro U
    have h := h1 U 0
    obtain ⟨tl, hq⟩ := ParseVersionPart_natStr_tag U 9223372036854775808 '-' ['R', 'C', '1'] rfl
    rw [eq, hq, hp] at h
    rw [eq, hq, hp, gt_mixed_int, geBody_of_gt h]
    rfl
  refine ⟨fun U => h1 U 0, h2, ?_, ?_⟩
  · intro U fuel hf
    exact absurd (gt_det U 1 fuel _ _ true false (h1 U 0) hf) (by decide)
  · intro U fuel hf
    exact absurd (gt_det U 2 fuel _ _ false true (h2 U) hf) (by decide)

/-! ## C7: a version compared with itself -/

theorem eqLenLoop_self (g : VersionPart → VersionPart → Option Bool) :
    ∀ l : List VersionPart, l ≠ [] → (∀ s ∈ l, g s s = some false) →
      eqLenLoop g l l = some (some false) := by
  intro l
  induction l with
  | nil => intro h; exact absurd rfl h
  | cons p ps ih =>
    intro _ hall
    have hp : g p p = some false := hall p (by simp)
    cases ps with
    | nil => simp [eqLenLoop, hp]
    | cons q qs =>
      have := ih (by simp) (fun s hs => hall s (List.mem_cons_of_mem p hs))
      rw [eqLenLoop]
      simp only [hp, List.isEmpty_cons, Bool.false_eq_true, if_false]
      exact this

/-- No part is greater than itself, at any call depth that reaches its innermost sub-parts. -/
theorem gt_self (U : UnicodeTables) : ∀ (fuel : Nat) (p : VersionPart), sizeOf p ≤ fuel →
    p.IsGreaterThan U fuel p = some false := by
  intro fuel
  induction fuel with
  | zero =>
    intro p hp
    cases p with
    | mk r i b subs => simp at hp
  | succ f ih =>
    intro p hp
    cases p with
    | mk r i b subs =>
      cases b with
      | true => rw [gt_int_int]; simp
      | false =>
        cases subs with
        | nil => exact gt_leaf_self U f r i false
        | cons s ss =>
          have hall : ∀ q ∈ s :: ss, q.IsGreaterThan U f q = some false := by
            intro q hq
            apply ih
            have h1 := List.sizeOf_lt_of_mem hq
            simp only [VersionPart.mk.sizeOf_spec] at hp
            omega
          have hloop := eqLenLoop_self (VersionPart.IsGreaterThan U f) (s :: ss) (by simp) hall
          rw [VersionPart.IsGreaterThan, gtBody]
          simp [VersionPart.IsInt, VersionPart.SubParts, hloop]

/-- The four comparisons of a version with itself, once no part is greater than itself. -/
theorem Version_self (U : UnicodeTables) (fuel : Nat) (v : Version)
    (h1 : v.Major.IsGreaterThan U fuel v.Major = some false)
    (h2 : v.Minor.IsGreaterThan U fuel v.Minor = some false)
    (h3 : v.Patch.IsGreaterThan U fuel v.Patch = some false) :
    v.IsGreaterThan U fuel v = some false ∧ v.IsLessThan U fuel v = some false ∧
      v.IsGreaterThanOrEqualTo U fuel v = some true ∧
      v.IsSemanticallyIdenticalTo U fuel v = some true := by
  have hgt : v.IsGreaterThan U fuel v = some false := by
    rw [Version_gt_of_ties U fuel v v h1 h1 h2 h2]; exact h3
  simp [Version.IsLessThan, Version.IsGreaterThanOrEqualTo, Version.IsSemanticallyIdenticalTo,
    hgt]

/-! ## C8: the case of ASCII letters -/

theorem Char_eq_iff_toNat (a b : Char) : a = b ↔ a.toNat = b.toNat :=
  ⟨fun h => by rw [h], Char_eq_of_toNat_eq a b⟩

theorem asciiLower_toNat (c : Char) :
    (asciiLower c).toNat = if 65 ≤ c.toNat ∧ c.toNat ≤ 90 then c.toNat + 32 else c.toNat := by
  unfold asciiLower
  by_cases h : 65 ≤ c.toNat ∧ c.toNat ≤ 90
  · rw [if_pos h, if_pos h]
    obtain ⟨h1, h2⟩ := h
    generalize c.toNat = n at h1 h2
    interval_cases n <;> rfl
  · rw [if_neg h, if_neg h]

theorem asciiLower_of_not_upper (c : Char) (h : ¬ (65 ≤ c.toNat ∧ c.toNat ≤ 90)) :
    asciiLower c = c := by
  unfold asciiLower; rw [if_neg h]

/-- A character that is not a lower-case ASCII letter is the lower-casing of itself only. -/
theorem asciiLower_eq_iff (c d : Char) (hd : d.toNat < 65 ∨ 122 < d.toNat ∨
    (90 < d.toNat ∧ d.toNat < 97)) : asciiLower c = d ↔ c = d := by
  rw [Char_eq_iff_toNat, Char_eq_iff_toNat, asciiLower_toNat]
  split <;> omega

theorem isAsciiDigit_asciiLower (c : Char) : isAsciiDigit (asciiLower c) = isAsciiDigit c := by
  rw [Bool.eq_iff_iff, isAsciiDigit_iff, isAsciiDigit_iff, asciiLower_toNat]
  split <;> omega

theorem isDigit_asciiLower (U : UnicodeTables) (c : Char) :
    isDigit U (asciiLower c) = isDigit U c := by
  by_cases h : 65 ≤ c.toNat ∧ c.toNat ≤ 90
  · have h1 : (asciiLower c).toNat = c.toNat + 32 := by rw [asciiLower_toNat, if_pos h]
    unfold isDigit
    rw [if_pos (by omega), if_pos (by omega), isAsciiDigit_asciiLower]
  · rw [asciiLower_of_not_upper c h]

theorem toLowerRune_asciiLower (U : UnicodeTables) (c : Char) :
    toLowerRune U (asciiLower c) = toLowerRune U c := by
  by_cases h : 65 ≤ c.toNat ∧ c.toNat ≤ 90
  · have h1 : (asciiLower c).toNat = c.toNat + 32 := by rw [asciiLower_toNat, if_pos h]
    unfold toLowerRune
    rw [if_pos (by omega), if_pos (by omega)]
    exact asciiLower_of_not_upper _ (by omega)
  · rw [asciiLower_of_not_upper c h]

theorem ToLower_map_asciiLower (U : UnicodeTables) (s : List Char) :
    ToLower U (s.map asciiLower) = ToLower U s := by
  simp [ToLower, List.map_map, Function.comp_def, toLowerRune_asciiLower]

/-- Lower-casing the ASCII letters leaves a string of ASCII digits unchanged. -/
theorem map_asciiLower_digits (ds : List Char) (h : ds.all isAsciiDigit = true) :
    ds.map asciiLower = ds := by
  induction ds with
  | nil => rfl
  | cons d ds ih =>
    simp only [List.all_cons, Bool.and_eq_true] at h
    have hd := (isAsciiDigit_iff d).1 h.1
    rw [List.map_cons, ih h.2, asciiLower_of_not_upper d (by omega)]

theorem all_isAsciiDigit_map_asciiLower (ds : List Char) :
    (ds.map asciiLower).all isAsciiDigit = ds.all isAsciiDigit := by
  induction ds with
  | nil => rfl
  | cons d ds ih => simp [List.all_cons, isAsciiDigit_asciiLower, ih]

/-- The unsigned core of `strconv.Atoi` on a string. -/
theorem Atoi_core_map_asciiLower (ds : List Char) (neg : Bool) :
    (if (ds.map asciiLower).isEmpty || !(ds.map asciiLower).all isAsciiDigit then none
      else
        let v : Int := if neg then -(digitsValue (ds.map asciiLower) : Int)
          else (digitsValue (ds.map asciiLower) : Int)
        if minInt ≤ v ∧ v ≤ maxInt then some v else none) =
    (if ds.isEmpty || !ds.all isAsciiDigit then none
      else
        let v : Int := if neg then -(digitsValue ds : Int) else (digitsValue ds : Int)
        if minInt ≤ v ∧ v ≤ maxInt then some v else none) := by
  by_cases h : ds.all isAsciiDigit = true
  · rw [map_asciiLower_digits ds h]
  · have h2 : ds.all isAsciiDigit = false := by simpa using h
    have h3 : (ds.map asciiLower).all isAsciiDigit = false := by
      rw [all_isAsciiDigit_map_asciiLower]; exact h2
    simp only [h2, h3, Bool.not_false, Bool.or_true, if_true]

theorem Atoi_map_asciiLower (s : List Char) : Atoi (s.map asciiLower) = Atoi s := by
  cases s with
  | nil => rfl
  | cons c cs =>
    by_cases hm : c = '-'
    · subst hm
      exact Atoi_core_map_asciiLower cs true
    · by_cases hp : c = '+'
      · subst hp
        exact Atoi_core_map_asciiLower cs false
      · have hm' : asciiLower c ≠ '-' := fun e =>
          hm ((asciiLower_eq_iff c '-' (by decide)).1 e)
        have hp' : asciiLower c ≠ '+' := fun e =>
          hp ((asciiLower_eq_iff c '+' (by decide)).1 e)
        rw [List.map_cons, Atoi_unsigned _ _ hp' hm', Atoi_unsigned _ _ hp hm,
          ← List.map_cons]
        by_cases h : (c :: cs).all isAsciiDigit = true
        · rw [map_asciiLower_digits _ h]
        · have h3 : ¬ ((c :: cs).map asciiLower).all isAsciiDigit = true := by
            rw [all_isAsciiDigit_map_asciiLower]; exact h
          rw [if_neg (fun hh => h3 hh.1), if_neg (fun hh => h hh.1)]

theorem Split_map_asciiLower (s : List Char) :
    Split (s.map asciiLower) '.' = (Split s '.').map (List.map asciiLower) := by
  induction s with
  | nil => rfl
  | cons c cs ih =>
    by_cases hc : c = '.'
    · subst hc
      have : asciiLower '.' = '.' := by decide
      simp [Split, this, ih]
    · have hc' : asciiLower c ≠ '.' := fun e => hc ((asciiLower_eq_iff c '.' (by decide)).1 e)
      rw [List.map_cons]
      simp only [Split, hc, hc', if_false, ih]
      cases Split cs '.' with
      | nil => rfl
      | cons seg rest => rfl

theorem strip_map_asciiLower (s : List Char) :
    (if HasPrefix (s.map asciiLower) 'v' || HasPrefix (s.map asciiLower) 'V' then
        (s.map asciiLower).drop 1 else s.map asciiLower) =
      (if HasPrefix s 'v' || HasPrefix s 'V' then s.drop 1 else s).map asciiLower := by
  cases s with
  | nil => rfl
  | cons c cs =>
    have hV : (asciiLower c == 'V') = false := by
      rw [beq_eq_false_iff_ne, ne_eq, Char_eq_iff_toNat, asciiLower_toNat]
      have : ('V' : Char).toNat = 86 := rfl
      split <;> omega
    have hv : (asciiLower c == 'v') = (c == 'v' || c == 'V') := by
      rw [Bool.eq_iff_iff]
      simp only [beq_iff_eq, Bool.or_eq_true, Char_eq_iff_toNat, asciiLower_toNat]
      have h1 : ('V' : Char).toNat = 86 := rfl
      have h2 : ('v' : Char).toNat = 118 := rfl
      split <;> omega
    simp only [List.map_cons, HasPrefix, hV, hv, Bool.or_false]
    split <;> simp

theorem lowerAsciiAll_eq_map (l : List VersionPart) :
    lowerAsciiAll l = l.map VersionPart.lowerAscii := by
  induction l with
  | nil => simp [lowerAsciiAll]
  | cons p ps ih => simp [lowerAsciiAll, ih]

theorem lowerAscii_mk (r : List Char) (i : Int) (b : Bool) (s : List VersionPart) :
    (VersionPart.mk r i b s).lowerAscii =
      VersionPart.mk (r.map asciiLower) i b (s.map VersionPart.lowerAscii) := by
  rw [VersionPart.lowerAscii, lowerAsciiAll_eq_map]

theorem finalizeNewPart_map_asciiLower (r : List Char) (b : Bool) :
    finalizeNewPart (r.map asciiLower) b = (finalizeNewPart r b).lowerAscii := by
  unfold finalizeNewPart
  rw [Atoi_map_asciiLower]
  cases b
  · simp [lowerAscii_mk]
  · cases Atoi r <;> simp [lowerAscii_mk]

/-- The scanning state with the ASCII letters lower-cased. -/
theorem scanStep_asciiLower (U : UnicodeTables) (st : ScanState) (c : Char) :
    scanStep U ⟨st.parts.map VersionPart.lowerAscii, st.currentPartRaw.map asciiLower,
        st.currentIsInt⟩ (asciiLower c) =
      ⟨(scanStep U st c).parts.map VersionPart.lowerAscii,
        (scanStep U st c).currentPartRaw.map asciiLower, (scanStep U st c).currentIsInt⟩ := by
  obtain ⟨parts, cur, isInt⟩ := st
  cases hd : isDigit U c <;> cases isInt <;> cases cur <;>
    simp [scanStep, isDigit_asciiLower, hd] <;>
    exact finalizeNewPart_map_asciiLower (_ :: _) _

theorem scan_fold_asciiLower (U : UnicodeTables) (s : List Char) : ∀ st : ScanState,
    (s.map asciiLower).foldl (scanStep U)
        ⟨st.parts.map VersionPart.lowerAscii, st.currentPartRaw.map asciiLower,
          st.currentIsInt⟩ =
      ⟨(s.foldl (scanStep U) st).parts.map VersionPart.lowerAscii,
        (s.foldl (scanStep U) st).currentPartRaw.map asciiLower,
        (s.foldl (scanStep U) st).currentIsInt⟩ := by
  induction s with
  | nil => intro st; rfl
  | cons c cs ih =>
    intro st
    rw [List.map_cons, List.foldl_cons, List.foldl_cons, scanStep_asciiLower, ih]

/-- Parsing commutes with lower-casing the ASCII letters. -/
theorem ParseVersionPart_map_asciiLower (U : UnicodeTables) (s : List Char) :
    ParseVersionPart U (s.map asciiLower) = (ParseVersionPart U s).lowerAscii := by
  have hscan := scan_fold_asciiLower U s ⟨[], [], false⟩
  simp only [List.map_nil] at hscan
  unfold ParseVersionPart
  rw [Atoi_map_asciiLower]
  cases Atoi s with
  | some v => simp [lowerAscii_mk]
  | none =>
    simp only [scan, hscan, List.length_map, lowerAscii_mk, finalizeNewPart_map_asciiLower]
    split <;> simp

theorem lowerAscii_IsInt (p : VersionPart) : p.lowerAscii.IsInt = p.IsInt := by
  cases p; simp [lowerAscii_mk, VersionPart.IsInt]

theorem lowerAscii_IntRepr (p : VersionPart) : p.lowerAscii.IntRepr = p.IntRepr := by
  cases p; simp [lowerAscii_mk, VersionPart.IntRepr]

theorem eqLenLoop_map (g : VersionPart → VersionPart → Option Bool)
    (h : ∀ p q : VersionPart, g p.lowerAscii q.lowerAscii = g p q) :
    ∀ l1 l2 : List VersionPart,
      eqLenLoop g (l1.map VersionPart.lowerAscii) (l2.map VersionPart.lowerAscii) =
        eqLenLoop g l1 l2 := by
  intro l1
  induction l1 with
  | nil => intro l2; simp [eqLenLoop]
  | cons p ps ih =>
    intro l2
    cases l2 with
    | nil => simp [eqLenLoop]
    | cons o os =>
      have hemp : (List.map VersionPart.lowerAscii ps).isEmpty = ps.isEmpty := by
        cases ps <;> rfl
      simp only [List.map_cons, eqLenLoop, h, ih os, hemp]

theorem shorterLoop_map (g : VersionPart → VersionPart → Option Bool)
    (h : ∀ p q : VersionPart, g p.lowerAscii q.lowerAscii = g p q) :
    ∀ l1 l2 : List VersionPart,
      shorterLoop g (l1.map VersionPart.lowerAscii) (l2.map VersionPart.lowerAscii) =
        shorterLoop g l1 l2 := by
  intro l1
  induction l1 with
  | nil => intro l2; simp [shorterLoop]
  | cons p ps ih =>
    intro l2
    cases l2 with
    | nil => simp [shorterLoop]
    | cons o os => simp only [List.map_cons, shorterLoop, h, ih os]

theorem longerLoop_map (g : VersionPart → VersionPart → Option Bool)
    (h : ∀ p q : VersionPart, g p.lowerAscii q.lowerAscii = g p q) :
    ∀ l1 l2 : List VersionPart,
      longerLoop g (l1.map VersionPart.lowerAscii) (l2.map VersionPart.lowerAscii) =
        longerLoop g l1 l2 := by
  intro l1
  induction l1 with
  | nil => intro l2; simp [longerLoop]
  | cons p ps ih =>
    intro l2
    cases l2 with
    | nil => simp [longerLoop]
    | cons o os => simp only [List.map_cons, longerLoop, h, ih os]

/-- On two non-empty lists of the same length the equal-length loop always ends in a
`return`: the statement after the loops is not reached. -/
theorem eqLenLoop_returns (g : VersionPart → VersionPart → Option Bool) :
    ∀ (ps os : List VersionPart) (p o : VersionPart), ps.length = os.length →
      eqLenLoop g (p :: ps) (o :: os) ≠ some none := by
  intro ps
  induction ps with
  | nil =>
    intro os p o _
    rw [eqLenLoop]
    cases g p o with
    | none => simp
    | some b =>
      cases b
      · cases g o p with
        | none => simp
        | some c => cases c <;> simp
      · simp
  | cons q qs ih =>
    intro os p o hlen
    cases os with
    | nil => simp at hlen
    | cons r rs =>
      have := ih rs q r (by simpa using hlen)
      rw [eqLenLoop]
      cases g p o with
      | none => simp
      | some b =>
        cases b
        · cases g o p with
          | none => simp
          | some c =>
            cases c
            · simpa using this
            · simp
        · simp

/-- The comparison `IsGreaterThan` does not see the case of ASCII letters. -/
theorem gt_lowerAscii (U : UnicodeTables) : ∀ (fuel : Nat) (p q : VersionPart),
    p.lowerAscii.IsGreaterThan U fuel q.lowerAscii = p.IsGreaterThan U fuel q := by
  intro fuel
  induction fuel with
  | zero => intro p q; rfl
  | succ f ih =>
    intro p q
    obtain ⟨r1, i1, b1, s1⟩ := p
    obtain ⟨r2, i2, b2, s2⟩ := q
    rw [lowerAscii_mk, lowerAscii_mk]
    cases b1 <;> cases b2
    · -- neither is an integer
      cases s1 with
      | nil =>
        cases s2 with
        | nil =>
          simp only [List.map_nil]
          rw [gt_literal_literal, gt_literal_literal, ToLower_map_asciiLower,
            ToLower_map_asciiLower]
        | cons o os => simp [VersionPart.IsGreaterThan, gtBody, VersionPart.IsInt, VersionPart.SubParts]
      | cons p ps =>
        cases s2 with
        | nil => simp [VersionPart.IsGreaterThan, gtBody, VersionPart.IsInt, VersionPart.SubParts]
        | cons o os =>
          rw [VersionPart.IsGreaterThan, VersionPart.IsGreaterThan, gtBody, gtBody]
          simp only [VersionPart.IsInt, VersionPart.SubParts, List.length_map,
            eqLenLoop_map _ ih, shorterLoop_map _ ih, longerLoop_map _ ih]
          rcases Nat.lt_trichotomy ps.length os.length with h | h | h
          · have h1 : ¬ ps.length = os.length := by omega
            simp [h1, h]
          · have hne := eqLenLoop_returns (VersionPart.IsGreaterThan U f) ps os p o h
            simp only [List.length_cons, h, beq_self_eq_true]
            cases hl : eqLenLoop (VersionPart.IsGreaterThan U f) (p :: ps) (o :: os) with
            | none => simp
            | some x =>
              cases x with
              | none => exact absurd hl hne
              | some b => simp
          · have h1 : ¬ ps.length = os.length := by omega
            have h2 : ¬ ps.length < os.length := by omega
            simp [h1, h2, h]
    · -- a part that is not an integer against an integer
      rw [gt_mixed_int, gt_mixed_int]
      have h1 := ih (VersionPart.mk r2 i2 true s2) (VersionPart.mk r1 i1 false s1)
      have h2 := ih (VersionPart.mk r1 i1 false s1) (VersionPart.mk r2 i2 true s2)
      rw [lowerAscii_mk, lowerAscii_mk] at h1 h2
      simp only [geBody, h1, h2]
    · -- an integer against a part that is not one
      rw [gt_int_mixed, gt_int_mixed]
      cases s2 with
      | nil => rfl
      | cons o os => simp [lowerAscii_IsInt, lowerAscii_IntRepr]
    · rw [gt_int_int, gt_int_int]

/-! ### Parsed parts are at most one level deep -/

theorem finalizeNewPart_SubParts (raw : List Char) (isInt : Bool) :
    (finalizeNewPart raw isInt).SubParts = [] := by
  obtain ⟨i, b, h⟩ := finalizeNewPart_leaf raw isInt
  rw [h]; rfl

theorem scanStep_parts_leaf (U : UnicodeTables) (st : ScanState) (c : Char)
    (h : ∀ p ∈ st.parts, p.SubParts = []) : ∀ p ∈ (scanStep U st c).parts, p.SubParts = [] := by
  intro p hp
  unfold scanStep at hp
  split at hp
  · split at hp
    · exact h p hp
    · split at hp
      · rcases List.mem_append.1 hp with h1 | h1
        · exact h p h1
        · simp at h1; rw [h1]; exact finalizeNewPart_SubParts _ _
      · exact h p hp
  · split at hp
    · exact h p hp
    · split at hp
      · rcases List.mem_append.1 hp with h1 | h1
        · exact h p h1
        · simp at h1; rw [h1]; exact finalizeNewPart_SubParts _ _
      · exact h p hp

theorem scan_fold_parts_leaf (U : UnicodeTables) (s : List Char) : ∀ st : ScanState,
    (∀ p ∈ st.parts, p.SubParts = []) →
      ∀ p ∈ (s.foldl (scanStep U) st).parts, p.SubParts = [] := by
  induction s with
  | nil => intro st h; exact h
  | cons c cs ih =>
    intro st h
    rw [List.foldl_cons]
    exact ih _ (scanStep_parts_leaf U st c h)

/-- The sub-parts of a parsed part have no sub-parts. -/
theorem ParseVersionPart_shallow (U : UnicodeTables) (s : List Char) :
    ∀ p ∈ (ParseVersionPart U s).SubParts, p.SubParts = [] := by
  intro p hp
  unfold ParseVersionPart at hp
  cases hA : Atoi s with
  | some v => simp [hA, VersionPart.SubParts] at hp
  | none =>
    simp only [hA, VersionPart.SubParts] at hp
    have hleaf := scan_fold_parts_leaf U s ⟨[], [], false⟩ (by simp)
    split at hp
    · rcases List.mem_append.1 hp with h1 | h1
      · exact hleaf p h1
      · simp at h1; rw [h1]; exact finalizeNewPart_SubParts _ _
    · exact hleaf p hp

/-- A part whose sub-parts have no sub-parts is not greater than itself, from call depth 2. -/
theorem gt_shallow_self (U : UnicodeTables) (fuel : Nat) (p : VersionPart)
    (h : ∀ s ∈ p.SubParts, s.SubParts = []) : p.IsGreaterThan U (fuel + 2) p = some false := by
  obtain ⟨r, i, b, subs⟩ := p
  cases b with
  | true => rw [gt_int_int]; simp
  | false =>
    cases subs with
    | nil => exact gt_leaf_self U (fuel + 1) r i false
    | cons s ss =>
      have hall : ∀ q ∈ s :: ss, q.IsGreaterThan U (fuel + 1) q = some false := by
        intro q hq
        have hq2 := h q hq
        obtain ⟨r', i', b', s'⟩ := q
        simp only [VersionPart.SubParts] at hq2
        subst hq2
        exact gt_leaf_self U fuel r' i' b'
      have hloop := eqLenLoop_self (VersionPart.IsGreaterThan U (fuel + 1)) (s :: ss) (by simp)
        hall
      rw [VersionPart.IsGreaterThan, gtBody]
      simp [VersionPart.IsInt, VersionPart.SubParts, hloop]

/-- The major, minor and patch part of a parsed version are parsed segments or the
placeholder. -/
theorem ParseVersion_fields_shallow (U : UnicodeTables) (s : List Char) :
    (∀ p ∈ (ParseVersion U s).Major.SubParts, p.SubParts = []) ∧
    (∀ p ∈ (ParseVersion U s).Minor.SubParts, p.SubParts = []) ∧
    (∀ p ∈ (ParseVersion U s).Patch.SubParts, p.SubParts = []) := by
  unfold ParseVersion
  simp only
  generalize Split (if (HasPrefix s 'v' || HasPrefix s 'V') = true then List.drop 1 s else s)
    '.' = segs
  rcases segs with _ | ⟨a, _ | ⟨b, _ | ⟨c, l⟩⟩⟩ <;>
    simp [zeroPart, VersionPart.SubParts] <;>
    first
      | exact ParseVersionPart_shallow U _
      | exact ⟨ParseVersionPart_shallow U _, ParseVersionPart_shallow U _⟩
      | exact ⟨ParseVersionPart_shallow U _, ParseVersionPart_shallow U _,
          ParseVersionPart_shallow U _⟩

/-- Parsing a version commutes with lower-casing the ASCII letters. -/
theorem ParseVersion_map_asciiLower (U : UnicodeTables) (s : List Char) :
    (ParseVersion U (s.map asciiLower)).Major = (ParseVersion U s).Major.lowerAscii ∧
    (ParseVersion U (s.map asciiLower)).Minor = (ParseVersion U s).Minor.lowerAscii ∧
    (ParseVersion U (s.map asciiLower)).Patch = (ParseVersion U s).Patch.lowerAscii := by
  have hz : zeroPart.lowerAscii = zeroPart := by simp [zeroPart, lowerAscii_mk]
  unfold ParseVersion
  simp only [strip_map_asciiLower, Split_map_asciiLower, List.map_map]
  generalize Split (if (HasPrefix s 'v' || HasPrefix s 'V') = true then List.drop 1 s else s)
    '.' = segs
  rcases segs with _ | ⟨a, _ | ⟨b, _ | ⟨c, l⟩⟩⟩ <;>
    simp [hz, ParseVersionPart_map_asciiLower]

/-- C7: for every version v there is a call depth from which on v.IsGreaterThan(v) returns
false, v.IsLessThan(v) returns false, v.IsGreaterThanOrEqualTo(v) returns true and
v.IsSemanticallyIdenticalTo(v) returns true; for a parsed version ParseVersion(s) the call
depth 2 is enough. -/
theorem C7_self_comparison (U : UnicodeTables) (v : Version) (s : List Char) (fuel : Nat) :
    (∃ n : Nat, ∀ k : Nat, n ≤ k →
      v.IsGreaterThan U k v = some false ∧ v.IsLessThan U k v = some false ∧
      v.IsGreaterThanOrEqualTo U k v = some true ∧
      v.IsSemanticallyIdenticalTo U k v = some true) ∧
    ((ParseVersion U s).IsGreaterThan U (fuel + 2) (ParseVersion U s) = some false ∧
      (ParseVersion U s).IsLessThan U (fuel + 2) (ParseVersion U s) = some false ∧
      (ParseVersion U s).IsGreaterThanOrEqualTo U (fuel + 2) (ParseVersion U s) = some true ∧
      (ParseVersion U s).IsSemanticallyIdenticalTo U (fuel + 2) (ParseVersion U s) =
        some true) := by
  constructor
  · refine ⟨sizeOf v.Major + sizeOf v.Minor + sizeOf v.Patch, ?_⟩
    intro k hk
    exact Version_self U k v (gt_self U k _ (by omega)) (gt_self U k _ (by omega))
      (gt_self U k _ (by omega))
  · obtain ⟨h1, h2, h3⟩ := ParseVersion_fields_shallow U s
    exact Version_self U (fuel + 2) _ (gt_shallow_self U fuel _ h1)
      (gt_shallow_self U fuel _ h2) (gt_shallow_self U fuel _ h3)

/-- C7, witness: the versions of `1.2.3-RC1` and of `1.2.3-alpha2` compared with
themselves. -/
theorem C7_self_comparison_witness :
    ((ParseVersion asciiTables "1.2.3-RC1".toList).IsGreaterThan asciiTables 2
        (ParseVersion asciiTables "1.2.3-RC1".toList) = some false ∧
      (ParseVersion asciiTables "1.2.3-RC1".toList).IsLessThan asciiTables 2
        (ParseVersion asciiTables "1.2.3-RC1".toList) = some false ∧
      (ParseVersion asciiTables "1.2.3-RC1".toList).IsGreaterThanOrEqualTo asciiTables 2
        (ParseVersion asciiTables "1.2.3-RC1".toList) = some true ∧
      (ParseVersion asciiTables "1.2.3-RC1".toList).IsSemanticallyIdenticalTo asciiTables 2
        (ParseVersion asciiTables "1.2.3-RC1".toList) = some true) ∧
    ((ParseVersion asciiTables "1.2.3-alpha2".toList).IsGreaterThan asciiTables 2
        (ParseVersion asciiTables "1.2.3-alpha2".toList) = some false ∧
      (ParseVersion asciiTables "1.2.3-alpha2".toList).IsLessThan asciiTables 2
        (ParseVersion asciiTables "1.2.3-alpha2".toList) = some false ∧
      (ParseVersion asciiTables "1.2.3-alpha2".toList).IsGreaterThanOrEqualTo asciiTables 2
        (ParseVersion asciiTables "1.2.3-alpha2".toList) = some true ∧
      (ParseVersion asciiTables "1.2.3-alpha2".toList).IsSemanticallyIdenticalTo asciiTables 2
        (ParseVersion asciiTables "1.2.3-alpha2".toList) = some true) :=
  ⟨(C7_self_comparison asciiTables (NewVersion 1 2 3) "1.2.3-RC1".toList 0).2,
    (C7_self_comparison asciiTables (NewVersion 1 2 3) "1.2.3-alpha2".toList 0).2⟩

/-- Two parts that lower-case to the same part tie, when that part is at most one level
deep. -/
theorem gt_of_lowerAscii_eq (U : UnicodeTables) (fuel : Nat) (p q : VersionPart)
    (h : p.lowerAscii = q.lowerAscii) (hs : ∀ s ∈ p.lowerAscii.SubParts, s.SubParts = []) :
    p.IsGreaterThan U (fuel + 2) q = some false := by
  rw [← gt_lowerAscii U (fuel + 2) p q, ← h]
  exact gt_shallow_self U fuel _ hs

/-- C8: for all strings s and t that differ only in the case of ASCII letters (they have the
same image under lower-casing the ASCII letters), ParseVersion(s) and ParseVersion(t) are
semantically identical and neither is greater than the other; the versions of `1.2.3-rc1` and
`1.2.3-RC1` are not fully identical. -/
theorem C8_case_insensitive (U : UnicodeTables) (fuel : Nat) (s t : List Char)
    (h : s.map asciiLower = t.map asciiLower) :
    (ParseVersion U s).IsSemanticallyIdenticalTo U (fuel + 2) (ParseVersion U t) = some true ∧
    (ParseVersion U s).IsGreaterThan U (fuel + 2) (ParseVersion U t) = some false ∧
    (ParseVersion U t).IsGreaterThan U (fuel + 2) (ParseVersion U s) = some false ∧
    (ParseVersion U "1.2.3-rc1".toList).IsFullyIdenticalTo
      (ParseVersion U "1.2.3-RC1".toList) = false := by
  obtain ⟨hs1, hs2, hs3⟩ := ParseVersion_map_asciiLower U s
  obtain ⟨ht1, ht2, ht3⟩ := ParseVersion_map_asciiLower U t
  obtain ⟨hd1, hd2, hd3⟩ := ParseVersion_fields_shallow U (s.map asciiLower)
  have e1 : (ParseVersion U s).Major.lowerAscii = (ParseVersion U t).Major.lowerAscii := by
    rw [← hs1, ← ht1, h]
  have e2 : (ParseVersion U s).Minor.lowerAscii = (ParseVersion U t).Minor.lowerAscii := by
    rw [← hs2, ← ht2, h]
  have e3 : (ParseVersion U s).Patch.lowerAscii = (ParseVersion U t).Patch.lowerAscii := by
    rw [← hs3, ← ht3, h]
  rw [hs1] at hd1
  rw [hs2] at hd2
  rw [hs3] at hd3
  have g1 := gt_of_lowerAscii_eq U fuel _ _ e1 hd1
  have g2 := gt_of_lowerAscii_eq U fuel _ _ e2 hd2
  have g3 := gt_of_lowerAscii_eq U fuel _ _ e3 hd3
  have g1' := gt_of_lowerAscii_eq U fuel _ _ e1.symm (e1 ▸ hd1)
  have g2' := gt_of_lowerAscii_eq U fuel _ _ e2.symm (e2 ▸ hd2)
  have g3' := gt_of_lowerAscii_eq U fuel _ _ e3.symm (e3 ▸ hd3)
  have hst : (ParseVersion U s).IsGreaterThan U (fuel + 2) (ParseVersion U t) = some false := by
    rw [Version_gt_of_ties U (fuel + 2) _ _ g1 g1' g2 g2']; exact g3
  have hts : (ParseVersion U t).IsGreaterThan U (fuel + 2) (ParseVersion U s) = some false := by
    rw [Version_gt_of_ties U (fuel + 2) _ _ g1' g1 g2' g2]; exact g3'
  refine ⟨?_, hst, hts, rfl⟩
  simp [Version.IsSemanticallyIdenticalTo, hst, hts]

/-- C8, witness: `1.2.3-rc1` and `1.2.3-RC1` are semantically identical, neither is greater,
and they are not fully identical. -/
theorem C8_case_insensitive_witness :
    (ParseVersion asciiTables "1.2.3-rc1".toList).IsSemanticallyIdenticalTo asciiTables 2
        (ParseVersion asciiTables "1.2.3-RC1".toList) = some true ∧
    (ParseVersion asciiTables "1.2.3-rc1".toList).IsGreaterThan asciiTables 2
        (ParseVersion asciiTables "1.2.3-RC1".toList) = some false ∧
    (ParseVersion asciiTables "1.2.3-RC1".toList).IsGreaterThan asciiTables 2
        (ParseVersion asciiTables "1.2.3-rc1".toList) = some false ∧
    (ParseVersion asciiTables "1.2.3-rc1".toList).IsFullyIdenticalTo
        (ParseVersion asciiTables "1.2.3-RC1".toList) = false :=
  C8_case_insensitive asciiTables 0 "1.2.3-rc1".toList "1.2.3-RC1".toList (by decide)

/-! ## C9: numeric versions through the parser -/

theorem Atoi_minus (ds : List Char) (hne : ds ≠ []) (hall : ds.all isAsciiDigit = true)
    (hmin : minInt ≤ -(digitsValue ds : Int)) :
    Atoi ('-' :: ds) = some (-(digitsValue ds : Int)) := by
  have h1 : ds.isEmpty = false := by cases ds <;> simp_all
  have hmax : -(digitsValue ds : Int) ≤ maxInt := by
    have : (0 : Int) ≤ (digitsValue ds : Int) := Int.ofNat_nonneg _
    unfold maxInt; omega
  show (if ds.isEmpty || !ds.all isAsciiDigit then none
    else
      let v : Int := if true then -(digitsValue ds : Int) else (digitsValue ds : Int)
      if minInt ≤ v ∧ v ≤ maxInt then some v else none) = _
  simp [h1, hall, hmin, hmax]

/-- The function `strconv.Atoi` reads back what `strconv.Itoa` writes. -/
theorem Atoi_Itoa (n : Int) (h1 : minInt ≤ n) (h2 : n ≤ maxInt) : Atoi (Itoa n) = some n := by
  unfold Itoa
  by_cases hn : n < 0
  · rw [if_pos hn, Atoi_minus _ (natStr_ne_nil _)
      (by rw [List.all_eq_true]; exact natStr_all_digits _)
      (by rw [digitsValue_natStr]; omega), digitsValue_natStr]
    congr 1; omega
  · rw [if_neg hn, Atoi_natStr]
    have : ((n.toNat : Nat) : Int) = n := Int.toNat_of_nonneg (by omega)
    rw [this, if_pos h2]

theorem dot_not_mem_Itoa (n : Int) : '.' ∉ Itoa n := by
  unfold Itoa
  split
  · intro h
    rcases List.mem_cons.1 h with h | h
    · exact absurd h (by decide)
    · exact dot_not_mem_natStr _ h
  · exact dot_not_mem_natStr _

theorem strip_Itoa (n : Int) (t : List Char) :
    (if HasPrefix (Itoa n ++ t) 'v' || HasPrefix (Itoa n ++ t) 'V' then
      (Itoa n ++ t).drop 1 else Itoa n ++ t) = Itoa n ++ t := by
  unfold Itoa
  split
  · simp [HasPrefix]
  · exact strip_natStr _ t

theorem ParseVersionPart_Itoa (U : UnicodeTables) (n : Int) (h1 : minInt ≤ n)
    (h2 : n ≤ maxInt) : ParseVersionPart U (Itoa n) = VersionPart.mk (Itoa n) n true [] := by
  simp [ParseVersionPart, Atoi_Itoa n h1 h2]

theorem IsFullyIdenticalTo_leaf (r : List Char) (i : Int) (b : Bool) :
    (VersionPart.mk r i b []).IsFullyIdenticalTo (VersionPart.mk r i b []) = true := by
  simp [VersionPart.IsFullyIdenticalTo, everyZip]

/-- C9: for all integers a, b, c in the range of the machine integer, the version parsed from
their canonical decimal renderings joined by '.' is `NewVersion(a, b, c)` (same Major, Minor,
Patch and Parts); it is fully identical to it, it is a semver release, and its `String()` is
the text it was parsed from. -/
theorem C9_numeric_roundtrip (U : UnicodeTables) (a b c : Int)
    (ha : minInt ≤ a ∧ a ≤ maxInt) (hb : minInt ≤ b ∧ b ≤ maxInt)
    (hc : minInt ≤ c ∧ c ≤ maxInt) :
    ParseVersion U (Itoa a ++ '.' :: (Itoa b ++ '.' :: Itoa c)) = NewVersion a b c ∧
    (ParseVersion U (Itoa a ++ '.' :: (Itoa b ++ '.' :: Itoa c))).IsFullyIdenticalTo
      (NewVersion a b c) = true ∧
    (ParseVersion U (Itoa a ++ '.' :: (Itoa b ++ '.' :: Itoa c))).IsSemverRelease = true ∧
    (ParseVersion U (Itoa a ++ '.' :: (Itoa b ++ '.' :: Itoa c))).String =
      Itoa a ++ '.' :: (Itoa b ++ '.' :: Itoa c) := by
  have hs : Split (Itoa a ++ '.' :: (Itoa b ++ '.' :: Itoa c)) '.' = [Itoa a, Itoa b, Itoa c] := by
    rw [Split_append_sep _ _ _ (dot_not_mem_Itoa a), Split_append_sep _ _ _ (dot_not_mem_Itoa b),
      Split_no_sep _ _ (dot_not_mem_Itoa c)]
  have hP : ParseVersion U (Itoa a ++ '.' :: (Itoa b ++ '.' :: Itoa c)) = NewVersion a b c := by
    simp only [ParseVersion, strip_Itoa, hs, NewVersion]
    simp [ParseVersionPart_Itoa U a ha.1 ha.2, ParseVersionPart_Itoa U b hb.1 hb.2,
      ParseVersionPart_Itoa U c hc.1 hc.2]
  rw [hP]
  refine ⟨rfl, ?_, ?_, ?_⟩
  · simp [Version.IsFullyIdenticalTo, NewVersion, IsFullyIdenticalTo_leaf]
  · simp [Version.IsSemverRelease, Version.IsNonEmpty, NewVersion, VersionPart.IsInt]
  · simp [Version.String, NewVersion, VersionPart.Raw]

/-- C9, witness: `1.2.3`, and `1.2.0`. -/
theorem C9_numeric_roundtrip_witness :
    (ParseVersion asciiTables "1.2.3".toList = NewVersion 1 2 3 ∧
      (ParseVersion asciiTables "1.2.3".toList).IsFullyIdenticalTo (NewVersion 1 2 3) = true ∧
      (ParseVersion asciiTables "1.2.3".toList).IsSemverRelease = true ∧
      (ParseVersion asciiTables "1.2.3".toList).String = "1.2.3".toList) ∧
    (ParseVersion asciiTables "1.2.0".toList).IsFullyIdenticalTo (NewVersion 1 2 0) = true :=
  ⟨C9_numeric_roundtrip asciiTables 1 2 3 (by decide) (by decide) (by decide), by decide⟩

/-! ## C10: missing minor and patch segments -/

/-- The text `a.b`. -/
theorem ParseVersion_two (U : UnicodeTables) (a b : Nat) :
    ParseVersion U (natStr a ++ '.' :: natStr b) =
      { Major := ParseVersionPart U (natStr a),
        Minor := ParseVersionPart U (natStr b),
        Patch := zeroPart,
        Parts := [ParseVersionPart U (natStr a), ParseVersionPart U (natStr b)] } := by
  have hs : Split (natStr a ++ '.' :: natStr b) '.' = [natStr a, natStr b] := by
    rw [Split_append_sep _ _ _ (dot_not_mem_natStr a), Split_no_sep _ _ (dot_not_mem_natStr b)]
  simp only [ParseVersion, strip_natStr, hs]
  simp

/-- The text `a`. -/
theorem ParseVersion_one (U : UnicodeTables) (a : Nat) :
    ParseVersion U (natStr a) =
      { Major := ParseVersionPart U (natStr a), Minor := zeroPart, Patch := zeroPart,
        Parts := [ParseVersionPart U (natStr a)] } := by
  have hs : Split (natStr a) '.' = [natStr a] := Split_no_sep _ _ (dot_not_mem_natStr a)
  have hstrip := strip_natStr a []
  simp only [List.append_nil] at hstrip
  simp only [ParseVersion, hstrip, hs]
  simp

theorem Itoa_natCast (n : Nat) : Itoa (n : Int) = natStr n := by
  unfold Itoa
  rw [if_neg (by omega)]
  simp

/-- Two versions whose major, minor and patch parts tie are semantically identical. -/
theorem Version_sem_of_ties (U : UnicodeTables) (fuel : Nat) (v o : Version)
    (h1 : v.Major.IsGreaterThan U fuel o.Major = some false)
    (h2 : o.Major.IsGreaterThan U fuel v.Major = some false)
    (h3 : v.Minor.IsGreaterThan U fuel o.Minor = some false)
    (h4 : o.Minor.IsGreaterThan U fuel v.Minor = some false)
    (h5 : v.Patch.IsGreaterThan U fuel o.Patch = some false)
    (h6 : o.Patch.IsGreaterThan U fuel v.Patch = some false) :
    v.IsSemanticallyIdenticalTo U fuel o = some true := by
  have hvo : v.IsGreaterThan U fuel o = some false := by
    rw [Version_gt_of_ties U fuel v o h1 h2 h3 h4]; exact h5
  have hov : o.IsGreaterThan U fuel v = some false := by
    rw [Version_gt_of_ties U fuel o v h2 h1 h4 h3]; exact h6
  simp [Version.IsSemanticallyIdenticalTo, hvo, hov]

/-- The part of an in-range number ties with the integer part `NewVersion` builds. -/
theorem gt_natStr_NewVersion (U : UnicodeTables) (fuel n : Nat) (h : (n : Int) ≤ maxInt) :
    (ParseVersionPart U (natStr n)).IsGreaterThan U (fuel + 1)
        (VersionPart.mk (Itoa n) n true []) = some false ∧
    (VersionPart.mk (Itoa n) n true []).IsGreaterThan U (fuel + 1)
        (ParseVersionPart U (natStr n)) = some false := by
  rw [ParseVersionPart_natStr, if_pos h, gt_int_int, gt_int_int]
  simp

theorem gt_zeroPart_zero (U : UnicodeTables) (fuel : Nat) (r : List Char) :
    zeroPart.IsGreaterThan U (fuel + 1) (VersionPart.mk r 0 true []) = some false ∧
    (VersionPart.mk r 0 true []).IsGreaterThan U (fuel + 1) zeroPart = some false := by
  unfold zeroPart
  rw [gt_int_int, gt_int_int]
  simp

/-- C10: a missing minor or patch segment counts as a true zero. For all natural numbers a and
b, ParseVersion("a.b") is semantically identical to ParseVersion("a.b.0") and not fully
identical to it; and for the a and b that `NewVersion` can be given, those within the range of
Go's `int`, ParseVersion("a.b") is semantically identical to NewVersion(a, b, 0) and
ParseVersion("a") is semantically identical to NewVersion(a, 0, 0). -/
theorem C10_missing_segments_are_zero (U : UnicodeTables) (fuel a b : Nat) :
    (ParseVersion U (natStr a ++ '.' :: natStr b)).IsSemanticallyIdenticalTo U (fuel + 1)
        (ParseVersion U (natStr a ++ '.' :: (natStr b ++ '.' :: natStr 0))) = some true ∧
    (ParseVersion U (natStr a ++ '.' :: natStr b)).IsFullyIdenticalTo
        (ParseVersion U (natStr a ++ '.' :: (natStr b ++ '.' :: natStr 0))) = false ∧
    ((a : Int) ≤ maxInt → (b : Int) ≤ maxInt →
      (ParseVersion U (natStr a ++ '.' :: natStr b)).IsSemanticallyIdenticalTo U (fuel + 1)
        (NewVersion a b 0) = some true) ∧
    ((a : Int) ≤ maxInt →
      (ParseVersion U (natStr a)).IsSemanticallyIdenticalTo U (fuel + 1)
        (NewVersion a 0 0) = some true) := by
  have h0 : ParseVersionPart U (natStr 0) = VersionPart.mk (natStr 0) 0 true [] := by
    rw [ParseVersionPart_natStr, if_pos (by decide)]; rfl
  refine ⟨?_, ?_, ?_, ?_⟩
  · rw [ParseVersion_two, ParseVersion_three U a b _ (dot_not_mem_natStr 0)]
    apply Version_sem_of_ties U (fuel + 1) _ _ (gt_natStr_self U fuel a) (gt_natStr_self U fuel a)
      (gt_natStr_self U fuel b) (gt_natStr_self U fuel b)
    · show zeroPart.IsGreaterThan U (fuel + 1) (ParseVersionPart U (natStr 0)) = some false
      rw [h0]; exact (gt_zeroPart_zero U fuel _).1
    · show (ParseVersionPart U (natStr 0)).IsGreaterThan U (fuel + 1) zeroPart = some false
      rw [h0]; exact (gt_zeroPart_zero U fuel _).2
  · rw [ParseVersion_two, ParseVersion_three U a b _ (dot_not_mem_natStr 0)]
    have hpatch : zeroPart.IsFullyIdenticalTo (ParseVersionPart U (natStr 0)) = false := by
      rw [h0]; rfl
    simp [Version.IsFullyIdenticalTo, hpatch]
  · intro ha hb
    rw [ParseVersion_two]
    exact Version_sem_of_ties U (fuel + 1) _ _ (gt_natStr_NewVersion U fuel a ha).1
      (gt_natStr_NewVersion U fuel a ha).2 (gt_natStr_NewVersion U fuel b hb).1
      (gt_natStr_NewVersion U fuel b hb).2 (gt_zeroPart_zero U fuel _).1
      (gt_zeroPart_zero U fuel _).2
  · intro ha
    rw [ParseVersion_one]
    exact Version_sem_of_ties U (fuel + 1) _ _ (gt_natStr_NewVersion U fuel a ha).1
      (gt_natStr_NewVersion U fuel a ha).2 (gt_zeroPart_zero U fuel _).1
      (gt_zeroPart_zero U fuel _).2 (gt_zeroPart_zero U fuel _).1 (gt_zeroPart_zero U fuel _).2

/-- C10, witness: `1.2` against `1.2.0` and `NewVersion(1, 2, 0)`, and `1` against
`NewVersion(1, 0, 0)`. -/
theorem C10_missing_segments_are_zero_witness :
    (ParseVersion asciiTables "1.2".toList).IsSemanticallyIdenticalTo asciiTables 1
        (ParseVersion asciiTables "1.2.0".toList) = some true ∧
    (ParseVersion asciiTables "1.2".toList).IsFullyIdenticalTo
        (ParseVersion asciiTables "1.2.0".toList) = false ∧
    (ParseVersion asciiTables "1.2".toList).IsSemanticallyIdenticalTo asciiTables 1
        (NewVersion 1 2 0) = some true ∧
    (ParseVersion asciiTables "1".toList).IsSemanticallyIdenticalTo asciiTables 1
        (NewVersion 1 0 0) = some true :=
  ⟨(C10_missing_segments_are_zero asciiTables 0 1 2).1,
    (C10_missing_segments_are_zero asciiTables 0 1 2).2.1,
    (C10_missing_segments_are_zero asciiTables 0 1 2).2.2.1 (by decide) (by decide),
    (C10_missing_segments_are_zero asciiTables 0 1 2).2.2.2 (by decide)⟩

/-! ## C11: the text of a parsed version -/

theorem joinDots_cons_cons (a b : List Char) (rest : List (List Char)) :
    joinDots (a :: b :: rest) = a ++ '.' :: joinDots (b :: rest) := rfl

theorem joinDots_Split (s : List Char) : joinDots (Split s '.') = s := by
  induction s with
  | nil => rfl
  | cons c cs ih =>
    by_cases hc : c = '.'
    · subst hc
      have hne := Split_ne_nil cs '.'
      cases hS : Split cs '.' with
      | nil => exact absurd hS hne
      | cons seg rest =>
        rw [hS] at ih
        simp [Split, hS, joinDots_cons_cons, ih]
    · have hne := Split_ne_nil cs '.'
      cases hS : Split cs '.' with
      | nil => exact absurd hS hne
      | cons seg rest =>
        rw [hS] at ih
        simp only [Split, hc, if_false, hS]
        cases rest with
        | nil =>
          simp only [joinDots] at ih ⊢
          rw [ih]
        | cons b rest2 =>
          rw [joinDots_cons_cons] at ih ⊢
          rw [List.cons_append, ih]

theorem Split_length (s : List Char) : (Split s '.').length = s.count '.' + 1 := by
  induction s with
  | nil => rfl
  | cons c cs ih =>
    by_cases hc : c = '.'
    · subst hc
      simp [Split, ih]
    · have hne := Split_ne_nil cs '.'
      cases hS : Split cs '.' with
      | nil => exact absurd hS hne
      | cons seg rest =>
        rw [hS] at ih
        have hc2 : (c == '.') = false := by simpa using hc
        simp only [Split, hc, if_false, hS, List.length_cons, List.count_cons, hc2] at ih ⊢
        simpa using ih

theorem ParseVersionPart_Raw (U : UnicodeTables) (seg : List Char) :
    (ParseVersionPart U seg).Raw = seg := by
  unfold ParseVersionPart
  cases Atoi seg <;> rfl

/-- From the second iteration on, the loop of `Raw` puts a `.` in front of every part. -/
theorem rawLoop_pos : ∀ (parts : List VersionPart) (i : Nat) (result : List Char), 0 < i →
    rawLoop parts i result = result ++ (parts.map (fun p => '.' :: p.Raw)).flatten := by
  intro parts
  induction parts with
  | nil => intro i result _; simp [rawLoop]
  | cons p ps ih =>
    intro i result hi
    rw [rawLoop, ih (i + 1) _ (by omega), if_pos hi]
    simp

theorem joinDots_eq (a : List Char) (rest : List (List Char)) :
    joinDots (a :: rest) = a ++ (rest.map (fun r => '.' :: r)).flatten := by
  induction rest generalizing a with
  | nil => simp [joinDots]
  | cons b rest ih => rw [joinDots_cons_cons, ih b]; simp

theorem Version_Raw_eq (v : Version) : v.Raw = joinDots (v.Parts.map VersionPart.Raw) := by
  unfold Version.Raw
  cases v.Parts with
  | nil => rfl
  | cons p ps =>
    rw [rawLoop, rawLoop_pos ps 1 _ (by omega), List.map_cons, joinDots_eq]
    simp [List.map_map, Function.comp_def]

theorem ParseVersion_Parts (U : UnicodeTables) (s : List Char) :
    (ParseVersion U s).Parts = (Split (stripV s) '.').map (fun raw => ParseVersionPart U raw) :=
  rfl

theorem ParseVersion_Parts_Raw (U : UnicodeTables) (s : List Char) :
    (ParseVersion U s).Parts.map VersionPart.Raw = Split (stripV s) '.' := by
  rw [ParseVersion_Parts, List.map_map]
  have : (VersionPart.Raw ∘ fun raw => ParseVersionPart U raw) = id := by
    funext x; exact ParseVersionPart_Raw U x
  rw [this, List.map_id]

/-- A version text depends on its leading `v` or `V` only through `stripV`. -/
theorem ParseVersion_eq_of_stripV (U : UnicodeTables) (s t : List Char)
    (h : stripV s = stripV t) : ParseVersion U s = ParseVersion U t := by
  unfold ParseVersion
  unfold stripV at h
  simp only [h]

/-- C11: for every string s, `ParseVersion(s).Raw()` is s without the one leading `v` or `V`
that `ParseVersion` strips (s itself when there is none), the number of Parts is one more than
the number of '.' in that text, and the Raw of the parts are its segments; for s that does not
start with `v` or `V`, `ParseVersion("v" ++ s)` and `ParseVersion("V" ++ s)` are the version
`ParseVersion(s)`. -/
theorem C11_raw_undoes_parse (U : UnicodeTables) (s : List Char) :
    (ParseVersion U s).Raw =
      (if HasPrefix s 'v' || HasPrefix s 'V' then s.drop 1 else s) ∧
    (ParseVersion U s).Parts.length =
      (if HasPrefix s 'v' || HasPrefix s 'V' then s.drop 1 else s).count '.' + 1 ∧
    (ParseVersion U s).Parts.map VersionPart.Raw =
      Split (if HasPrefix s 'v' || HasPrefix s 'V' then s.drop 1 else s) '.' ∧
    (HasPrefix s 'v' = false → HasPrefix s 'V' = false →
      ParseVersion U ('v' :: s) = ParseVersion U s ∧
      ParseVersion U ('V' :: s) = ParseVersion U s) := by
  have hraw := ParseVersion_Parts_Raw U s
  refine ⟨?_, ?_, hraw, ?_⟩
  · rw [Version_Raw_eq, hraw, joinDots_Split]; rfl
  · have h := congrArg List.length hraw
    rw [List.length_map, Split_length] at h
    exact h
  · intro hv hV
    have hs : stripV s = s := by simp [stripV, hv, hV]
    constructor
    · apply ParseVersion_eq_of_stripV
      rw [hs]; simp [stripV, HasPrefix]
    · apply ParseVersion_eq_of_stripV
      rw [hs]; simp [stripV, HasPrefix]

/-- C11, witness: `1.2.3.4`, `v1.2.3.4` and `V1.2.3.4`. -/
theorem C11_raw_undoes_parse_witness :
    (ParseVersion asciiTables "v1.2.3.4".toList).Raw = "1.2.3.4".toList ∧
    (ParseVersion asciiTables "1.2.3.4".toList).Parts.length = 4 ∧
    ParseVersion asciiTables "v1.2.3.4".toList = ParseVersion asciiTables "1.2.3.4".toList ∧
    ParseVersion asciiTables "V1.2.3.4".toList = ParseVersion asciiTables "1.2.3.4".toList :=
  ⟨(C11_raw_undoes_parse asciiTables "v1.2.3.4".toList).1,
    (C11_raw_undoes_parse asciiTables "1.2.3.4".toList).2.1,
    ((C11_raw_undoes_parse asciiTables "1.2.3.4".toList).2.2.2 rfl rfl).1,
    ((C11_raw_undoes_parse asciiTables "1.2.3.4".toList).2.2.2 rfl rfl).2⟩

/-! ## C12: parts with different numbers of sub-parts -/

theorem shorterLoop_ties (g : VersionPart → VersionPart → Option Bool) :
    ∀ l1 l2 : List VersionPart, (∀ pr ∈ List.zip l1 l2, g pr.2 pr.1 = some false) →
      shorterLoop g l1 l2 = some true := by
  intro l1
  induction l1 with
  | nil => intro l2 _; simp [shorterLoop]
  | cons p ps ih =>
    intro l2 h
    cases l2 with
    | nil => simp [shorterLoop]
    | cons o os =>
      have h1 : g o p = some false := h (p, o) (by simp)
      rw [shorterLoop]
      simp only [h1]
      exact ih os (fun pr hpr => h pr (by simp [hpr]))

theorem longerLoop_ties (g : VersionPart → VersionPart → Option Bool) :
    ∀ l1 l2 : List VersionPart, (∀ pr ∈ List.zip l2 l1, g pr.2 pr.1 = some false) →
      longerLoop g l1 l2 = some false := by
  intro l1
  induction l1 with
  | nil => intro l2 _; simp [longerLoop]
  | cons p ps ih =>
    intro l2 h
    cases l2 with
    | nil => simp [longerLoop]
    | cons o os =>
      have h1 : g p o = some false := h (o, p) (by simp)
      rw [longerLoop]
      simp only [h1]
      exact ih os (fun pr hpr => h pr (by simp [hpr]))

/-- A parsed part that has sub-parts is not an integer. -/
theorem ParseVersionPart_IsInt_of_SubParts (U : UnicodeTables) (s : List Char)
    (h : 0 < (ParseVersionPart U s).SubParts.length) : (ParseVersionPart U s).IsInt = false := by
  unfold ParseVersionPart at h ⊢
  cases hA : Atoi s with
  | none => rfl
  | some v => simp [hA, VersionPart.SubParts] at h

/-- Between two parts that are not integers, the one with fewer sub-parts is the greater one
when their sub-parts tie over the common length. -/
theorem gt_fewer_subparts (U : UnicodeTables) (fuel : Nat) (p q : VersionPart)
    (hp : p.IsInt = false) (hq : q.IsInt = false) (hpos : 0 < p.SubParts.length)
    (hlt : p.SubParts.length < q.SubParts.length)
    (hties : ∀ pr ∈ List.zip p.SubParts q.SubParts,
      pr.2.IsGreaterThan U fuel pr.1 = some false) :
    p.IsGreaterThan U (fuel + 1) q = some true ∧
      q.IsGreaterThan U (fuel + 1) p = some false := by
  have h1 := shorterLoop_ties (VersionPart.IsGreaterThan U fuel) p.SubParts q.SubParts hties
  have h2 := longerLoop_ties (VersionPart.IsGreaterThan U fuel) q.SubParts p.SubParts hties
  have e1 : ¬ p.SubParts.length = 0 := by omega
  have e2 : ¬ q.SubParts.length = 0 := by omega
  have e3 : ¬ p.SubParts.length = q.SubParts.length := by omega
  have e4 : ¬ q.SubParts.length = p.SubParts.length := by omega
  have e5 : ¬ q.SubParts.length < p.SubParts.length := by omega
  constructor
  · rw [VersionPart.IsGreaterThan, gtBody]
    simp [hp, hq, e1, e2, e3, hlt, h1]
  · rw [VersionPart.IsGreaterThan, gtBody]
    simp [hp, hq, e1, e2, e4, e5, hlt, h2]

/-- C12 (as amended): between two parsed parts that both have sub-parts, the one with fewer
sub-parts wins when all else is equal: for p = ParseVersionPart(s) and q = ParseVersionPart(t)
with q having strictly more sub-parts than p, if for every index below the number of
sub-parts of p neither p.SubParts[i] nor q.SubParts[i] is greater than the other (the pairs of
`List.zip` are the pairs of sub-parts at these indices), then p.IsGreaterThan(q) is true and
q.IsGreaterThan(p) is false. -/
theorem C12_fewer_subparts_win (U : UnicodeTables) (fuel : Nat) (s t : List Char)
    (hpos : 0 < (ParseVersionPart U s).SubParts.length)
    (hlt : (ParseVersionPart U s).SubParts.length < (ParseVersionPart U t).SubParts.length)
    (hties : ∀ pr ∈ List.zip (ParseVersionPart U s).SubParts (ParseVersionPart U t).SubParts,
      pr.1.IsGreaterThan U (fuel + 1) pr.2 = some false ∧
        pr.2.IsGreaterThan U (fuel + 1) pr.1 = some false) :
    (ParseVersionPart U s).IsGreaterThan U (fuel + 2) (ParseVersionPart U t) = some true ∧
    (ParseVersionPart U t).IsGreaterThan U (fuel + 2) (ParseVersionPart U s) = some false :=
  gt_fewer_subparts U (fuel + 1) _ _ (ParseVersionPart_IsInt_of_SubParts U s hpos)
    (ParseVersionPart_IsInt_of_SubParts U t (by omega)) hpos hlt
    (fun pr hpr => (hties pr hpr).2)

/-- C12, witness: the part `3-RC` is greater than the part `3-RC1`, and `3-RC1` is not greater
than `3-RC`. -/
theorem C12_fewer_subparts_win_witness :
    (ParseVersionPart asciiTables "3-RC".toList).IsGreaterThan asciiTables 2
        (ParseVersionPart asciiTables "3-RC1".toList) = some true ∧
    (ParseVersionPart asciiTables "3-RC1".toList).IsGreaterThan asciiTables 2
        (ParseVersionPart asciiTables "3-RC".toList) = some false :=
  C12_fewer_subparts_win asciiTables 0 "3-RC".toList "3-RC1".toList (by decide) (by decide)
    (by decide)

/-- C12, counterexample: the parts `3-RC` (sub-parts 3, -RC) and `3-RC1` (sub-parts 3, -RC, 1)
tie on their first two sub-parts, and the part with more sub-parts is not the greater one:
`3-RC1` is not greater than `3-RC`, at any call depth, `3-RC` is greater than `3-RC1`, and
`1.2.3-RC1` is not greater than `1.2.3-RC`; this whatever the Unicode tables. -/
theorem C12_counterexample :
    (∀ U : UnicodeTables,
      (ParseVersionPart U "3-RC1".toList).IsGreaterThan U 2
        (ParseVersionPart U "3-RC".toList) = some false) ∧
    (∀ U : UnicodeTables,
      (ParseVersionPart U "3-RC".toList).IsGreaterThan U 2
        (ParseVersionPart U "3-RC1".toList) = some true) ∧
    (∀ (U : UnicodeTables) (fuel : Nat),
      (ParseVersionPart U "3-RC1".toList).IsGreaterThan U fuel
        (ParseVersionPart U "3-RC".toList) ≠ some true) ∧
    (∀ U : UnicodeTables,
      (ParseVersion U "1.2.3-RC1".toList).IsGreaterThan U 2
        (ParseVersion U "1.2.3-RC".toList) = some false) ∧
    (∀ (U : UnicodeTables) (fuel : Nat),
      (ParseVersion U "1.2.3-RC1".toList).IsGreaterThan U fuel
        (ParseVersion U "1.2.3-RC".toList) ≠ some true) := by
  have h1 : ∀ U : UnicodeTables, (ParseVersionPart U "3-RC1".toList).IsGreaterThan U 2
      (ParseVersionPart U "3-RC".toList) = some false := fun _ => rfl
  have h2 : ∀ U : UnicodeTables, (ParseVersion U "1.2.3-RC1".toList).IsGreaterThan U 2
      (ParseVersion U "1.2.3-RC".toList) = some false := fun _ => rfl
  refine ⟨h1, fun _ => rfl, ?_, h2, ?_⟩
  · intro U fuel hf
    exact absurd (gt_det U 2 fuel _ _ false true (h1 U) hf) (by decide)
  · intro U fuel hf
    exact absurd (Version_gt_det U 2 fuel _ _ false true (h2 U) hf) (by decide)

/-! ## C13: segments after the third -/

/-- Stripping the leading `v` or `V` of a text strips it from its first segment. -/
theorem Split_stripV (s seg0 : List Char) (rest : List (List Char))
    (h : Split s '.' = seg0 :: rest) : Split (stripV s) '.' = stripV seg0 :: rest := by
  cases s with
  | nil =>
    simp only [Split, List.cons.injEq] at h
    obtain ⟨h1, h2⟩ := h
    subst h1; subst h2
    rfl
  | cons c cs =>
    by_cases hc : c = '.'
    · subst hc
      simp only [Split, if_true, List.cons.injEq] at h
      obtain ⟨h1, h2⟩ := h
      subst h1; subst h2
      rfl
    · have hne := Split_ne_nil cs '.'
      cases hS : Split cs '.' with
      | nil => exact absurd hS hne
      | cons seg rest2 =>
        simp only [Split, hc, if_false, hS, List.cons.injEq] at h
        obtain ⟨h1, h2⟩ := h
        subst h1; subst h2
        unfold stripV
        simp only [HasPrefix]
        by_cases hv : (c == 'v' || c == 'V') = true
        · simp only [hv, if_true, List.drop_succ_cons, List.drop_zero]
          exact hS
        · simp only [hv]
          simp [Split, hc, hS]

/-- The major, minor and patch part of a text with at least three segments. -/
theorem ParseVersion_fields_of_Split (U : UnicodeTables) (s a b c : List Char)
    (l : List (List Char)) (h : Split s '.' = a :: b :: c :: l) :
    (ParseVersion U s).Major = ParseVersionPart U (stripV a) ∧
    (ParseVersion U s).Minor = ParseVersionPart U b ∧
    (ParseVersion U s).Patch = ParseVersionPart U c := by
  have h2 := Split_stripV s a (b :: c :: l) h
  unfold stripV at h2
  unfold ParseVersion
  simp only [h2]
  simp [stripV]

/-- C13: for all strings s and t that each have at least three '.'-separated segments and
whose first three segments are the same, the parsed versions are semantically identical, and
neither IsGreaterThan nor IsLessThan holds between them in either direction. -/
theorem C13_later_segments_ignored (U : UnicodeTables) (fuel : Nat) (s t : List Char)
    (hs : 3 ≤ (Split s '.').length) (ht : 3 ≤ (Split t '.').length)
    (h : (Split s '.').take 3 = (Split t '.').take 3) :
    (ParseVersion U s).IsSemanticallyIdenticalTo U (fuel + 2) (ParseVersion U t) = some true ∧
    (ParseVersion U s).IsGreaterThan U (fuel + 2) (ParseVersion U t) = some false ∧
    (ParseVersion U t).IsGreaterThan U (fuel + 2) (ParseVersion U s) = some false ∧
    (ParseVersion U s).IsLessThan U (fuel + 2) (ParseVersion U t) = some false ∧
    (ParseVersion U t).IsLessThan U (fuel + 2) (ParseVersion U s) = some false := by
  rcases hS : Split s '.' with _ | ⟨a, _ | ⟨b, _ | ⟨c, l⟩⟩⟩ <;> rw [hS] at hs h <;>
    try (simp at hs)
  rcases hT : Split t '.' with _ | ⟨a2, _ | ⟨b2, _ | ⟨c2, l2⟩⟩⟩ <;> rw [hT] at ht h <;>
    try (simp at ht)
  simp only [List.take_succ_cons, List.take_zero, List.cons.injEq, and_true] at h
  obtain ⟨ha, hb, hc⟩ := h
  subst ha; subst hb; subst hc
  obtain ⟨s1, s2, s3⟩ := ParseVersion_fields_of_Split U s a b c l hS
  obtain ⟨t1, t2, t3⟩ := ParseVersion_fields_of_Split U t a b c l2 hT
  have g1 : (ParseVersion U s).Major.IsGreaterThan U (fuel + 2) (ParseVersion U t).Major =
      some false := by
    rw [s1, t1]; exact gt_shallow_self U fuel _ (ParseVersionPart_shallow U _)
  have g1r : (ParseVersion U t).Major.IsGreaterThan U (fuel + 2) (ParseVersion U s).Major =
      some false := by
    rw [s1, t1]; exact gt_shallow_self U fuel _ (ParseVersionPart_shallow U _)
  have g2 : (ParseVersion U s).Minor.IsGreaterThan U (fuel + 2) (ParseVersion U t).Minor =
      some false := by
    rw [s2, t2]; exact gt_shallow_self U fuel _ (ParseVersionPart_shallow U _)
  have g2r : (ParseVersion U t).Minor.IsGreaterThan U (fuel + 2) (ParseVersion U s).Minor =
      some false := by
    rw [s2, t2]; exact gt_shallow_self U fuel _ (ParseVersionPart_shallow U _)
  have g3 : (ParseVersion U s).Patch.IsGreaterThan U (fuel + 2) (ParseVersion U t).Patch =
      some false := by
    rw [s3, t3]; exact gt_shallow_self U fuel _ (ParseVersionPart_shallow U _)
  have g3r : (ParseVersion U t).Patch.IsGreaterThan U (fuel + 2) (ParseVersion U s).Patch =
      some false := by
    rw [s3, t3]; exact gt_shallow_self U fuel _ (ParseVersionPart_shallow U _)
  have hst : (ParseVersion U s).IsGreaterThan U (fuel + 2) (ParseVersion U t) = some false := by
    rw [Version_gt_of_ties U (fuel + 2) _ _ g1 g1r g2 g2r]; exact g3
  have hts : (ParseVersion U t).IsGreaterThan U (fuel + 2) (ParseVersion U s) = some false := by
    rw [Version_gt_of_ties U (fuel + 2) _ _ g1r g1 g2r g2]; exact g3r
  refine ⟨?_, hst, hts, ?_, ?_⟩
  · simp [Version.IsSemanticallyIdenticalTo, hst, hts]
  · simp [Version.IsLessThan, Version.IsGreaterThanOrEqualTo, Version.IsSemanticallyIdenticalTo,
      hst, hts]
  · simp [Version.IsLessThan, Version.IsGreaterThanOrEqualTo, Version.IsSemanticallyIdenticalTo,
      hst, hts]

/-- C13, witness: `1.2.3.4` and `1.2.3.5`. -/
theorem C13_later_segments_ignored_witness :
    (ParseVersion asciiTables "1.2.3.4".toList).IsSemanticallyIdenticalTo asciiTables 2
        (ParseVersion asciiTables "1.2.3.5".toList) = some true ∧
    (ParseVersion asciiTables "1.2.3.4".toList).IsGreaterThan asciiTables 2
        (ParseVersion asciiTables "1.2.3.5".toList) = some false ∧
    (ParseVersion asciiTables "1.2.3.5".toList).IsGreaterThan asciiTables 2
        (ParseVersion asciiTables "1.2.3.4".toList) = some false ∧
    (ParseVersion asciiTables "1.2.3.4".toList).IsLessThan asciiTables 2
        (ParseVersion asciiTables "1.2.3.5".toList) = some false ∧
    (ParseVersion asciiTables "1.2.3.5".toList).IsLessThan asciiTables 2
        (ParseVersion asciiTables "1.2.3.4".toList) = some false :=
  C13_later_segments_ignored asciiTables 0 "1.2.3.4".toList "1.2.3.5".toList (by decide)
    (by decide) (by decide)

/-! ## C14 and C20: full identity -/

theorem IsFullyIdenticalTo_mk (r1 r2 : List Char) (i1 i2 : Int) (b1 b2 : Bool)
    (s1 s2 : List VersionPart) :
    (VersionPart.mk r1 i1 b1 s1).IsFullyIdenticalTo (VersionPart.mk r2 i2 b2 s2) =
      (decide (r1 = r2) && decide (i1 = i2) && decide (b1 = b2) &&
        decide (s1.length = s2.length) && everyZip s1 s2) := by
  rw [VersionPart.IsFullyIdenticalTo]

theorem everyZip_iff_zip : ∀ l1 l2 : List VersionPart,
    everyZip l1 l2 = true ↔ ∀ pr ∈ List.zip l1 l2, pr.1.IsFullyIdenticalTo pr.2 = true := by
  intro l1
  induction l1 with
  | nil => intro l2; simp [everyZip]
  | cons a as ih =>
    intro l2
    cases l2 with
    | nil => simp [everyZip]
    | cons b bs =>
      rw [everyZip, Bool.and_eq_true, ih bs]
      simp

/-- Two lists of the same length whose parts are pairwise fully identical are equal, when full
identity of the parts of the first list is equality. -/
theorem everyZip_iff_eq : ∀ l1 l2 : List VersionPart,
    (∀ x ∈ l1, ∀ y : VersionPart, x.IsFullyIdenticalTo y = true ↔ x = y) →
      (l1.length = l2.length ∧ everyZip l1 l2 = true ↔ l1 = l2) := by
  intro l1
  induction l1 with
  | nil =>
    intro l2 _
    cases l2 with
    | nil => simp [everyZip]
    | cons b bs => simp
  | cons a as ih =>
    intro l2 h
    cases l2 with
    | nil => simp
    | cons b bs =>
      have hab := h a (by simp) b
      have hrest := ih bs (fun x hx y => h x (List.mem_cons_of_mem a hx) y)
      rw [everyZip, Bool.and_eq_true, hab]
      simp only [List.length_cons, Nat.add_right_cancel_iff, List.cons.injEq]
      constructor
      · rintro ⟨hl, he, hz⟩
        exact ⟨he, hrest.1 ⟨hl, hz⟩⟩
      · rintro ⟨he, hl⟩
        have := hrest.2 hl
        exact ⟨this.1, he, this.2⟩

/-- Full identity of parts is equality of parts. -/
theorem IsFullyIdenticalTo_iff_eq_aux : ∀ (n : Nat) (p q : VersionPart), sizeOf p ≤ n →
    (p.IsFullyIdenticalTo q = true ↔ p = q) := by
  intro n
  induction n with
  | zero =>
    intro p q hp
    cases p with
    | mk r i b s => simp at hp
  | succ k ih =>
    intro p q hp
    obtain ⟨r1, i1, b1, s1⟩ := p
    obtain ⟨r2, i2, b2, s2⟩ := q
    have hsub : ∀ x ∈ s1, ∀ y : VersionPart, x.IsFullyIdenticalTo y = true ↔ x = y := by
      intro x hx y
      apply ih
      have h1 := List.sizeOf_lt_of_mem hx
      simp only [VersionPart.mk.sizeOf_spec] at hp
      omega
    have hl := everyZip_iff_eq s1 s2 hsub
    rw [IsFullyIdenticalTo_mk]
    simp only [Bool.and_eq_true, decide_eq_true_eq, VersionPart.mk.injEq]
    constructor
    · rintro ⟨⟨⟨⟨h1, h2⟩, h3⟩, h4⟩, h5⟩
      exact ⟨h1, h2, h3, hl.1 ⟨h4, h5⟩⟩
    · rintro ⟨h1, h2, h3, h4⟩
      have := hl.2 h4
      exact ⟨⟨⟨⟨h1, h2⟩, h3⟩, this.1⟩, this.2⟩

theorem IsFullyIdenticalTo_iff_eq (p q : VersionPart) :
    p.IsFullyIdenticalTo q = true ↔ p = q :=
  IsFullyIdenticalTo_iff_eq_aux (sizeOf p) p q (Nat.le_refl _)

/-- Full identity of versions compares the major, minor and patch part and nothing else. -/
theorem Version_IsFullyIdenticalTo_iff (a b : Version) :
    a.IsFullyIdenticalTo b = true ↔
      a.Major = b.Major ∧ a.Minor = b.Minor ∧ a.Patch = b.Patch := by
  simp only [Version.IsFullyIdenticalTo, Bool.and_eq_true, IsFullyIdenticalTo_iff_eq]
  exact and_assoc

/-- The parser never builds the placeholder of a missing segment from a segment. -/
theorem ParseVersionPart_ne_zeroPart (U : UnicodeTables) (seg : List Char) :
    ParseVersionPart U seg ≠ zeroPart := by
  intro h
  have hraw := ParseVersionPart_Raw U seg
  rw [h] at hraw
  have hseg : seg = [] := hraw.symm
  subst hseg
  have : (ParseVersionPart U []).IsInt = false := rfl
  rw [h] at this
  exact absurd this (by decide)

/-- The major, minor and patch part of a parsed version are equal to those of another parsed
version exactly when the first three parts are. -/
theorem ParseVersion_fields_eq_iff (U : UnicodeTables) (s t : List Char) :
    ((ParseVersion U s).Major = (ParseVersion U t).Major ∧
      (ParseVersion U s).Minor = (ParseVersion U t).Minor ∧
      (ParseVersion U s).Patch = (ParseVersion U t).Patch) ↔
    (ParseVersion U s).Parts.take 3 = (ParseVersion U t).Parts.take 3 := by
  have hz := fun seg => ParseVersionPart_ne_zeroPart U seg
  have hz2 := fun seg (h : zeroPart = ParseVersionPart U seg) => hz seg h.symm
  unfold ParseVersion
  simp only
  generalize Split (if (HasPrefix s 'v' || HasPrefix s 'V') = true then List.drop 1 s else s)
    '.' = segs1
  generalize Split (if (HasPrefix t 'v' || HasPrefix t 'V') = true then List.drop 1 t else t)
    '.' = segs2
  rcases segs1 with _ | ⟨a, _ | ⟨b, _ | ⟨c, l⟩⟩⟩ <;>
    rcases segs2 with _ | ⟨a2, _ | ⟨b2, _ | ⟨c2, l2⟩⟩⟩ <;>
    simp [hz, hz2]
  all_goals (intros; exact hz2 _)

/-- C14 (as amended): for all strings s and t, ParseVersion(s).IsFullyIdenticalTo(
ParseVersion(t)) holds if and only if the two parsed versions have structurally equal Major,
Minor and Patch parts, that is, the same first three Parts; the parts after the third are not
compared. -/
theorem C14_full_identity_first_three (U : UnicodeTables) (s t : List Char) :
    ((ParseVersion U s).IsFullyIdenticalTo (ParseVersion U t) = true ↔
      (ParseVersion U s).Major = (ParseVersion U t).Major ∧
      (ParseVersion U s).Minor = (ParseVersion U t).Minor ∧
      (ParseVersion U s).Patch = (ParseVersion U t).Patch) ∧
    ((ParseVersion U s).IsFullyIdenticalTo (ParseVersion U t) = true ↔
      (ParseVersion U s).Parts.take 3 = (ParseVersion U t).Parts.take 3) :=
  ⟨Version_IsFullyIdenticalTo_iff _ _,
    (Version_IsFullyIdenticalTo_iff _ _).trans (ParseVersion_fields_eq_iff U s t)⟩

/-- C14, counterexample: the versions of `1.2.3.4` and `1.2.3.5` are fully identical, and they
have neither the same Parts nor the same `Raw()`; this whatever the Unicode tables. -/
theorem C14_counterexample :
    (∀ U : UnicodeTables,
      (ParseVersion U "1.2.3.4".toList).IsFullyIdenticalTo (ParseVersion U "1.2.3.5".toList) =
        true) ∧
    (∀ U : UnicodeTables,
      (ParseVersion U "1.2.3.4".toList).Parts ≠ (ParseVersion U "1.2.3.5".toList).Parts) ∧
    (∀ U : UnicodeTables,
      (ParseVersion U "1.2.3.4".toList).Raw ≠ (ParseVersion U "1.2.3.5".toList).Raw) ∧
    (∀ U : UnicodeTables,
      ParseVersion U "1.2.3.4".toList ≠ ParseVersion U "1.2.3.5".toList) := by
  have hraw : ∀ U : UnicodeTables,
      (ParseVersion U "1.2.3.4".toList).Raw ≠ (ParseVersion U "1.2.3.5".toList).Raw := by
    intro U h
    have h1 : (ParseVersion U "1.2.3.4".toList).Raw = "1.2.3.4".toList := rfl
    have h2 : (ParseVersion U "1.2.3.5".toList).Raw = "1.2.3.5".toList := rfl
    rw [h1, h2] at h
    exact absurd h (by decide)
  refine ⟨fun _ => rfl, ?_, hraw, ?_⟩
  · intro U h
    apply hraw U
    rw [Version_Raw_eq, Version_Raw_eq, h]
  · intro U h
    apply hraw U
    rw [h]

/-- C20: for all parts p and q, p.IsFullyIdenticalTo(q) holds if and only if p and q have equal
Raw, IntRepr and IsInt and SubParts of the same length that are pairwise fully identical; it
holds if and only if p and q are equal as values, so that it is an equivalence relation; for
parsed parts it implies p.IsSemanticallyEqualTo(q); and the parts `RC1` and `rc1` are
semantically equal and not fully identical. -/
theorem C20_part_full_identity (U : UnicodeTables) (fuel : Nat) (p q : VersionPart)
    (s t : List Char) :
    (p.IsFullyIdenticalTo q = true ↔
      p.Raw = q.Raw ∧ p.IntRepr = q.IntRepr ∧ p.IsInt = q.IsInt ∧
      p.SubParts.length = q.SubParts.length ∧
      ∀ pr ∈ List.zip p.SubParts q.SubParts, pr.1.IsFullyIdenticalTo pr.2 = true) ∧
    (p.IsFullyIdenticalTo q = true ↔ p = q) ∧
    ((ParseVersionPart U s).IsFullyIdenticalTo (ParseVersionPart U t) = true →
      (ParseVersionPart U s).IsSemanticallyEqualTo U (fuel + 2) (ParseVersionPart U t) =
        some true) ∧
    (ParseVersionPart U "RC1".toList).IsSemanticallyEqualTo U 2
        (ParseVersionPart U "rc1".toList) = some true ∧
    (ParseVersionPart U "RC1".toList).IsFullyIdenticalTo (ParseVersionPart U "rc1".toList) =
      false := by
  refine ⟨?_, IsFullyIdenticalTo_iff_eq p q, ?_, rfl, rfl⟩
  · obtain ⟨r1, i1, b1, s1⟩ := p
    obtain ⟨r2, i2, b2, s2⟩ := q
    rw [IsFullyIdenticalTo_mk]
    simp only [Bool.and_eq_true, decide_eq_true_eq, everyZip_iff_zip, VersionPart.Raw,
      VersionPart.IntRepr, VersionPart.IsInt, VersionPart.SubParts]
    constructor
    · rintro ⟨⟨⟨⟨h1, h2⟩, h3⟩, h4⟩, h5⟩
      exact ⟨h1, h2, h3, h4, h5⟩
    · rintro ⟨h1, h2, h3, h4, h5⟩
      exact ⟨⟨⟨⟨h1, h2⟩, h3⟩, h4⟩, h5⟩
  · intro h
    have heq := (IsFullyIdenticalTo_iff_eq _ _).1 h
    have hself := gt_shallow_self U fuel _ (ParseVersionPart_shallow U s)
    rw [← heq]
    simp [VersionPart.IsSemanticallyEqualTo, hself]

/-- C20, witness: the part `3-RC1` is fully identical to itself and semantically equal to
itself. -/
theorem C20_part_full_identity_witness :
    (ParseVersionPart asciiTables "3-RC1".toList).IsFullyIdenticalTo
        (ParseVersionPart asciiTables "3-RC1".toList) = true ∧
    (ParseVersionPart asciiTables "3-RC1".toList).IsSemanticallyEqualTo asciiTables 2
        (ParseVersionPart asciiTables "3-RC1".toList) = some true :=
  ⟨by decide,
    (C20_part_full_identity asciiTables 0 zeroPart zeroPart "3-RC1".toList
      "3-RC1".toList).2.2.1 (by decide)⟩

/-! ## C18: `IsGreaterThan` is asymmetric -/

theorem eqLenLoop_asymm (g : VersionPart → VersionPart → Option Bool)
    (hg : ∀ p q, g p q = some true → g q p ≠ some true) :
    ∀ l1 l2 : List VersionPart, eqLenLoop g l1 l2 = some (some true) →
      eqLenLoop g l2 l1 ≠ some (some true) := by
  intro l1
  induction l1 with
  | nil => intro l2 h; simp [eqLenLoop] at h
  | cons p ps ih =>
    intro l2 h
    cases l2 with
    | nil => simp [eqLenLoop] at h
    | cons o os =>
      rw [eqLenLoop] at h ⊢
      cases hpo : g p o with
      | none => simp [hpo] at h
      | some b =>
        cases hop : g o p with
        | none => simp
        | some c =>
          cases b
          · cases c
            · simp only [hpo, hop] at h ⊢
              by_cases hps : ps.isEmpty = true
              · simp [hps] at h
              · simp only [hps, if_false] at h
                by_cases hos : os.isEmpty = true
                · simp [hos]
                · simp only [hos, if_false]
                  exact ih os h
            · simp [hpo, hop] at h
          · cases c
            · simp [hpo, hop]
            · exact absurd hop (hg p o hpo)

theorem shorterLoop_longerLoop (g : VersionPart → VersionPart → Option Bool) :
    ∀ l1 l2 : List VersionPart, shorterLoop g l1 l2 = some true →
      longerLoop g l2 l1 ≠ some true := by
  intro l1
  induction l1 with
  | nil => intro l2 _; cases l2 <;> simp [longerLoop]
  | cons p ps ih =>
    intro l2 h
    cases l2 with
    | nil => simp [longerLoop]
    | cons o os =>
      rw [shorterLoop] at h
      rw [longerLoop]
      cases hop : g o p with
      | none => simp
      | some c =>
        cases c
        · simp only [hop] at h ⊢
          exact ih os h
        · simp [hop] at h

/-- At one call depth `IsGreaterThan` never returns true in both directions. -/
theorem gt_asymm (U : UnicodeTables) : ∀ (fuel : Nat) (p q : VersionPart),
    p.IsGreaterThan U fuel q = some true → q.IsGreaterThan U fuel p ≠ some true := by
  intro fuel
  induction fuel with
  | zero => intro p q h; simp [VersionPart.IsGreaterThan] at h
  | succ f ih =>
    intro p q h
    obtain ⟨r1, i1, b1, s1⟩ := p
    obtain ⟨r2, i2, b2, s2⟩ := q
    cases b1 <;> cases b2
    · -- neither is an integer
      cases s1 with
      | nil =>
        cases s2 with
        | nil =>
          rw [gt_literal_literal] at h ⊢
          have := strGreater_asymm _ _ (Option.some.inj h)
          simp [this]
        | cons o os =>
          simp [VersionPart.IsGreaterThan, gtBody, VersionPart.IsInt, VersionPart.SubParts] at h
      | cons p ps =>
        cases s2 with
        | nil =>
          simp [VersionPart.IsGreaterThan, gtBody, VersionPart.IsInt, VersionPart.SubParts]
        | cons o os =>
          rw [VersionPart.IsGreaterThan, gtBody] at h ⊢
          simp only [VersionPart.IsInt, VersionPart.SubParts, VersionPart.Raw,
            List.length_cons] at h ⊢
          rcases Nat.lt_trichotomy ps.length os.length with hl | hl | hl
          · have h1 : ¬ ps.length = os.length := by omega
            have h2 : ¬ os.length = ps.length := by omega
            have h3 : ¬ os.length < ps.length := by omega
            simp [h1, hl] at h
            simp [h2, h3, hl]
            exact shorterLoop_longerLoop _ _ _ h
          · have hne1 := eqLenLoop_returns (VersionPart.IsGreaterThan U f) ps os p o hl
            have hne2 := eqLenLoop_returns (VersionPart.IsGreaterThan U f) os ps o p hl.symm
            simp only [hl, beq_self_eq_true] at h
            simp only [hl, beq_self_eq_true]
            cases hl1 : eqLenLoop (VersionPart.IsGreaterThan U f) (p :: ps) (o :: os) with
            | none => simp [hl1] at h
            | some x =>
              cases x with
              | none => exact absurd hl1 hne1
              | some b =>
                simp [hl1] at h
                subst h
                have hrev := eqLenLoop_asymm _ ih _ _ hl1
                cases hl2 : eqLenLoop (VersionPart.IsGreaterThan U f) (o :: os) (p :: ps) with
                | none => simp
                | some y =>
                  cases y with
                  | none => exact absurd hl2 hne2
                  | some c =>
                    cases c
                    · simp
                    · exact absurd hl2 hrev
          · have h1 : ¬ ps.length = os.length := by omega
            have h2 : ¬ os.length = ps.length := by omega
            have h3 : ¬ ps.length < os.length := by omega
            simp [h1, h3, hl] at h
            simp [h2, hl]
            intro hrev
            exact shorterLoop_longerLoop _ _ _ hrev h
    · -- p is not an integer, q is
      rw [gt_mixed_int] at h
      intro hrev
      cases hge : geBody (VersionPart.IsGreaterThan U f) (VersionPart.mk r2 i2 true s2)
          (VersionPart.mk r1 i1 false s1) with
      | none => simp [hge] at h
      | some b =>
        simp [hge] at h
        subst h
        unfold geBody at hge
        cases hqp : VersionPart.IsGreaterThan U f (VersionPart.mk r2 i2 true s2)
            (VersionPart.mk r1 i1 false s1) with
        | none => simp [hqp] at hge
        | some c =>
          cases c
          · have := gt_mono_succ U f _ _ false hqp
            rw [this] at hrev
            exact absurd hrev (by decide)
          · simp [hqp] at hge
    · -- p is an integer, q is not
      intro hrev
      rw [gt_mixed_int] at hrev
      cases hge : geBody (VersionPart.IsGreaterThan U f) (VersionPart.mk r1 i1 true s1)
          (VersionPart.mk r2 i2 false s2) with
      | none => simp [hge] at hrev
      | some b =>
        simp [hge] at hrev
        subst hrev
        unfold geBody at hge
        cases hpq : VersionPart.IsGreaterThan U f (VersionPart.mk r1 i1 true s1)
            (VersionPart.mk r2 i2 false s2) with
        | none => simp [hpq] at hge
        | some c =>
          cases c
          · have := gt_mono_succ U f _ _ false hpq
            rw [this] at h
            exact absurd h (by decide)
          · simp [hpq] at hge
    · rw [gt_int_int] at h ⊢
      simp only [Option.some.injEq, decide_eq_true_eq] at h
      have : ¬ i2 > i1 := by omega
      simp [this]

/-- One level of `Version.IsGreaterThan` seen from the other side: when `a` is greater than
`b`, then `b` is either not compared with `a` at this call depth or is less than it. -/
theorem level_of_gt (U : UnicodeTables) (fuel : Nat) (a b : VersionPart)
    (h : a.IsGreaterThan U fuel b = some true) :
    b.IsGreaterThan U fuel a = none ∨
      (b.IsGreaterThan U fuel a = some false ∧ b.IsLessThan U fuel a = some true) := by
  cases hba : b.IsGreaterThan U fuel a with
  | none => exact Or.inl rfl
  | some c =>
    cases c
    · refine Or.inr ⟨rfl, ?_⟩
      simp [VersionPart.IsLessThan, VersionPart.IsGreaterOrEqThan, geBody_of_not_gt hba h]
    · exact absurd hba (gt_asymm U fuel a b h)

/-- One level of `Version.IsGreaterThan` that lets the comparison go on to the next field: the
two parts tie. -/
theorem tie_of_level (U : UnicodeTables) (fuel : Nat) (a b : VersionPart)
    (h1 : a.IsGreaterThan U fuel b = some false) (h2 : a.IsLessThan U fuel b = some false) :
    b.IsGreaterThan U fuel a = some false := by
  unfold VersionPart.IsLessThan VersionPart.IsGreaterOrEqThan geBody at h2
  cases hba : b.IsGreaterThan U fuel a with
  | none => simp [h1, hba] at h2
  | some c =>
    cases c
    · rfl
    · simp [h1, hba] at h2

/-- At one call depth `Version.IsGreaterThan` never returns true in both directions. -/
theorem Version_gt_asymm (U : UnicodeTables) (fuel : Nat) (v o : Version)
    (h : v.IsGreaterThan U fuel o = some true) : o.IsGreaterThan U fuel v ≠ some true := by
  unfold Version.IsGreaterThan at h ⊢
  cases h1 : v.Major.IsGreaterThan U fuel o.Major with
  | none => simp [h1] at h
  | some b1 =>
    cases b1
    · simp only [h1] at h
      cases h2 : v.Major.IsLessThan U fuel o.Major with
      | none => simp [h2] at h
      | some b2 =>
        cases b2
        · simp only [h2] at h
          have t1 := tie_of_level U fuel _ _ h1 h2
          simp only [t1, lt_of_tie U fuel _ _ t1 h1]
          cases h3 : v.Minor.IsGreaterThan U fuel o.Minor with
          | none => simp [h3] at h
          | some b3 =>
            cases b3
            · simp only [h3] at h
              cases h4 : v.Minor.IsLessThan U fuel o.Minor with
              | none => simp [h4] at h
              | some b4 =>
                cases b4
                · simp only [h4] at h
                  have t2 := tie_of_level U fuel _ _ h3 h4
                  simp only [t2, lt_of_tie U fuel _ _ t2 h3]
                  exact gt_asymm U fuel _ _ h
                · simp [h4] at h
            · rcases level_of_gt U fuel _ _ h3 with hn | ⟨hf, hl⟩
              · simp [hn]
              · simp [hf, hl]
        · simp [h2] at h
    · rcases level_of_gt U fuel _ _ h1 with hn | ⟨hf, hl⟩
      · simp [hn]
      · simp [hf, hl]

/-- C18: `IsGreaterThan` is asymmetric on parsed input. Whatever the call depths `n` and `m`
given to the two comparisons, `ParseVersion(s).IsGreaterThan(ParseVersion(t))` and
`ParseVersion(t).IsGreaterThan(ParseVersion(s))` are not both true, the same holds of the
parts `ParseVersionPart(a)` and `ParseVersionPart(b)`, and `IsGreaterThan` and
`IsSemanticallyIdenticalTo` (`IsSemanticallyEqualTo` on parts) are not both true of the same
ordered pair. -/
theorem C18_greater_than_asymmetric (U : UnicodeTables) (s t a b : List Char) (n m : Nat) :
    ¬ ((ParseVersion U s).IsGreaterThan U n (ParseVersion U t) = some true ∧
        (ParseVersion U t).IsGreaterThan U m (ParseVersion U s) = some true) ∧
    ¬ ((ParseVersionPart U a).IsGreaterThan U n (ParseVersionPart U b) = some true ∧
        (ParseVersionPart U b).IsGreaterThan U m (ParseVersionPart U a) = some true) ∧
    ¬ ((ParseVersion U s).IsGreaterThan U n (ParseVersion U t) = some true ∧
        (ParseVersion U s).IsSemanticallyIdenticalTo U m (ParseVersion U t) = some true) ∧
    ¬ ((ParseVersionPart U a).IsGreaterThan U n (ParseVersionPart U b) = some true ∧
        (ParseVersionPart U a).IsSemanticallyEqualTo U m (ParseVersionPart U b) = some true) := by
  refine ⟨?_, ?_, ?_, ?_⟩
  · rintro ⟨h1, h2⟩
    have e1 := Version_gt_mono U n (max n m) (Nat.le_max_left n m) _ _ _ h1
    have e2 := Version_gt_mono U m (max n m) (Nat.le_max_right n m) _ _ _ h2
    exact Version_gt_asymm U _ _ _ e1 e2
  · rintro ⟨h1, h2⟩
    have e1 := gt_mono U n (max n m) (Nat.le_max_left n m) _ _ _ h1
    have e2 := gt_mono U m (max n m) (Nat.le_max_right n m) _ _ _ h2
    exact gt_asymm U _ _ _ e1 e2
  · rintro ⟨h1, h2⟩
    unfold Version.IsSemanticallyIdenticalTo at h2
    cases h3 : (ParseVersion U s).IsGreaterThan U m (ParseVersion U t) with
    | none => simp [h3] at h2
    | some c =>
      have := Version_gt_det U n m _ _ _ _ h1 h3
      subst this
      simp [h3] at h2
  · rintro ⟨h1, h2⟩
    unfold VersionPart.IsSemanticallyEqualTo at h2
    cases h3 : (ParseVersionPart U a).IsGreaterThan U m (ParseVersionPart U b) with
    | none => simp [h3] at h2
    | some c =>
      have := gt_det U n m _ _ _ _ h1 h3
      subst this
      simp [h3] at h2

/-! ## C15, C16: `FindLatestVersionBy` -/

/-- More call depth does not change a result of the scan. -/
theorem findLoop_mono {T : Type} (U : UnicodeTables) (n m : Nat) (hnm : n ≤ m)
    (f : T → Version) : ∀ (l : List T) (latest : T) (lv : Version) (r : T),
    findLoop U n f l latest lv = some r → findLoop U m f l latest lv = some r := by
  intro l
  induction l with
  | nil => intro latest lv r h; simpa [findLoop] using h
  | cons item rest ih =>
    intro latest lv r h
    rw [findLoop] at h ⊢
    cases hc : (f item).IsGreaterThan U n lv with
    | none => simp [hc] at h
    | some b =>
      rw [Version_gt_mono U n m hnm _ _ b hc]
      cases b
      · simp only [hc] at h ⊢
        exact ih _ _ _ h
      · simp only [hc] at h ⊢
        exact ih _ _ _ h

/-- More call depth does not change a result of `FindLatestVersionBy`. -/
theorem FindLatestVersionBy_mono {T : Type} (U : UnicodeTables) (n m : Nat) (hnm : n ≤ m)
    (items : List T) (f : T → Version) (r : Option T)
    (h : FindLatestVersionBy U n items f = some r) :
    FindLatestVersionBy U m items f = some r := by
  cases items with
  | nil => simpa [FindLatestVersionBy] using h
  | cons first rest =>
    simp only [FindLatestVersionBy] at h ⊢
    cases hl : findLoop U n f (first :: rest) first (f first) with
    | none => simp [hl] at h
    | some x =>
      rw [findLoop_mono U n m hnm f _ _ _ _ hl]
      simpa [hl] using h

/-- The scan returns the item it holds or one of the items still to be visited. -/
theorem findLoop_mem {T : Type} (U : UnicodeTables) (fuel : Nat) (f : T → Version) :
    ∀ (l : List T) (latest : T) (lv : Version) (r : T),
    findLoop U fuel f l latest lv = some r → r = latest ∨ r ∈ l := by
  intro l
  induction l with
  | nil =>
    intro latest lv r h
    simp [findLoop] at h
    exact Or.inl h.symm
  | cons item rest ih =>
    intro latest lv r h
    rw [findLoop] at h
    cases hc : (f item).IsGreaterThan U fuel lv with
    | none => simp [hc] at h
    | some b =>
      cases b
      · simp only [hc] at h
        rcases ih _ _ _ h with h1 | h1
        · exact Or.inl h1
        · exact Or.inr (List.mem_cons_of_mem _ h1)
      · simp only [hc] at h
        rcases ih _ _ _ h with h1 | h1
        · exact Or.inr (by rw [h1]; exact List.mem_cons_self _ _)
        · exact Or.inr (List.mem_cons_of_mem _ h1)

/-- The scan keeps the item it holds when no item still to be visited is greater. -/
theorem findLoop_keep {T : Type} (U : UnicodeTables) (fuel : Nat) (f : T → Version) :
    ∀ (l : List T) (latest : T) (lv : Version),
    (∀ x ∈ l, (f x).IsGreaterThan U fuel lv = some false) →
    findLoop U fuel f l latest lv = some latest := by
  intro l
  induction l with
  | nil => intro latest lv _; rfl
  | cons item rest ih =>
    intro latest lv h
    rw [findLoop, h item (List.mem_cons_self _ _)]
    exact ih _ _ (fun x hx => h x (List.mem_cons_of_mem _ hx))

/-- The scan returns when every comparison it can make returns. -/
theorem findLoop_returns {T : Type} (U : UnicodeTables) (fuel : Nat) (f : T → Version)
    (items : List T)
    (H : ∀ x ∈ items, ∀ y ∈ items, (f x).IsGreaterThan U fuel (f y) ≠ none) :
    ∀ (l : List T) (latest : T), (∀ x ∈ l, x ∈ items) → latest ∈ items →
    ∃ r, findLoop U fuel f l latest (f latest) = some r := by
  intro l
  induction l with
  | nil => intro latest _ _; exact ⟨latest, rfl⟩
  | cons item rest ih =>
    intro latest hl hlatest
    rw [findLoop]
    have hitem := hl item (List.mem_cons_self _ _)
    cases hc : (f item).IsGreaterThan U fuel (f latest) with
    | none => exact absurd hc (H item hitem latest hlatest)
    | some b =>
      cases b
      · exact ih latest (fun x hx => hl x (List.mem_cons_of_mem _ hx)) hlatest
      · exact ih item (fun x hx => hl x (List.mem_cons_of_mem _ hx)) hitem

/-- The empty input gives "no item". -/
theorem FindLatestVersionBy_nil {T : Type} (U : UnicodeTables) (fuel : Nat) (f : T → Version) :
    FindLatestVersionBy U fuel ([] : List T) f = some none := rfl

/-- A result on a non-empty input is one of the items. -/
theorem FindLatestVersionBy_mem {T : Type} (U : UnicodeTables) (fuel : Nat) (items : List T)
    (f : T → Version) (hne : items ≠ []) (x : Option T)
    (h : FindLatestVersionBy U fuel items f = some x) : ∃ r, x = some r ∧ r ∈ items := by
  cases items with
  | nil => exact absurd rfl hne
  | cons first rest =>
    simp only [FindLatestVersionBy] at h
    cases hl : findLoop U fuel f (first :: rest) first (f first) with
    | none => simp [hl] at h
    | some r =>
      simp only [hl, Option.some.injEq] at h
      refine ⟨r, h.symm, ?_⟩
      rcases findLoop_mem U fuel f _ _ _ _ hl with h1 | h1
      · rw [h1]; exact List.mem_cons_self _ _
      · exact h1

/-- The first item is the result when no item is greater than it. -/
theorem FindLatestVersionBy_first {T : Type} (U : UnicodeTables) (fuel : Nat) (first : T)
    (rest : List T) (f : T → Version)
    (h : ∀ x ∈ first :: rest, (f x).IsGreaterThan U fuel (f first) = some false) :
    FindLatestVersionBy U fuel (first :: rest) f = some (some first) := by
  simp only [FindLatestVersionBy, findLoop_keep U fuel f _ first (f first) h]

/-- A non-empty input gives an item when every comparison between two items returns. -/
theorem FindLatestVersionBy_returns {T : Type} (U : UnicodeTables) (fuel : Nat)
    (items : List T) (f : T → Version) (hne : items ≠ [])
    (H : ∀ x ∈ items, ∀ y ∈ items, (f x).IsGreaterThan U fuel (f y) ≠ none) :
    ∃ r, FindLatestVersionBy U fuel items f = some (some r) ∧ r ∈ items := by
  cases items with
  | nil => exact absurd rfl hne
  | cons first rest =>
    obtain ⟨r, hr⟩ := findLoop_returns U fuel f (first :: rest) H (first :: rest) first
      (fun _ hx => hx) (List.mem_cons_self _ _)
    have hres : FindLatestVersionBy U fuel (first :: rest) f = some (some r) := by
      simp only [FindLatestVersionBy, hr]
    obtain ⟨r2, h1, h2⟩ := FindLatestVersionBy_mem U fuel _ f hne _ hres
    cases h1
    exact ⟨r, hres, h2⟩

/-- The version `1.2.5-RC1` against `1.2.3`: no call depth is enough. -/
theorem gt_125RC1_123_diverges (U : UnicodeTables) (fuel : Nat) :
    (ParseVersion U "1.2.5-RC1".toList).IsGreaterThan U fuel (ParseVersion U "1.2.3".toList) =
      none := by
  have hdiv := gt_mixed_int_diverges U "5-RC1".toList "3".toList 0 3
    (VersionPart.mk "5".toList 5 true []) [VersionPart.mk "-RC".toList 0 false [],
      VersionPart.mk "1".toList 1 true []] [] rfl (by decide) fuel
  have hV : ParseVersion U "1.2.5-RC1".toList =
      ⟨ParseVersionPart U (natStr 1), ParseVersionPart U (natStr 2),
        VersionPart.mk "5-RC1".toList 0 false
          [VersionPart.mk "5".toList 5 true [], VersionPart.mk "-RC".toList 0 false [],
            VersionPart.mk "1".toList 1 true []],
        [ParseVersionPart U "1".toList, ParseVersionPart U "2".toList,
          ParseVersionPart U "5-RC1".toList]⟩ := rfl
  have hW : ParseVersion U "1.2.3".toList =
      ⟨ParseVersionPart U (natStr 1), ParseVersionPart U (natStr 2),
        VersionPart.mk "3".toList 3 true [],
        [ParseVersionPart U "1".toList, ParseVersionPart U "2".toList,
          ParseVersionPart U "3".toList]⟩ := rfl
  cases fuel with
  | zero => rfl
  | succ f =>
    rw [hV, hW, Version_gt_of_ties U (f + 1) _ _ (gt_natStr_self U f 1)
      (gt_natStr_self U f 1) (gt_natStr_self U f 2) (gt_natStr_self U f 2)]
    exact hdiv

/-- C15, the code at the failing input: `FindLatestVersionBy` of the two strings `1.2.3` and
`1.2.5-RC1` with `ParseVersion` as the key gives no result at any call depth, neither nil nor
an item, because the scan asks whether `1.2.5-RC1` is greater than `1.2.3`. Beside it, what
the code does keep of the claim: the empty input gives nil, a result on a non-empty input is
one of the items, and the first item is the result when no item is greater than it. -/
theorem C15_find_latest_no_result (U : UnicodeTables) (fuel : Nat) :
    FindLatestVersionBy U fuel ["1.2.3".toList, "1.2.5-RC1".toList] (ParseVersion U) = none ∧
    (∀ (T : Type) (f : T → Version), FindLatestVersionBy U fuel ([] : List T) f = some none) ∧
    (∀ (T : Type) (f : T → Version) (items : List T) (x : Option T), items ≠ [] →
      FindLatestVersionBy U fuel items f = some x → ∃ r, x = some r ∧ r ∈ items) ∧
    (∀ (T : Type) (f : T → Version) (first : T) (rest : List T),
      (∀ x ∈ first :: rest, (f x).IsGreaterThan U fuel (f first) = some false) →
      FindLatestVersionBy U fuel (first :: rest) f = some (some first)) := by
  refine ⟨?_, ?_, ?_, ?_⟩
  · have hdiv := gt_125RC1_123_diverges U fuel
    simp only [FindLatestVersionBy, findLoop]
    cases hc : (ParseVersion U "1.2.3".toList).IsGreaterThan U fuel
        (ParseVersion U "1.2.3".toList) with
    | none => rfl
    | some b =>
      cases b
      · simp only [hdiv]
      · simp only [hdiv]
  · intro T f
    rfl
  · intro T f items x hne h
    exact FindLatestVersionBy_mem U fuel items f hne x h
  · intro T f first rest h
    exact FindLatestVersionBy_first U fuel first rest f h

/-- A parsed version is not greater than itself, from call depth 2. -/
theorem ParseVersion_gt_self (U : UnicodeTables) (fuel : Nat) (s : List Char) :
    (ParseVersion U s).IsGreaterThan U (fuel + 2) (ParseVersion U s) = some false := by
  have h := ParseVersion_fields_shallow U s
  exact (Version_self U (fuel + 2) (ParseVersion U s)
    (gt_shallow_self U fuel (ParseVersion U s).Major h.1)
    (gt_shallow_self U fuel (ParseVersion U s).Minor h.2.1)
    (gt_shallow_self U fuel (ParseVersion U s).Patch h.2.2)).1

theorem latest_g2 (U : UnicodeTables) :
    (ParseVersion U "1.2.3-RC11".toList).IsGreaterThan U 3 (ParseVersion U "1.2.3-alpha2".toList) =
      some true := rfl

theorem latest_g3 (U : UnicodeTables) :
    (ParseVersion U "1.2.3".toList).IsGreaterThan U 3 (ParseVersion U "1.2.3-RC11".toList) =
      some true := rfl

theorem latest_g4 (U : UnicodeTables) :
    (ParseVersion U "1.2.3-beta1".toList).IsGreaterThan U 3 (ParseVersion U "1.2.3".toList) =
      some false := rfl

theorem latest_g5 (U : UnicodeTables) :
    (ParseVersion U "1.2.1".toList).IsGreaterThan U 3 (ParseVersion U "1.2.3".toList) =
      some false := rfl

theorem latest_g6 (U : UnicodeTables) :
    (ParseVersion U "1.2.3-RC1".toList).IsGreaterThan U 3 (ParseVersion U "1.2.3".toList) =
      some false := rfl

theorem latest_g7 (U : UnicodeTables) :
    (ParseVersion U "1.2.3-alpha2".toList).IsGreaterThan U 3 (ParseVersion U "1.2.3".toList) =
      some false := rfl

theorem latest_g8 (U : UnicodeTables) :
    (ParseVersion U "1.2.3-RC11".toList).IsGreaterThan U 3 (ParseVersion U "1.2.3".toList) =
      some false := rfl

theorem latest_c2 (U : UnicodeTables) :
    (ParseVersion U "1.2.2c1".toList).IsGreaterThan U 3 (ParseVersion U "1.2.3b".toList) =
      some true := rfl

theorem latest_c3 (U : UnicodeTables) :
    (ParseVersion U "1.2.2d".toList).IsGreaterThan U 3 (ParseVersion U "1.2.2c1".toList) =
      some true := rfl

theorem latest_c4 (U : UnicodeTables) :
    (ParseVersion U "1.2.3b".toList).IsGreaterThan U 3 (ParseVersion U "1.2.2d".toList) =
      some true := rfl

/-- The scan over the three strings of the failing input, at call depth 3. -/
theorem latest_cycle (U : UnicodeTables) :
    FindLatestVersionBy U 3 ["1.2.3b".toList, "1.2.2c1".toList, "1.2.2d".toList]
      (ParseVersion U) = some (some "1.2.2d".toList) := by
  simp only [FindLatestVersionBy, findLoop, ParseVersion_gt_self U 1 "1.2.3b".toList,
    latest_c2, latest_c3]

/-- The scan over the list of the test, at call depth 3. -/
theorem latest_test (U : UnicodeTables) :
    FindLatestVersionBy U 3
        ["1.2.3-alpha2".toList, "1.2.3-RC11".toList, "1.2.3".toList, "1.2.3-beta1".toList,
          "1.2.1".toList, "1.2.3-RC1".toList] (ParseVersion U) =
      some (some "1.2.3".toList) := by
  simp only [FindLatestVersionBy, findLoop, ParseVersion_gt_self U 1 "1.2.3-alpha2".toList,
    latest_g2, latest_g3, latest_g4, latest_g5, latest_g6]

/-- C16, the code at the failing input: over the strings `1.2.3b`, `1.2.2c1`, `1.2.2d`
`FindLatestVersionBy` with `ParseVersion` as the key returns `1.2.2d`, at every call depth from
3 on, although `ParseVersion("1.2.3b").IsGreaterThan(ParseVersion("1.2.2d"))` is true. On the
list of the test the result is `1.2.3`, as the claim says, and no string of that list is
greater than it. -/
theorem C16_latest_is_not_greatest (U : UnicodeTables) (fuel : Nat) :
    FindLatestVersionBy U (fuel + 3)
        ["1.2.3b".toList, "1.2.2c1".toList, "1.2.2d".toList] (ParseVersion U) =
      some (some "1.2.2d".toList) ∧
    (ParseVersion U "1.2.3b".toList).IsGreaterThan U (fuel + 3)
        (ParseVersion U "1.2.2d".toList) = some true ∧
    FindLatestVersionBy U (fuel + 3)
        ["1.2.3-alpha2".toList, "1.2.3-RC11".toList, "1.2.3".toList, "1.2.3-beta1".toList,
          "1.2.1".toList, "1.2.3-RC1".toList] (ParseVersion U) =
      some (some "1.2.3".toList) ∧
    (∀ x ∈ ["1.2.3-alpha2".toList, "1.2.3-RC11".toList, "1.2.3".toList, "1.2.3-beta1".toList,
          "1.2.1".toList, "1.2.3-RC1".toList],
      (ParseVersion U x).IsGreaterThan U (fuel + 3) (ParseVersion U "1.2.3".toList) =
        some false) := by
  have hle : 3 ≤ fuel + 3 := by omega
  refine ⟨?_, ?_, ?_, ?_⟩
  · exact FindLatestVersionBy_mono U 3 (fuel + 3) hle _ _ _ (latest_cycle U)
  · exact Version_gt_mono U 3 (fuel + 3) hle _ _ _ (latest_c4 U)
  · exact FindLatestVersionBy_mono U 3 (fuel + 3) hle _ _ _ (latest_test U)
  · intro x hx
    simp only [List.mem_cons, List.mem_singleton, List.not_mem_nil, or_false] at hx
    rcases hx with h | h | h | h | h | h <;> subst h
    · exact Version_gt_mono U 3 (fuel + 3) hle _ _ _ (latest_g7 U)
    · exact Version_gt_mono U 3 (fuel + 3) hle _ _ _ (latest_g8 U)
    · exact ParseVersion_gt_self U (fuel + 1) "1.2.3".toList
    · exact Version_gt_mono U 3 (fuel + 3) hle _ _ _ (latest_g4 U)
    · exact Version_gt_mono U 3 (fuel + 3) hle _ _ _ (latest_g5 U)
    · exact Version_gt_mono U 3 (fuel + 3) hle _ _ _ (latest_g6 U)

/-! ## C17: `SortByVersion` -/

/-- Three distinct items of which each is out of order before the next, cyclically, have no
arrangement in order. -/
theorem no_order_of_cycle {α : Type} (R : α → α → Prop) (a b c : α) (hab : a ≠ b)
    (hbc : b ≠ c) (hac : a ≠ c) (h1 : ¬ R a b) (h2 : ¬ R b c) (h3 : ¬ R c a)
    (l : List α) (hp : l.Perm [a, b, c]) : ¬ l.Pairwise R := by
  have hlen := hp.length_eq
  have hnd : l.Nodup := hp.nodup_iff.2 (by simp [hab, hbc, hac])
  match l, hlen with
  | [x, y, z], _ =>
    have hx : x = a ∨ x = b ∨ x = c := by
      simpa using hp.mem_iff.1 (List.mem_cons_self _ _)
    have hy : y = a ∨ y = b ∨ y = c := by
      simpa using hp.mem_iff.1 (List.mem_cons_of_mem _ (List.mem_cons_self _ _))
    have hz : z = a ∨ z = b ∨ z = c := by
      simpa using hp.mem_iff.1
        (List.mem_cons_of_mem _ (List.mem_cons_of_mem _ (List.mem_cons_self _ _)))
    intro hpw
    simp only [List.pairwise_cons, List.mem_cons, List.mem_singleton, List.not_mem_nil,
      forall_eq_or_imp, forall_eq, List.Pairwise.nil, and_true, or_false,
      IsEmpty.forall_iff, implies_true] at hpw
    simp only [List.nodup_cons, List.mem_cons, List.mem_singleton, List.not_mem_nil,
      not_or, List.nodup_nil, and_true, or_false, not_false_eq_true] at hnd
    obtain ⟨⟨hxy, hxz⟩, hyz⟩ := hnd
    obtain ⟨⟨rxy, rxz⟩, ryz⟩ := hpw
    have hba : b ≠ a := fun h => hab h.symm
    have hcb : c ≠ b := fun h => hbc h.symm
    have hca : c ≠ a := fun h => hac h.symm
    rcases hx with rfl | rfl | rfl <;> rcases hy with rfl | rfl | rfl <;>
      rcases hz with rfl | rfl | rfl <;>
      first
        | exact absurd rfl hxy
        | exact absurd rfl hxz
        | exact absurd rfl hyz
        | exact h1 rxy
        | exact h1 rxz
        | exact h1 ryz
        | exact h2 rxy
        | exact h2 rxz
        | exact h2 ryz
        | exact h3 rxy
        | exact h3 rxz

theorem insertByVersion_mono {T : Type} (U : UnicodeTables) (n m : Nat) (hnm : n ≤ m)
    (f : T → Version) (x : T) : ∀ (l r : List T),
    insertByVersion U n f x l = some r → insertByVersion U m f x l = some r := by
  intro l
  induction l with
  | nil => intro r h; simpa [insertByVersion] using h
  | cons y ys ih =>
    intro r h
    rw [insertByVersion] at h ⊢
    cases hc : (f x).IsGreaterThan U n (f y) with
    | none => simp [hc] at h
    | some b =>
      rw [Version_gt_mono U n m hnm _ _ b hc]
      cases b
      · simp only [hc] at h ⊢
        cases hi : insertByVersion U n f x ys with
        | none => simp [hi] at h
        | some r2 =>
          rw [ih r2 hi]
          simpa [hi] using h
      · simpa [hc] using h

theorem insertByVersion_perm {T : Type} (U : UnicodeTables) (fuel : Nat)
    (f : T → Version) (x : T) : ∀ (l r : List T),
    insertByVersion U fuel f x l = some r → r.Perm (x :: l) := by
  intro l
  induction l with
  | nil =>
    intro r h
    simp [insertByVersion] at h
    rw [← h]
  | cons y ys ih =>
    intro r h
    rw [insertByVersion] at h
    cases hc : (f x).IsGreaterThan U fuel (f y) with
    | none => simp [hc] at h
    | some b =>
      cases b
      · simp only [hc] at h
        cases hi : insertByVersion U fuel f x ys with
        | none => simp [hi] at h
        | some r2 =>
          simp only [hi, Option.some.injEq] at h
          rw [← h]
          exact ((ih r2 hi).cons y).trans (List.Perm.swap x y ys)
      · simp only [hc, Option.some.injEq] at h
        rw [← h]

/-! The comparisons made while sorting the list of the test and the failing input. -/

set_option maxHeartbeats 2000000 in
theorem sort_cmp_1 (U : UnicodeTables) :
    (ParseVersion U "1.2.3-RC11".toList).IsGreaterThan U 3
        (ParseVersion U "1.2.3-alpha2".toList) = some true := rfl

set_option maxHeartbeats 2000000 in
theorem sort_cmp_2 (U : UnicodeTables) :
    (ParseVersion U "1.2.3".toList).IsGreaterThan U 3
        (ParseVersion U "1.2.3-RC11".toList) = some true := rfl

set_option maxHeartbeats 2000000 in
theorem sort_cmp_3 (U : UnicodeTables) :
    (ParseVersion U "1.2.3-beta1".toList).IsGreaterThan U 3
        (ParseVersion U "1.2.3".toList) = some false := rfl

set_option maxHeartbeats 2000000 in
theorem sort_cmp_4 (U : UnicodeTables) :
    (ParseVersion U "1.2.3-beta1".toList).IsGreaterThan U 3
        (ParseVersion U "1.2.3-RC11".toList) = some false := rfl

set_option maxHeartbeats 2000000 in
theorem sort_cmp_5 (U : UnicodeTables) :
    (ParseVersion U "1.2.3-beta1".toList).IsGreaterThan U 3
        (ParseVersion U "1.2.3-alpha2".toList) = some true := rfl

set_option maxHeartbeats 2000000 in
theorem sort_cmp_6 (U : UnicodeTables) :
    (ParseVersion U "1.2.1".toList).IsGreaterThan U 3
        (ParseVersion U "1.2.3".toList) = some false := rfl

set_option maxHeartbeats 2000000 in
theorem sort_cmp_7 (U : UnicodeTables) :
    (ParseVersion U "1.2.1".toList).IsGreaterThan U 3
        (ParseVersion U "1.2.3-RC11".toList) = some false := rfl

set_option maxHeartbeats 2000000 in
theorem sort_cmp_8 (U : UnicodeTables) :
    (ParseVersion U "1.2.1".toList).IsGreaterThan U 3
        (ParseVersion U "1.2.3-beta1".toList) = some false := rfl

set_option maxHeartbeats 2000000 in
theorem sort_cmp_9 (U : UnicodeTables) :
    (ParseVersion U "1.2.1".toList).IsGreaterThan U 3
        (ParseVersion U "1.2.3-alpha2".toList) = some false := rfl

set_option maxHeartbeats 2000000 in
theorem sort_cmp_10 (U : UnicodeTables) :
    (ParseVersion U "1.2.2".toList).IsGreaterThan U 3
        (ParseVersion U "1.2.3".toList) = some false := rfl

set_option maxHeartbeats 2000000 in
theorem sort_cmp_11 (U : UnicodeTables) :
    (ParseVersion U "1.2.2".toList).IsGreaterThan U 3
        (ParseVersion U "1.2.3-RC11".toList) = some false := rfl

set_option maxHeartbeats 2000000 in
theorem sort_cmp_12 (U : UnicodeTables) :
    (ParseVersion U "1.2.2".toList).IsGreaterThan U 3
        (ParseVersion U "1.2.3-beta1".toList) = some false := rfl

set_option maxHeartbeats 2000000 in
theorem sort_cmp_13 (U : UnicodeTables) :
    (ParseVersion U "1.2.2".toList).IsGreaterThan U 3
        (ParseVersion U "1.2.3-alpha2".toList) = some false := rfl

set_option maxHeartbeats 2000000 in
theorem sort_cmp_14 (U : UnicodeTables) :
    (ParseVersion U "1.2.2".toList).IsGreaterThan U 3
        (ParseVersion U "1.2.1".toList) = some true := rfl

set_option maxHeartbeats 2000000 in
theorem sort_cmp_15 (U : UnicodeTables) :
    (ParseVersion U "1.2.4".toList).IsGreaterThan U 3
        (ParseVersion U "1.2.3".toList) = some true := rfl

set_option maxHeartbeats 2000000 in
theorem sort_cmp_16 (U : UnicodeTables) :
    (ParseVersion U "1.1.1".toList).IsGreaterThan U 3
        (ParseVersion U "1.2.4".toList) = some false := rfl

set_option maxHeartbeats 2000000 in
theorem sort_cmp_17 (U : UnicodeTables) :
    (ParseVersion U "1.1.1".toList).IsGreaterThan U 3
        (ParseVersion U "1.2.3".toList) = some false := rfl

set_option maxHeartbeats 2000000 in
theorem sort_cmp_18 (U : UnicodeTables) :
    (ParseVersion U "1.1.1".toList).IsGreaterThan U 3
        (ParseVersion U "1.2.3-RC11".toList) = some false := rfl

set_option maxHeartbeats 2000000 in
theorem sort_cmp_19 (U : UnicodeTables) :
    (ParseVersion U "1.1.1".toList).IsGreaterThan U 3
        (ParseVersion U "1.2.3-beta1".toList) = some false := rfl

set_option maxHeartbeats 2000000 in
theorem sort_cmp_20 (U : UnicodeTables) :
    (ParseVersion U "1.1.1".toList).IsGreaterThan U 3
        (ParseVersion U "1.2.3-alpha2".toList) = some false := rfl

set_option maxHeartbeats 2000000 in
theorem sort_cmp_21 (U : UnicodeTables) :
    (ParseVersion U "1.1.1".toList).IsGreaterThan U 3
        (ParseVersion U "1.2.2".toList) = some false := rfl

set_option maxHeartbeats 2000000 in
theorem sort_cmp_22 (U : UnicodeTables) :
    (ParseVersion U "1.1.1".toList).IsGreaterThan U 3
        (ParseVersion U "1.2.1".toList) = some false := rfl

set_option maxHeartbeats 2000000 in
theorem sort_cmp_23 (U : UnicodeTables) :
    (ParseVersion U "1.3.1".toList).IsGreaterThan U 3
        (ParseVersion U "1.2.4".toList) = some true := rfl

set_option maxHeartbeats 2000000 in
theorem sort_cmp_24 (U : UnicodeTables) :
    (ParseVersion U "1.2.3-RC1".toList).IsGreaterThan U 3
        (ParseVersion U "1.3.1".toList) = some false := rfl

set_option maxHeartbeats 2000000 in
theorem sort_cmp_25 (U : UnicodeTables) :
    (ParseVersion U "1.2.3-RC1".toList).IsGreaterThan U 3
        (ParseVersion U "1.2.4".toList) = some false := rfl

set_option maxHeartbeats 2000000 in
theorem sort_cmp_26 (U : UnicodeTables) :
    (ParseVersion U "1.2.3-RC1".toList).IsGreaterThan U 3
        (ParseVersion U "1.2.3".toList) = some false := rfl

set_option maxHeartbeats 2000000 in
theorem sort_cmp_27 (U : UnicodeTables) :
    (ParseVersion U "1.2.3-RC1".toList).IsGreaterThan U 3
        (ParseVersion U "1.2.3-RC11".toList) = some false := rfl

set_option maxHeartbeats 2000000 in
theorem sort_cmp_28 (U : UnicodeTables) :
    (ParseVersion U "1.2.3-RC1".toList).IsGreaterThan U 3
        (ParseVersion U "1.2.3-beta1".toList) = some true := rfl

set_option maxHeartbeats 2000000 in
theorem sort_cmp_29 (U : UnicodeTables) :
    (ParseVersion U "1.2.2c1".toList).IsGreaterThan U 3
        (ParseVersion U "1.2.2d".toList) = some false := rfl

set_option maxHeartbeats 2000000 in
theorem sort_cmp_30 (U : UnicodeTables) :
    (ParseVersion U "1.2.3b".toList).IsGreaterThan U 3
        (ParseVersion U "1.2.2d".toList) = some true := rfl

set_option maxHeartbeats 2000000 in
theorem sort_cmp_31 (U : UnicodeTables) :
    (ParseVersion U "1.2.2c1".toList).IsGreaterThan U 3
        (ParseVersion U "1.2.3b".toList) = some true := rfl

set_option maxHeartbeats 2000000 in
theorem sort_cmp_32 (U : UnicodeTables) :
    (ParseVersion U "1.2.2d".toList).IsGreaterThan U 3
        (ParseVersion U "1.2.2c1".toList) = some true := rfl

theorem sortFold_none {T : Type} (U : UnicodeTables) (fuel : Nat) (f : T → Version) :
    ∀ items : List T, items.foldl (sortStep U fuel f) none = none := by
  intro items
  induction items with
  | nil => rfl
  | cons x xs ih => simpa [List.foldl, sortStep] using ih

theorem sortFold_mono {T : Type} (U : UnicodeTables) (n m : Nat) (hnm : n ≤ m)
    (f : T → Version) : ∀ (items : List T) (acc : Option (List T)) (r : List T),
    items.foldl (sortStep U n f) acc = some r → items.foldl (sortStep U m f) acc = some r := by
  intro items
  induction items with
  | nil => intro acc r h; simpa using h
  | cons x xs ih =>
    intro acc r h
    rw [List.foldl_cons] at h ⊢
    cases acc with
    | none =>
      simp only [sortStep] at h
      rw [sortFold_none] at h
      exact absurd h (by simp)
    | some l =>
      simp only [sortStep] at h ⊢
      cases hi : insertByVersion U n f x l with
      | none =>
        rw [hi] at h
        rw [sortFold_none] at h
        exact absurd h (by simp)
      | some l2 =>
        rw [hi] at h
        rw [insertByVersion_mono U n m hnm f x l l2 hi]
        exact ih _ _ h

theorem sortFold_perm {T : Type} (U : UnicodeTables) (fuel : Nat) (f : T → Version) :
    ∀ (items acc r : List T),
    items.foldl (sortStep U fuel f) (some acc) = some r → r.Perm (items.reverse ++ acc) := by
  intro items
  induction items with
  | nil =>
    intro acc r h
    simp at h
    rw [h]
    exact List.Perm.refl _
  | cons x xs ih =>
    intro acc r h
    rw [List.foldl_cons] at h
    simp only [sortStep] at h
    cases hi : insertByVersion U fuel f x acc with
    | none =>
      rw [hi] at h
      rw [sortFold_none] at h
      exact absurd h (by simp)
    | some l2 =>
      rw [hi] at h
      have h1 := ih l2 r h
      have h2 := insertByVersion_perm U fuel f x acc l2 hi
      refine h1.trans ?_
      rw [List.reverse_cons, List.append_assoc]
      exact List.Perm.append_left _ h2

/-- More call depth does not change a result of `SortByVersion`. -/
theorem SortByVersion_mono {T : Type} (U : UnicodeTables) (n m : Nat) (hnm : n ≤ m)
    (items : List T) (f : T → Version) (r : List T)
    (h : SortByVersion U n items f = some r) : SortByVersion U m items f = some r := by
  unfold SortByVersion at h ⊢
  cases hf : items.foldl (sortStep U n f) (some []) with
  | none => simp [hf] at h
  | some l =>
    rw [sortFold_mono U n m hnm f items _ l hf]
    simpa [hf] using h

/-- A result of `SortByVersion` is a rearrangement of the input. -/
theorem SortByVersion_perm {T : Type} (U : UnicodeTables) (fuel : Nat)
    (items : List T) (f : T → Version) (r : List T)
    (h : SortByVersion U fuel items f = some r) : r.Perm items := by
  unfold SortByVersion at h
  cases hf : items.foldl (sortStep U fuel f) (some []) with
  | none => simp [hf] at h
  | some l =>
    simp only [hf, Option.some.injEq] at h
    have h1 := sortFold_perm U fuel f items [] l hf
    rw [List.append_nil] at h1
    rw [← h]
    exact (List.reverse_perm l).trans (h1.trans (List.reverse_perm items))

/-- The sort of the three strings of the failing input, at call depth 3. -/
theorem sort_cycle (U : UnicodeTables) :
    SortByVersion U 3 ["1.2.2d".toList, "1.2.2c1".toList, "1.2.3b".toList] (ParseVersion U) =
      some ["1.2.2c1".toList, "1.2.2d".toList, "1.2.3b".toList] := by
  simp only [SortByVersion, List.foldl, sortStep, insertByVersion, sort_cmp_29, sort_cmp_30]
  rfl

/-- The sort of the list of `TestSortByVersion`, at call depth 3. -/
theorem sort_test (U : UnicodeTables) :
    SortByVersion U 3
        ["1.2.3-alpha2".toList, "1.2.3-RC11".toList, "1.2.3".toList, "1.2.3-beta1".toList,
          "1.2.1".toList, "1.2.2".toList, "1.2.4".toList, "1.1.1".toList, "1.3.1".toList,
          "1.2.3-RC1".toList] (ParseVersion U) =
      some ["1.1.1".toList, "1.2.1".toList, "1.2.2".toList, "1.2.3-alpha2".toList,
        "1.2.3-beta1".toList, "1.2.3-RC1".toList, "1.2.3-RC11".toList, "1.2.3".toList,
        "1.2.4".toList, "1.3.1".toList] := by
  simp only [SortByVersion, List.foldl, sortStep, insertByVersion, sort_cmp_1, sort_cmp_2,
    sort_cmp_3, sort_cmp_4, sort_cmp_5, sort_cmp_6, sort_cmp_7, sort_cmp_8, sort_cmp_9,
    sort_cmp_10, sort_cmp_11, sort_cmp_12, sort_cmp_13, sort_cmp_14, sort_cmp_15, sort_cmp_16,
    sort_cmp_17, sort_cmp_18, sort_cmp_19, sort_cmp_20, sort_cmp_21, sort_cmp_22, sort_cmp_23,
    sort_cmp_24, sort_cmp_25, sort_cmp_26, sort_cmp_27, sort_cmp_28]
  rfl

/-- C17, the failing input: the strings `1.2.2d`, `1.2.2c1`, `1.2.3b` have no ascending order.
In every rearrangement of them some earlier string is greater than a later one, whatever the
sort does, because `1.2.2d` is greater than `1.2.2c1`, `1.2.2c1` than `1.2.3b` and `1.2.3b` than
`1.2.2d`. The modelled `SortByVersion` returns `1.2.2c1`, `1.2.2d`, `1.2.3b`, in which `1.2.2c1`
comes before `1.2.3b` and is greater than it. On the list of `TestSortByVersion` the modelled
sort returns the order the claim gives, and a result of it is always a rearrangement of the
input. -/
theorem C17_no_ascending_order (U : UnicodeTables) (fuel : Nat) :
    (∀ l : List (List Char),
      l.Perm ["1.2.2d".toList, "1.2.2c1".toList, "1.2.3b".toList] →
      ¬ l.Pairwise (fun a b =>
          (ParseVersion U a).IsGreaterThan U (fuel + 3) (ParseVersion U b) ≠ some true)) ∧
    SortByVersion U (fuel + 3) ["1.2.2d".toList, "1.2.2c1".toList, "1.2.3b".toList]
        (ParseVersion U) = some ["1.2.2c1".toList, "1.2.2d".toList, "1.2.3b".toList] ∧
    (ParseVersion U "1.2.2c1".toList).IsGreaterThan U (fuel + 3)
        (ParseVersion U "1.2.3b".toList) = some true ∧
    SortByVersion U (fuel + 3)
        ["1.2.3-alpha2".toList, "1.2.3-RC11".toList, "1.2.3".toList, "1.2.3-beta1".toList,
          "1.2.1".toList, "1.2.2".toList, "1.2.4".toList, "1.1.1".toList, "1.3.1".toList,
          "1.2.3-RC1".toList] (ParseVersion U) =
      some ["1.1.1".toList, "1.2.1".toList, "1.2.2".toList, "1.2.3-alpha2".toList,
        "1.2.3-beta1".toList, "1.2.3-RC1".toList, "1.2.3-RC11".toList, "1.2.3".toList,
        "1.2.4".toList, "1.3.1".toList] ∧
    (∀ (T : Type) (f : T → Version) (items r : List T),
      SortByVersion U fuel items f = some r → r.Perm items) := by
  have hle : 3 ≤ fuel + 3 := by omega
  have h1 := Version_gt_mono U 3 (fuel + 3) hle _ _ _ (sort_cmp_32 U)
  have h2 := Version_gt_mono U 3 (fuel + 3) hle _ _ _ (sort_cmp_31 U)
  have h3 := Version_gt_mono U 3 (fuel + 3) hle _ _ _ (sort_cmp_30 U)
  refine ⟨?_, ?_, h2, ?_, ?_⟩
  · intro l hp
    exact no_order_of_cycle _ _ _ _ (by decide) (by decide) (by decide)
      (fun h => h h1) (fun h => h h2) (fun h => h h3) l hp
  · exact SortByVersion_mono U 3 (fuel + 3) hle _ _ _ (sort_cycle U)
  · exact SortByVersion_mono U 3 (fuel + 3) hle _ _ _ (sort_test U)
  · intro T f items r h
    exact SortByVersion_perm U fuel items f r h

/-! ## The parts built by the parser from a text -/

theorem finalizeNewPart_Raw_eq (r : List Char) (b : Bool) : (finalizeNewPart r b).Raw = r := by
  obtain ⟨i, c, h⟩ := finalizeNewPart_leaf r b
  rw [h]; rfl

/-- The call `strconv.Atoi` fails on a run without digits. -/
theorem Atoi_literal_run (U : UnicodeTables) (r : List Char)
    (h : isLiteralRun U r = true) : Atoi r = none := by
  have hnd : ∀ c ∈ r, isAsciiDigit c = false := by
    intro c hc
    have h1 := (List.all_eq_true.1 h) c hc
    cases hd : isAsciiDigit c with
    | false => rfl
    | true =>
      rw [isDigit_of_isAsciiDigit U c hd] at h1
      exact absurd h1 (by decide)
  have key : ∀ ds : List Char, (∀ c ∈ ds, isAsciiDigit c = false) →
      (ds.isEmpty || !ds.all isAsciiDigit) = true := by
    intro ds hds
    cases ds with
    | nil => rfl
    | cons d t =>
      have := hds d (List.mem_cons_self _ _)
      simp [this]
  unfold Atoi
  have hds : ∀ c ∈ (match r with | '+' :: r2 => r2 | '-' :: r2 => r2 | _ => r),
      isAsciiDigit c = false := by
    intro c hc
    split at hc
    · exact hnd c (List.mem_cons_of_mem _ hc)
    · exact hnd c (List.mem_cons_of_mem _ hc)
    · exact hnd c hc
  simp only [key _ hds, if_true]

/-- A run closed by the parser is a leaf. -/
theorem finalizeNewPart_isLeaf (U : UnicodeTables) (r : List Char) (b : Bool)
    (h : runKind U b r) : (finalizeNewPart r b).isLeaf := by
  unfold finalizeNewPart VersionPart.isLeaf
  cases b with
  | false =>
    have := Atoi_literal_run U r (by simpa [runKind] using h)
    simp [VersionPart.SubParts, VersionPart.IsInt, VersionPart.Raw, this]
  | true =>
    cases hA : Atoi r with
    | none => simp [VersionPart.SubParts, VersionPart.IsInt, VersionPart.Raw, hA]
    | some v =>
      simp [VersionPart.SubParts, VersionPart.IsInt, VersionPart.Raw, VersionPart.IntRepr, hA]

theorem isDigitRun_append (U : UnicodeTables) (r : List Char) (c : Char)
    (h : isDigitRun U r = true) (hc : isDigit U c = true) : isDigitRun U (r ++ [c]) = true := by
  unfold isDigitRun at h ⊢
  simp [List.all_append, h, hc]

theorem isLiteralRun_append (U : UnicodeTables) (r : List Char) (c : Char)
    (h : isLiteralRun U r = true) (hc : isDigit U c = false) :
    isLiteralRun U (r ++ [c]) = true := by
  unfold isLiteralRun at h ⊢
  simp [List.all_append, h, hc]

/-- A run with a character is not both a run of digits and a run of non-digits. -/
theorem not_both_runs (U : UnicodeTables) (r : List Char) (hne : r ≠ [])
    (h1 : isDigitRun U r = true) (h2 : isLiteralRun U r = true) : False := by
  cases r with
  | nil => exact hne rfl
  | cons c t =>
    simp [isDigitRun, isLiteralRun] at h1 h2
    rw [h1.1] at h2
    exact absurd h2.1 (by decide)

theorem alternate_append_digit (U : UnicodeTables) (x r : List Char) (c : Char) (hne : r ≠ [])
    (h : isDigitRun U r = true) (hc : isDigit U c = true) (ha : alternate U x r) :
    alternate U x (r ++ [c]) := by
  rcases ha with ⟨_, h2⟩ | ⟨h1, _⟩
  · exact absurd (not_both_runs U r hne h h2) id
  · exact Or.inr ⟨h1, isDigitRun_append U r c h hc⟩

theorem alternate_append_literal (U : UnicodeTables) (x r : List Char) (c : Char)
    (hne : r ≠ []) (h : isLiteralRun U r = true) (hc : isDigit U c = false)
    (ha : alternate U x r) : alternate U x (r ++ [c]) := by
  rcases ha with ⟨h1, _⟩ | ⟨_, h2⟩
  · exact Or.inl ⟨h1, isLiteralRun_append U r c h hc⟩
  · exact absurd (not_both_runs U r hne h2 h) id

/-- Replacing the last run of a chain by a run that every neighbour still alternates with. -/
theorem chain_replace_last (U : UnicodeTables) (raws : List (List Char)) (a b : List Char)
    (h : List.Chain' (alternate U) (raws ++ [a]))
    (hab : raws ≠ [] → ∀ x, alternate U x a → alternate U x b) :
    List.Chain' (alternate U) (raws ++ [b]) := by
  rw [List.chain'_append] at h ⊢
  refine ⟨h.1, List.chain'_singleton _, ?_⟩
  intro x hx y hy
  have hne : raws ≠ [] := by
    intro h0
    rw [h0] at hx
    simp at hx
  simp only [List.head?_cons, Option.mem_def, Option.some.injEq] at hy
  subst hy
  exact hab hne x (h.2.2 x hx a (by simp))

/-- Closing the open run and opening a new one. -/
theorem chain_push (U : UnicodeTables) (raws : List (List Char)) (a b : List Char)
    (h : List.Chain' (alternate U) (raws ++ [a])) (hab : alternate U a b) :
    List.Chain' (alternate U) ((raws ++ [a]) ++ [b]) := by
  rw [List.chain'_append]
  refine ⟨h, List.chain'_singleton _, ?_⟩
  intro x hx y hy
  simp only [List.head?_cons, Option.mem_def, Option.some.injEq] at hy
  simp only [List.getLast?_append, List.getLast?_singleton, Option.mem_def] at hx
  have hx2 : some a = some x := hx
  subst hy
  rw [← Option.some.inj hx2]
  exact hab

/-- The scanning loop appends the character to the open run. -/
theorem ScanInv_extend (U : UnicodeTables) (consumed : List Char) (parts : List VersionPart)
    (cur : List Char) (b d : Bool) (c : Char) (hd : isDigit U c = d)
    (hinv : ScanInv U consumed ⟨parts, cur, b⟩) (hsame : b = d ∨ cur = []) :
    ScanInv U (consumed ++ [c]) ⟨parts, cur ++ [c], d⟩ := by
  have hkind : runKind U d cur := by
    rcases hsame with h | h
    · rw [← h]; exact hinv.kind
    · rw [h]; cases d <;> simp [runKind, isDigitRun, isLiteralRun]
  refine ⟨hinv.leaf, ?_, ?_, ?_, ?_⟩
  · cases d with
    | true => exact isDigitRun_append U cur c (by simpa [runKind] using hkind) hd
    | false => exact isLiteralRun_append U cur c (by simpa [runKind] using hkind) hd
  · refine chain_replace_last U _ cur (cur ++ [c]) hinv.chain ?_
    intro hne x hx
    have hcur : cur ≠ [] := hinv.cur (by simpa using hne)
    cases d with
    | true => exact alternate_append_digit U x cur c hcur (by simpa [runKind] using hkind) hd hx
    | false =>
      exact alternate_append_literal U x cur c hcur (by simpa [runKind] using hkind) hd hx
  · have := hinv.cat
    simp only at this ⊢
    rw [← List.append_assoc, this]
  · intro _
    simp

/-- The scanning loop closes the open run and opens a new one with the character. -/
theorem ScanInv_switch (U : UnicodeTables) (consumed : List Char) (parts : List VersionPart)
    (cur : List Char) (b d : Bool) (c : Char) (hd : isDigit U c = d)
    (hinv : ScanInv U consumed ⟨parts, cur, b⟩) (hdiff : b = !d) (hcur : cur ≠ []) :
    ScanInv U (consumed ++ [c]) ⟨parts ++ [finalizeNewPart cur b], [c], d⟩ := by
  have hkind : runKind U b cur := hinv.kind
  have hc : runKind U d [c] := by
    cases d <;> simp [runKind, isDigitRun, isLiteralRun, hd]
  have hmap : (parts ++ [finalizeNewPart cur b]).map VersionPart.Raw =
      parts.map VersionPart.Raw ++ [cur] := by
    simp [finalizeNewPart_Raw_eq]
  refine ⟨?_, hc, ?_, ?_, ?_⟩
  · intro p hp
    rcases List.mem_append.1 hp with h | h
    · exact hinv.leaf p h
    · simp only [List.mem_singleton] at h
      rw [h]
      exact ⟨finalizeNewPart_isLeaf U cur b hkind, by rw [finalizeNewPart_Raw_eq]; exact hcur⟩
  · show List.Chain' (alternate U) ((parts ++ [finalizeNewPart cur b]).map VersionPart.Raw ++ [[c]])
    rw [hmap]
    refine chain_push U _ cur [c] hinv.chain ?_
    subst hdiff
    cases d with
    | true =>
      exact Or.inr ⟨by simpa [runKind] using hkind, by simpa [runKind] using hc⟩
    | false =>
      exact Or.inl ⟨by simpa [runKind] using hkind, by simpa [runKind] using hc⟩
  · show ((parts ++ [finalizeNewPart cur b]).map VersionPart.Raw).flatten ++ [c] = consumed ++ [c]
    have := hinv.cat
    simp only at this
    rw [hmap, List.flatten_append, ← this]
    simp
  · intro _
    simp

/-- One iteration of the scanning loop keeps the invariant. -/
theorem scanStep_inv (U : UnicodeTables) (consumed : List Char) (st : ScanState) (c : Char)
    (hinv : ScanInv U consumed st) : ScanInv U (consumed ++ [c]) (scanStep U st c) := by
  obtain ⟨parts, cur, b⟩ := st
  unfold scanStep
  cases hd : isDigit U c with
  | true =>
    simp only [if_true]
    by_cases hcond : (b || cur.isEmpty) = true
    · simp only [hcond, if_true]
      refine ScanInv_extend U consumed parts cur b true c hd hinv ?_
      rcases Bool.or_eq_true_iff.1 hcond with h | h
      · exact Or.inl h
      · exact Or.inr (List.isEmpty_iff.1 h)
    · simp only [hcond]
      have hb : b = false := by
        cases b
        · rfl
        · simp at hcond
      have hne : cur ≠ [] := by
        intro h0
        rw [h0] at hcond
        simp at hcond
      have hlen : cur.length > 0 := List.length_pos.2 hne
      simp only [hlen, if_true, Bool.false_eq_true, if_false]
      exact ScanInv_switch U consumed parts cur b true c hd hinv (by rw [hb]; rfl) hne
  | false =>
    simp only [Bool.false_eq_true, if_false]
    by_cases hcond : (!b || cur.isEmpty) = true
    · simp only [hcond, if_true]
      refine ScanInv_extend U consumed parts cur b false c hd hinv ?_
      rcases Bool.or_eq_true_iff.1 hcond with h | h
      · left
        cases b
        · rfl
        · simp at h
      · exact Or.inr (List.isEmpty_iff.1 h)
    · simp only [hcond]
      have hb : b = true := by
        cases b
        · simp at hcond
        · rfl
      have hne : cur ≠ [] := by
        intro h0
        rw [h0] at hcond
        simp at hcond
      have hlen : cur.length > 0 := List.length_pos.2 hne
      simp only [hlen, if_true, Bool.false_eq_true, if_false]
      exact ScanInv_switch U consumed parts cur b false c hd hinv (by rw [hb]; rfl) hne

/-- The scanning loop keeps the invariant over the characters it reads. -/
theorem scan_fold_inv (U : UnicodeTables) (s : List Char) :
    ∀ (consumed : List Char) (st : ScanState), ScanInv U consumed st →
      ScanInv U (consumed ++ s) (s.foldl (scanStep U) st) := by
  induction s with
  | nil => intro consumed st h; simpa using h
  | cons c cs ih =>
    intro consumed st h
    rw [List.foldl_cons]
    have := ih (consumed ++ [c]) _ (scanStep_inv U consumed st c h)
    simpa using this

/-- The invariant holds of the scanning loop when it ends. -/
theorem scan_inv (U : UnicodeTables) (s : List Char) : ScanInv U s (scan U s) := by
  have h0 : ScanInv U [] ⟨[], [], false⟩ :=
    ⟨by simp, by simp [runKind, isLiteralRun], by simp, by simp, by simp⟩
  have := scan_fold_inv U s [] _ h0
  simpa [scan] using this

/-- Every part that the parser builds from a text is well-formed. For every text `seg` the
part `ParseVersionPart(seg)` has `Raw = seg` and is either a leaf (no `SubParts`, `IsInt` true
exactly when `strconv.Atoi(seg)` succeeds, and then `IntRepr` is its value) or has `IsInt` false
and at least two `SubParts`, each of them a leaf with a non-empty `Raw`, neighbours alternating
between a run of digits and a run of non-digits (digits in the sense of `unicode.IsDigit`), and
the `Raw` of the sub-parts concatenated in order give `seg`. The instance `RC11` has the
sub-parts `RC`, a literal, and `11`, an integer. -/
theorem ParseVersionPart_well_formed (U : UnicodeTables) (seg : List Char) :
    (ParseVersionPart U seg).Raw = seg ∧
    ((ParseVersionPart U seg).isLeaf ∨
      ((ParseVersionPart U seg).IsInt = false ∧
        2 ≤ (ParseVersionPart U seg).SubParts.length ∧
        (∀ p ∈ (ParseVersionPart U seg).SubParts, p.isLeaf ∧ p.Raw ≠ []) ∧
        List.Chain' (fun a b => alternate U a.Raw b.Raw) (ParseVersionPart U seg).SubParts ∧
        ((ParseVersionPart U seg).SubParts.map VersionPart.Raw).flatten = seg)) ∧
    ParseVersionPart U "RC11".toList =
      VersionPart.mk "RC11".toList 0 false
        [VersionPart.mk "RC".toList 0 false [], VersionPart.mk "11".toList 11 true []] := by
  refine ⟨ParseVersionPart_Raw U seg, ?_, rfl⟩
  unfold ParseVersionPart
  cases hA : Atoi seg with
  | some v =>
    left
    simp [VersionPart.isLeaf, VersionPart.SubParts, VersionPart.IsInt, VersionPart.Raw,
      VersionPart.IntRepr, hA]
  | none =>
    have hinv := scan_inv U seg
    by_cases hlen : (scan U seg).parts.length > 0
    · right
      simp only [hlen, if_true, VersionPart.IsInt, VersionPart.SubParts]
      have hne : (scan U seg).parts ≠ [] := List.length_pos.1 hlen
      have hcur := hinv.cur hne
      have hmap : ((scan U seg).parts ++
          [finalizeNewPart (scan U seg).currentPartRaw (scan U seg).currentIsInt]).map
            VersionPart.Raw =
          (scan U seg).parts.map VersionPart.Raw ++ [(scan U seg).currentPartRaw] := by
        simp [finalizeNewPart_Raw_eq]
      refine ⟨trivial, ?_, ?_, ?_, ?_⟩
      · rw [List.length_append, List.length_singleton]
        omega
      · intro p hp
        rcases List.mem_append.1 hp with h | h
        · exact hinv.leaf p h
        · simp only [List.mem_singleton] at h
          rw [h]
          exact ⟨finalizeNewPart_isLeaf U _ _ hinv.kind,
            by rw [finalizeNewPart_Raw_eq]; exact hcur⟩
      · rw [← List.chain'_map VersionPart.Raw, hmap]
        exact hinv.chain
      · rw [hmap, List.flatten_append]
        simpa using hinv.cat
    · left
      have hnil : (scan U seg).parts = [] := by
        cases h : (scan U seg).parts with
        | nil => rfl
        | cons a l => rw [h] at hlen; simp at hlen
      simp [VersionPart.isLeaf, VersionPart.SubParts, VersionPart.IsInt, VersionPart.Raw,
        hA, hnil]

/-! ## C19 on bytes: decoding and encoding of UTF-8 -/

theorem Char_toNat_valid (c : Char) :
    c.toNat < 0xD800 ∨ (0xDFFF < c.toNat ∧ c.toNat < 0x110000) := c.valid

theorem firstInfo_two (s0 : Nat) (h : 0xC2 ≤ s0 ∧ s0 ≤ 0xDF) :
    firstInfo s0 = some (2, 0x80, 0xBF) := by
  unfold firstInfo
  rw [if_pos h]

theorem firstInfo_three (s0 : Nat) (h : 0xE0 ≤ s0 ∧ s0 ≤ 0xEF) :
    firstInfo s0 =
      some (3, if s0 = 0xE0 then 0xA0 else 0x80, if s0 = 0xED then 0x9F else 0xBF) := by
  unfold firstInfo
  rw [if_neg (by omega)]
  by_cases h0 : s0 = 0xE0
  · rw [if_pos h0, if_pos h0, if_neg (by omega)]
  · rw [if_neg h0, if_neg h0]
    by_cases h1 : s0 = 0xED
    · rw [if_neg (by omega), if_pos h1, if_pos h1]
    · rw [if_pos (by omega), if_neg h1]

theorem firstInfo_four (s0 : Nat) (h : 0xF0 ≤ s0 ∧ s0 ≤ 0xF4) :
    firstInfo s0 =
      some (4, if s0 = 0xF0 then 0x90 else 0x80, if s0 = 0xF4 then 0x8F else 0xBF) := by
  unfold firstInfo
  rw [if_neg (by omega), if_neg (by omega), if_neg (by omega), if_neg (by omega)]
  by_cases h0 : s0 = 0xF0
  · rw [if_pos h0, if_pos h0, if_neg (by omega)]
  · rw [if_neg h0, if_neg h0]
    by_cases h1 : s0 = 0xF4
    · rw [if_neg (by omega), if_pos h1, if_pos h1]
    · rw [if_pos (by omega), if_neg h1]

/-- Decoding a well-formed sequence of two bytes. -/
theorem DecodeRune_two (s0 s1 : Nat) (rest : List Nat) (h0 : 0xC2 ≤ s0 ∧ s0 ≤ 0xDF)
    (h1 : 0x80 ≤ s1 ∧ s1 ≤ 0xBF) :
    DecodeRune (s0 :: s1 :: rest) = (Char.ofNat (s0 % 32 * 64 + s1 % 64), 2) := by
  unfold DecodeRune
  simp only [firstInfo_two s0 h0, List.getD_cons_zero, List.length_cons]
  rw [if_neg (by omega), if_neg (by omega), if_neg (by omega), if_pos (by omega)]

/-- Decoding a well-formed sequence of three bytes. -/
theorem DecodeRune_three (s0 s1 s2 : Nat) (rest : List Nat) (h0 : 0xE0 ≤ s0 ∧ s0 ≤ 0xEF)
    (h1 : (if s0 = 0xE0 then 0xA0 else 0x80) ≤ s1 ∧ s1 ≤ (if s0 = 0xED then 0x9F else 0xBF))
    (h2 : 0x80 ≤ s2 ∧ s2 ≤ 0xBF) :
    DecodeRune (s0 :: s1 :: s2 :: rest) =
      (Char.ofNat (s0 % 16 * 4096 + s1 % 64 * 64 + s2 % 64), 3) := by
  unfold DecodeRune
  simp only [firstInfo_three s0 h0, List.getD_cons_zero, List.getD_cons_succ, List.length_cons]
  rw [if_neg (by omega), if_neg (by omega), if_neg (by omega), if_neg (by omega),
    if_neg (by omega), if_pos (by omega)]

/-- Decoding a well-formed sequence of four bytes. -/
theorem DecodeRune_four (s0 s1 s2 s3 : Nat) (rest : List Nat) (h0 : 0xF0 ≤ s0 ∧ s0 ≤ 0xF4)
    (h1 : (if s0 = 0xF0 then 0x90 else 0x80) ≤ s1 ∧ s1 ≤ (if s0 = 0xF4 then 0x8F else 0xBF))
    (h2 : 0x80 ≤ s2 ∧ s2 ≤ 0xBF) (h3 : 0x80 ≤ s3 ∧ s3 ≤ 0xBF) :
    DecodeRune (s0 :: s1 :: s2 :: s3 :: rest) =
      (Char.ofNat (s0 % 8 * 262144 + s1 % 64 * 4096 + s2 % 64 * 64 + s3 % 64), 4) := by
  unfold DecodeRune
  simp only [firstInfo_four s0 h0, List.getD_cons_zero, List.getD_cons_succ, List.length_cons]
  rw [if_neg (by omega), if_neg (by omega), if_neg (by omega), if_neg (by omega),
    if_neg (by omega), if_neg (by omega), if_neg (by omega)]

/-- Decoding undoes encoding: the first rune of the bytes of `c` followed by any bytes is `c`,
and its width is the number of bytes of `c`. -/
theorem DecodeRune_EncodeRune (c : Char) (rest : List Nat) :
    DecodeRune (EncodeRune c ++ rest) = (c, (EncodeRune c).length) := by
  have hv := Char_toNat_valid c
  unfold EncodeRune
  by_cases h1 : c.toNat ≤ 0x7F
  · rw [if_pos h1]
    simp only [List.singleton_append, List.length_singleton]
    simp only [DecodeRune]
    rw [if_pos (by omega), Char.ofNat_toNat]
  · rw [if_neg h1]
    by_cases h2 : c.toNat ≤ 0x7FF
    · rw [if_pos h2]
      simp only [List.cons_append, List.nil_append, List.length_cons, List.length_nil]
      rw [DecodeRune_two _ _ _ (by omega) (by omega)]
      have : (0xC0 + c.toNat / 64) % 32 * 64 + (0x80 + c.toNat % 64) % 64 = c.toNat := by omega
      rw [this, Char.ofNat_toNat]
    · rw [if_neg h2]
      by_cases h3 : c.toNat ≤ 0xFFFF
      · rw [if_pos h3]
        simp only [List.cons_append, List.nil_append, List.length_cons, List.length_nil]
        rw [DecodeRune_three _ _ _ _ (by omega) (by split_ifs <;> omega) (by omega)]
        have : (0xE0 + c.toNat / 4096) % 16 * 4096 + (0x80 + c.toNat / 64 % 64) % 64 * 64 +
            (0x80 + c.toNat % 64) % 64 = c.toNat := by omega
        rw [this, Char.ofNat_toNat]
      · rw [if_neg h3]
        simp only [List.cons_append, List.nil_append, List.length_cons, List.length_nil]
        rw [DecodeRune_four _ _ _ _ _ (by omega) (by split_ifs <;> omega) (by omega) (by omega)]
        have : (0xF0 + c.toNat / 262144) % 8 * 262144 +
            (0x80 + c.toNat / 4096 % 64) % 64 * 4096 + (0x80 + c.toNat / 64 % 64) % 64 * 64 +
            (0x80 + c.toNat % 64) % 64 = c.toNat := by omega
        rw [this, Char.ofNat_toNat]

theorem EncodeRune_length_pos (c : Char) : 0 < (EncodeRune c).length := by
  unfold EncodeRune
  split_ifs <;> simp

theorem EncodeRune_ne_nil (c : Char) : EncodeRune c ≠ [] := by
  intro h
  have := EncodeRune_length_pos c
  rw [h] at this
  exact absurd this (by decide)

/-- Every decoding step moves on by one byte at least. -/
theorem DecodeRune_width_pos (s0 : Nat) (t : List Nat) : 1 ≤ (DecodeRune (s0 :: t)).2 := by
  simp only [DecodeRune]
  split
  · simp
  · split
    · simp
    · split_ifs <;> simp

theorem rangeRunes_nil (fuel : Nat) : rangeRunes fuel [] = [] := by
  cases fuel <;> rfl

/-- The loop `range` visits the same runes whatever the bound on its iterations, from the
number of bytes on. -/
theorem rangeRunes_fuel_eq : ∀ (n m : Nat) (s : List Nat), s.length ≤ n → s.length ≤ m →
    rangeRunes n s = rangeRunes m s := by
  intro n
  induction n with
  | zero =>
    intro m s hn _
    have : s = [] := List.length_eq_zero.1 (by omega)
    rw [this, rangeRunes_nil, rangeRunes_nil]
  | succ n ih =>
    intro m s hn hm
    cases s with
    | nil => rw [rangeRunes_nil, rangeRunes_nil]
    | cons s0 t =>
      cases m with
      | zero => simp at hm
      | succ m =>
        simp only [rangeRunes]
        have hw := DecodeRune_width_pos s0 t
        have hlen : ((s0 :: t).drop (DecodeRune (s0 :: t)).2).length ≤ t.length := by
          rw [List.length_drop, List.length_cons]
          omega
        simp only [List.length_cons] at hn hm
        rw [ih m _ (by omega) (by omega)]

theorem rangeRunes_fuel (fuel : Nat) (s : List Nat) (h : s.length ≤ fuel) :
    rangeRunes fuel s = runes s :=
  rangeRunes_fuel_eq fuel s.length s h (Nat.le_refl _)

theorem runes_nil : runes [] = [] := rfl

/-- The loop `range` over the bytes of `c` followed by `rest` visits `c` and then the runes of
`rest`. -/
theorem runes_EncodeRune_append (c : Char) (rest : List Nat) :
    runes (EncodeRune c ++ rest) = c :: runes rest := by
  have hd := DecodeRune_EncodeRune c rest
  have hpos := EncodeRune_length_pos c
  cases he : EncodeRune c ++ rest with
  | nil =>
    have := congrArg List.length he
    rw [List.length_append, List.length_nil] at this
    omega
  | cons s0 t =>
    rw [he] at hd
    have hlen : t.length + 1 = (EncodeRune c).length + rest.length := by
      have := congrArg List.length he
      rw [List.length_append, List.length_cons] at this
      omega
    unfold runes
    rw [List.length_cons]
    simp only [rangeRunes]
    rw [hd, ← he, List.drop_left]
    simp only
    rw [rangeRunes_fuel _ _ (by omega)]
    rfl

theorem utf8_nil : utf8 [] = [] := rfl

theorem utf8_cons (c : Char) (s : List Char) : utf8 (c :: s) = EncodeRune c ++ utf8 s := by
  simp [utf8, List.flatMap_cons]

theorem utf8_append (s t : List Char) : utf8 (s ++ t) = utf8 s ++ utf8 t := by
  simp [utf8, List.flatMap_append]

theorem utf8_singleton (c : Char) : utf8 [c] = EncodeRune c := by
  simp [utf8]

theorem utf8_eq_nil (s : List Char) : utf8 s = [] ↔ s = [] := by
  cases s with
  | nil => simp [utf8_nil]
  | cons c cs =>
    rw [utf8_cons]
    simp [EncodeRune_ne_nil]

theorem utf8_flatten (l : List (List Char)) : utf8 l.flatten = (l.map utf8).flatten := by
  induction l with
  | nil => rfl
  | cons a l ih => simp [utf8_append, ih]

/-- The loop `range` over the bytes of a text visits the code points of the text. -/
theorem runes_utf8 (s : List Char) : runes (utf8 s) = s := by
  induction s with
  | nil => rfl
  | cons c cs ih => rw [utf8_cons, runes_EncodeRune_append, ih]

/-- A string of valid UTF-8 is the bytes of the text that `range` reads from it. -/
theorem utf8_runes_of_valid (s : List Nat) (h : validUTF8 s = true) : utf8 (runes s) = s :=
  of_decide_eq_true h

/-- The bytes of a text are valid UTF-8. -/
theorem validUTF8_utf8 (s : List Char) : validUTF8 (utf8 s) = true := by
  unfold validUTF8
  rw [runes_utf8]
  exact decide_eq_true rfl

/-- The strings of valid UTF-8 are the bytes of the texts. -/
theorem validUTF8_iff (s : List Nat) :
    validUTF8 s = true ↔ ∃ text : List Char, s = utf8 text := by
  constructor
  · intro h
    exact ⟨runes s, (utf8_runes_of_valid s h).symm⟩
  · rintro ⟨text, rfl⟩
    exact validUTF8_utf8 text

/-! ## C19 on bytes: `strconv.Atoi` and the parser on the bytes of a text -/

theorem toBytesAll_eq_map (l : List VersionPart) : toBytesAll l = l.map VersionPart.toBytes := by
  induction l with
  | nil => rfl
  | cons p ps ih => simp [toBytesAll, ih]

theorem toBytes_Raw (p : VersionPart) : p.toBytes.Raw = utf8 p.Raw := by
  cases p; rfl

theorem toBytes_IntRepr (p : VersionPart) : p.toBytes.IntRepr = p.IntRepr := by
  cases p; rfl

theorem toBytes_IsInt (p : VersionPart) : p.toBytes.IsInt = p.IsInt := by
  cases p; rfl

theorem toBytes_SubParts (p : VersionPart) :
    p.toBytes.SubParts = p.SubParts.map VersionPart.toBytes := by
  cases p
  simp [VersionPart.toBytes, VersionPartBytes.SubParts, VersionPart.SubParts, toBytesAll_eq_map]

theorem EncodeRune_ascii (c : Char) (h : c.toNat ≤ 0x7F) : EncodeRune c = [c.toNat] := by
  unfold EncodeRune
  rw [if_pos h]

/-- The encoding of a code point beyond ASCII starts with a byte from 0xC0 on. -/
theorem EncodeRune_head (c : Char) (h : ¬ c.toNat ≤ 0x7F) :
    ∃ b t, EncodeRune c = b :: t ∧ 0xC0 ≤ b := by
  unfold EncodeRune
  rw [if_neg h]
  split_ifs
  · exact ⟨_, _, rfl, by omega⟩
  · exact ⟨_, _, rfl, by omega⟩
  · exact ⟨_, _, rfl, by omega⟩

theorem isDigitByte_toNat (c : Char) : isDigitByte c.toNat = isAsciiDigit c := rfl

theorem all_isDigitByte_EncodeRune (c : Char) :
    (EncodeRune c).all isDigitByte = isAsciiDigit c := by
  by_cases h : c.toNat ≤ 0x7F
  · rw [EncodeRune_ascii c h]
    simp [isDigitByte_toNat]
  · obtain ⟨b, t, he, hb⟩ := EncodeRune_head c h
    rw [he]
    have h1 : isDigitByte b = false := by
      unfold isDigitByte
      simp
      omega
    have h2 : isAsciiDigit c = false := by
      unfold isAsciiDigit
      simp
      omega
    simp [h1, h2]

theorem all_isDigitByte_utf8 (ds : List Char) :
    (utf8 ds).all isDigitByte = ds.all isAsciiDigit := by
  induction ds with
  | nil => rfl
  | cons c cs ih =>
    rw [utf8_cons, List.all_append, all_isDigitByte_EncodeRune, ih, List.all_cons]

theorem utf8_of_digits (ds : List Char) (h : ds.all isAsciiDigit = true) :
    utf8 ds = ds.map Char.toNat := by
  induction ds with
  | nil => rfl
  | cons c cs ih =>
    rw [List.all_cons, Bool.and_eq_true] at h
    have hc : c.toNat ≤ 0x7F := by
      have := (isAsciiDigit_iff c).1 h.1
      omega
    rw [utf8_cons, EncodeRune_ascii c hc, ih h.2]
    rfl

theorem digitsValueBytes_map (ds : List Char) :
    digitsValueBytes (ds.map Char.toNat) = digitsValue ds := by
  unfold digitsValueBytes digitsValue
  rw [List.foldl_map]

theorem utf8_isEmpty (s : List Char) : (utf8 s).isEmpty = s.isEmpty := by
  cases s with
  | nil => rfl
  | cons c cs =>
    have : utf8 (c :: cs) ≠ [] := fun h => by
      have := (utf8_eq_nil (c :: cs)).1 h
      exact absurd this (by simp)
    cases hu : utf8 (c :: cs) with
    | nil => exact absurd hu this
    | cons b t => rfl

/-- The unsigned core of `strconv.Atoi` on the bytes of a text. -/
theorem Atoi_core_utf8 (ds : List Char) (neg : Bool) :
    (if (utf8 ds).isEmpty || !(utf8 ds).all isDigitByte then none
      else
        let v : Int := if neg then -(digitsValueBytes (utf8 ds) : Int)
          else (digitsValueBytes (utf8 ds) : Int)
        if minInt ≤ v ∧ v ≤ maxInt then some v else none) =
    (if ds.isEmpty || !ds.all isAsciiDigit then none
      else
        let v : Int := if neg then -(digitsValue ds : Int) else (digitsValue ds : Int)
        if minInt ≤ v ∧ v ≤ maxInt then some v else none) := by
  rw [utf8_isEmpty, all_isDigitByte_utf8]
  by_cases h : ds.all isAsciiDigit = true
  · rw [utf8_of_digits ds h, digitsValueBytes_map]
  · have h2 : ds.all isAsciiDigit = false := by simpa using h
    simp only [h2, Bool.not_false, Bool.or_true, if_true]

theorem Atoi_unsigned_core (d : Char) (ds : List Char) (h1 : d ≠ '+') (h2 : d ≠ '-') :
    Atoi (d :: ds) =
      (if (d :: ds).isEmpty || !(d :: ds).all isAsciiDigit then none
      else
        let v : Int := if false then -(digitsValue (d :: ds) : Int)
          else (digitsValue (d :: ds) : Int)
        if minInt ≤ v ∧ v ≤ maxInt then some v else none) := by
  have hneg : (match d :: ds with | '-' :: _ => true | _ => false) = false := by
    split
    · next h => simp at h; exact absurd h.1 h2
    · rfl
  have hds : (match d :: ds with | '+' :: r => r | '-' :: r => r | _ => d :: ds) = d :: ds := by
    split
    · next h => simp at h; exact absurd h.1 h1
    · next h => simp at h; exact absurd h.1 h2
    · rfl
  unfold Atoi
  simp only [hneg, hds]

theorem AtoiBytes_unsigned_core (b : Nat) (t : List Nat) (h1 : b ≠ 43) (h2 : b ≠ 45) :
    AtoiBytes (b :: t) =
      (if (b :: t).isEmpty || !(b :: t).all isDigitByte then none
      else
        let v : Int := if false then -(digitsValueBytes (b :: t) : Int)
          else (digitsValueBytes (b :: t) : Int)
        if minInt ≤ v ∧ v ≤ maxInt then some v else none) := by
  have hneg : (b == 45) = false := by simpa using h2
  have hds : (if b = 43 ∨ b = 45 then t else b :: t) = b :: t := by
    rw [if_neg (by omega)]
  unfold AtoiBytes
  simp only [hneg, hds]

/-- The first byte of the text that starts with `c`, neither `+` nor `-`, is not a sign. -/
theorem utf8_head_unsigned (c : Char) (cs : List Char) (hp : c ≠ '+') (hm : c ≠ '-') :
    ∃ b t, utf8 (c :: cs) = b :: t ∧ b ≠ 43 ∧ b ≠ 45 := by
  rw [utf8_cons]
  by_cases h : c.toNat ≤ 0x7F
  · rw [EncodeRune_ascii c h]
    refine ⟨c.toNat, utf8 cs, rfl, ?_, ?_⟩
    · intro e
      exact hp (Char_eq_of_toNat_eq c '+' e)
    · intro e
      exact hm (Char_eq_of_toNat_eq c '-' e)
  · obtain ⟨b, t, he, hb⟩ := EncodeRune_head c h
    rw [he]
    exact ⟨b, t ++ utf8 cs, rfl, by omega, by omega⟩

/-- The call `strconv.Atoi` sees the bytes of a text as it sees the text. -/
theorem AtoiBytes_utf8 (s : List Char) : AtoiBytes (utf8 s) = Atoi s := by
  cases s with
  | nil => rfl
  | cons c cs =>
    by_cases hm : c = '-'
    · subst hm
      have e : utf8 ('-' :: cs) = 45 :: utf8 cs := by
        rw [utf8_cons, EncodeRune_ascii _ (by decide)]; rfl
      rw [e]
      exact Atoi_core_utf8 cs true
    · by_cases hp : c = '+'
      · subst hp
        have e : utf8 ('+' :: cs) = 43 :: utf8 cs := by
          rw [utf8_cons, EncodeRune_ascii _ (by decide)]; rfl
        rw [e]
        exact Atoi_core_utf8 cs false
      · obtain ⟨b, t, he, h1, h2⟩ := utf8_head_unsigned c cs hp hm
        rw [Atoi_unsigned_core c cs hp hm, he, AtoiBytes_unsigned_core b t h1 h2, ← he]
        exact Atoi_core_utf8 (c :: cs) false

theorem finalizeNewPartBytes_utf8 (r : List Char) (b : Bool) :
    finalizeNewPartBytes (utf8 r) b = (finalizeNewPart r b).toBytes := by
  unfold finalizeNewPartBytes finalizeNewPart
  rw [AtoiBytes_utf8]
  cases b
  · rfl
  · cases Atoi r <;> rfl

/-- The variables of the scanning loop with their texts as bytes. -/
theorem scanStepBytes_utf8 (U : UnicodeTables) (st : ScanState) (c : Char) :
    scanStepBytes U
        ⟨st.parts.map VersionPart.toBytes, utf8 st.currentPartRaw, st.currentIsInt⟩ c =
      ⟨(scanStep U st c).parts.map VersionPart.toBytes, utf8 (scanStep U st c).currentPartRaw,
        (scanStep U st c).currentIsInt⟩ := by
  obtain ⟨parts, cur, b⟩ := st
  have hlen : (utf8 cur).length > 0 ↔ cur.length > 0 := by
    rw [gt_iff_lt, gt_iff_lt, List.length_pos, List.length_pos, Ne, Ne, utf8_eq_nil]
  unfold scanStepBytes scanStep
  simp only [utf8_isEmpty, finalizeNewPartBytes_utf8, hlen]
  split_ifs <;>
    simp [utf8_append, utf8_singleton, List.map_append]

theorem scanBytes_fold_utf8 (U : UnicodeTables) (s : List Char) : ∀ st : ScanState,
    s.foldl (scanStepBytes U)
        ⟨st.parts.map VersionPart.toBytes, utf8 st.currentPartRaw, st.currentIsInt⟩ =
      ⟨(s.foldl (scanStep U) st).parts.map VersionPart.toBytes,
        utf8 (s.foldl (scanStep U) st).currentPartRaw,
        (s.foldl (scanStep U) st).currentIsInt⟩ := by
  induction s with
  | nil => intro st; rfl
  | cons c cs ih =>
    intro st
    rw [List.foldl_cons, List.foldl_cons, scanStepBytes_utf8, ih]

/-- On the bytes of a text `ParseVersionPart` builds the part that it builds on the text, with
the texts as bytes. -/
theorem ParseVersionPartBytes_utf8 (U : UnicodeTables) (s : List Char) :
    ParseVersionPartBytes U (utf8 s) = (ParseVersionPart U s).toBytes := by
  unfold ParseVersionPartBytes ParseVersionPart
  rw [AtoiBytes_utf8]
  cases hA : Atoi s with
  | some v => rfl
  | none =>
    have hscan : scanBytes U (utf8 s) =
        ⟨(scan U s).parts.map VersionPart.toBytes, utf8 (scan U s).currentPartRaw,
          (scan U s).currentIsInt⟩ := by
      unfold scanBytes scan
      rw [runes_utf8]
      exact scanBytes_fold_utf8 U s ⟨[], [], false⟩
    simp only [hscan, List.length_map, finalizeNewPartBytes_utf8]
    split_ifs <;>
      simp [VersionPart.toBytes, toBytesAll_eq_map, List.map_append]

/-! ## C19: the parts built from a string of bytes -/

theorem toBytes_isLeaf (p : VersionPart) (h : p.isLeaf) : p.toBytes.isLeaf := by
  obtain ⟨h1, h2, h3⟩ := h
  refine ⟨?_, ?_, ?_⟩
  · rw [toBytes_SubParts, h1]; rfl
  · rw [toBytes_IsInt, toBytes_Raw, AtoiBytes_utf8]; exact h2
  · rw [toBytes_IsInt, toBytes_Raw, AtoiBytes_utf8, toBytes_IntRepr]; exact h3

theorem alternateBytes_utf8 (U : UnicodeTables) (a b : List Char) :
    alternateBytes U (utf8 a) (utf8 b) ↔ alternate U a b := by
  unfold alternateBytes
  rw [runes_utf8, runes_utf8]

/-- C19 (as amended): every part built by the parser from a string of valid UTF-8 is
well-formed. For every string `seg` of bytes that is valid UTF-8 the part
`ParseVersionPart(seg)` has `Raw = seg` and is either a leaf (no `SubParts`, `IsInt` true
exactly when `strconv.Atoi(seg)` succeeds, and then `IntRepr` is its value) or has `IsInt` false
and at least two `SubParts`, each of them a leaf with a non-empty `Raw`, neighbours alternating
between a run of digits and a run of non-digits (digits in the sense of `unicode.IsDigit`, of
the runes that `range` reads), and the `Raw` of the sub-parts concatenated in order give `seg`.
The instance `RC11` has the sub-parts `RC`, a literal, and `11`, an integer. -/
theorem C19_valid_utf8_part_well_formed (U : UnicodeTables) (seg : List Nat)
    (hvalid : validUTF8 seg = true) :
    (ParseVersionPartBytes U seg).Raw = seg ∧
    ((ParseVersionPartBytes U seg).isLeaf ∨
      ((ParseVersionPartBytes U seg).IsInt = false ∧
        2 ≤ (ParseVersionPartBytes U seg).SubParts.length ∧
        (∀ p ∈ (ParseVersionPartBytes U seg).SubParts, p.isLeaf ∧ p.Raw ≠ []) ∧
        List.Chain' (fun a b => alternateBytes U a.Raw b.Raw)
          (ParseVersionPartBytes U seg).SubParts ∧
        ((ParseVersionPartBytes U seg).SubParts.map VersionPartBytes.Raw).flatten = seg)) ∧
    ParseVersionPartBytes U [0x52, 0x43, 0x31, 0x31] =
      VersionPartBytes.mk [0x52, 0x43, 0x31, 0x31] 0 false
        [VersionPartBytes.mk [0x52, 0x43] 0 false [],
          VersionPartBytes.mk [0x31, 0x31] 11 true []] := by
  refine ⟨?_, ?_, rfl⟩
  · unfold ParseVersionPartBytes
    cases AtoiBytes seg <;> rfl
  · have h := utf8_runes_of_valid seg hvalid
    revert h
    generalize runes seg = s
    intro h
    subst h
    rw [ParseVersionPartBytes_utf8]
    obtain ⟨_, hw, _⟩ := ParseVersionPart_well_formed U s
    rcases hw with hleaf | ⟨hint, hlen, hsubs, hchain, hcat⟩
    · exact Or.inl (toBytes_isLeaf _ hleaf)
    · right
      rw [toBytes_IsInt, toBytes_SubParts]
      refine ⟨hint, ?_, ?_, ?_, ?_⟩
      · rw [List.length_map]; exact hlen
      · intro p hp
        obtain ⟨q, hq, rfl⟩ := List.mem_map.1 hp
        refine ⟨toBytes_isLeaf q (hsubs q hq).1, ?_⟩
        rw [toBytes_Raw]
        intro h0
        exact (hsubs q hq).2 ((utf8_eq_nil _).1 h0)
      · rw [List.chain'_map]
        refine List.Chain'.imp ?_ hchain
        intro a b hab
        rw [toBytes_Raw, toBytes_Raw]
        exact (alternateBytes_utf8 U _ _).2 hab
      · rw [List.map_map]
        have : (VersionPartBytes.Raw ∘ VersionPart.toBytes) = utf8 ∘ VersionPart.Raw := by
          funext p
          exact toBytes_Raw p
        rw [this, ← List.map_map, ← utf8_flatten, hcat]

/-- C19, witness: the bytes of `RC11` are valid UTF-8 and the part built from them is
well-formed. -/
theorem C19_valid_utf8_part_well_formed_witness :
    validUTF8 [0x52, 0x43, 0x31, 0x31] = true ∧
    ((ParseVersionPartBytes asciiTables [0x52, 0x43, 0x31, 0x31]).Raw = [0x52, 0x43, 0x31, 0x31] ∧
    ((ParseVersionPartBytes asciiTables [0x52, 0x43, 0x31, 0x31]).isLeaf ∨
      ((ParseVersionPartBytes asciiTables [0x52, 0x43, 0x31, 0x31]).IsInt = false ∧
        2 ≤ (ParseVersionPartBytes asciiTables [0x52, 0x43, 0x31, 0x31]).SubParts.length ∧
        (∀ p ∈ (ParseVersionPartBytes asciiTables [0x52, 0x43, 0x31, 0x31]).SubParts,
          p.isLeaf ∧ p.Raw ≠ []) ∧
        List.Chain' (fun a b => alternateBytes asciiTables a.Raw b.Raw)
          (ParseVersionPartBytes asciiTables [0x52, 0x43, 0x31, 0x31]).SubParts ∧
        ((ParseVersionPartBytes asciiTables [0x52, 0x43, 0x31, 0x31]).SubParts.map
          VersionPartBytes.Raw).flatten = [0x52, 0x43, 0x31, 0x31])) ∧
    ParseVersionPartBytes asciiTables [0x52, 0x43, 0x31, 0x31] =
      VersionPartBytes.mk [0x52, 0x43, 0x31, 0x31] 0 false
        [VersionPartBytes.mk [0x52, 0x43] 0 false [],
          VersionPartBytes.mk [0x31, 0x31] 11 true []]) :=
  ⟨by decide, C19_valid_utf8_part_well_formed asciiTables [0x52, 0x43, 0x31, 0x31] (by decide)⟩

/-- The part built from the bytes `1`, 0xFF, `2`, whatever the Unicode tables in which U+FFFD
is not a digit. -/
theorem ParseVersionPartBytes_invalid (U : UnicodeTables) (hU : U.digit RuneError = false) :
    ParseVersionPartBytes U [0x31, 0xFF, 0x32] =
      VersionPartBytes.mk [0x31, 0xFF, 0x32] 0 false
        [VersionPartBytes.mk [0x31] 1 true [], VersionPartBytes.mk [0xEF, 0xBF, 0xBD] 0 false [],
          VersionPartBytes.mk [0x32] 2 true []] := by
  have hA : AtoiBytes [0x31, 0xFF, 0x32] = none := rfl
  have hr : runes [0x31, 0xFF, 0x32] = ['1', RuneError, '2'] := rfl
  have d1 : isDigit U '1' = true := rfl
  have d2 : isDigit U RuneError = false := hU
  have d3 : isDigit U '2' = true := rfl
  have e1 : EncodeRune '1' = [0x31] := rfl
  have e2 : EncodeRune RuneError = [0xEF, 0xBF, 0xBD] := rfl
  have e3 : EncodeRune '2' = [0x32] := rfl
  have f1 : finalizeNewPartBytes [0x31] true = VersionPartBytes.mk [0x31] 1 true [] := rfl
  have f2 : finalizeNewPartBytes [0xEF, 0xBF, 0xBD] false =
      VersionPartBytes.mk [0xEF, 0xBF, 0xBD] 0 false [] := rfl
  have f3 : finalizeNewPartBytes [0x32] true = VersionPartBytes.mk [0x32] 2 true [] := rfl
  have hs : scanBytes U [0x31, 0xFF, 0x32] =
      ⟨[VersionPartBytes.mk [0x31] 1 true [], VersionPartBytes.mk [0xEF, 0xBF, 0xBD] 0 false []],
        [0x32], true⟩ := by
    unfold scanBytes
    rw [hr]
    simp [List.foldl, scanStepBytes, d1, d2, d3, e1, e2, e3, f1, f2]
  unfold ParseVersionPartBytes
  simp [hA, hs, f3]

/-- C19, counterexample: the string of the bytes `1`, 0xFF, `2` is not valid UTF-8. The loop
`range` reads the byte 0xFF as U+FFFD and `string(c)` writes it as the three bytes 0xEF, 0xBF,
0xBD, so that the part built by the parser has the sub-parts `1`, U+FFFD, `2`: it is not a
leaf, and the `Raw` of its sub-parts concatenated are five bytes and not its `Raw`. The part is
the same whatever the Unicode tables in which U+FFFD is not a digit, as in those of Go. -/
theorem C19_counterexample :
    validUTF8 [0x31, 0xFF, 0x32] = false ∧
    ParseVersionPartBytes asciiTables [0x31, 0xFF, 0x32] =
      VersionPartBytes.mk [0x31, 0xFF, 0x32] 0 false
        [VersionPartBytes.mk [0x31] 1 true [],
          VersionPartBytes.mk [0xEF, 0xBF, 0xBD] 0 false [],
          VersionPartBytes.mk [0x32] 2 true []] ∧
    ¬ (ParseVersionPartBytes asciiTables [0x31, 0xFF, 0x32]).isLeaf ∧
    ((ParseVersionPartBytes asciiTables [0x31, 0xFF, 0x32]).SubParts.map
        VersionPartBytes.Raw).flatten = [0x31, 0xEF, 0xBF, 0xBD, 0x32] ∧
    ((ParseVersionPartBytes asciiTables [0x31, 0xFF, 0x32]).SubParts.map
        VersionPartBytes.Raw).flatten ≠ [0x31, 0xFF, 0x32] ∧
    (∀ U : UnicodeTables, U.digit RuneError = false →
      ParseVersionPartBytes U [0x31, 0xFF, 0x32] =
        ParseVersionPartBytes asciiTables [0x31, 0xFF, 0x32]) := by
  have h := ParseVersionPartBytes_invalid asciiTables rfl
  refine ⟨by decide, h, ?_, ?_, ?_, ?_⟩
  · rw [h]
    intro hl
    exact absurd hl.1 (by simp [VersionPartBytes.SubParts])
  · rw [h]; rfl
  · rw [h]; decide
  · intro U hU
    rw [h, ParseVersionPartBytes_invalid U hU]

end GoVersion
